import Mathlib

/-!
# Verification of the configuration reference resolver

Shallow embedding of `template_customizer/core/resolver.py` (class
`ConfigResolver`) and `template_customizer/core/exceptions.py`.

Modelling conventions:
* Python values (the configuration tree) become the inductive type `Value`:
  strings, integers, booleans, `None`, lists, and dicts.  Dicts are modelled
  as insertion-ordered association lists, matching Python dict semantics
  (Python 3.7+ preserves insertion order; keys are unique).  Floats are not
  used by any claim and are omitted from the scalar kinds.
* Python's mutable state (`resolution_cache`, `resolution_stack`,
  `resolved_config`) is threaded explicitly; exceptions become `Except`.
* Python `set`s (dependency sets, `all_nodes`, `visited`, `rec_stack`) are
  modelled as duplicate-free lists in first-insertion order.  CPython
  iterates string sets in hash order; no theorem below depends on the
  iteration order of these sets beyond determinism.
* Jinja2 is an external library (not part of this repository's sources).
  Its rendering of the fragment reachable from `_resolve_value` is modelled
  by `renderTemplate` below: literal text interleaved with
  `{{ values.path [| filter]* }}` expressions, with the *default lenient*
  `Undefined` (the source constructs `Environment(loader=BaseLoader())`
  without `undefined=StrictUndefined`, resolver.py line 114), under which a
  missing path prints as the empty string.
-/

set_option maxRecDepth 10000

namespace Resolver

/-- A Python value as used by the resolver: the configuration tree.
Dicts are insertion-ordered association lists with unique keys. -/
inductive Value where
  | vStr (s : String)
  | vInt (n : Int)
  | vBool (b : Bool)
  | vNull
  | vList (xs : List Value)
  | vDict (xs : List (String × Value))
  deriving Repr

/-- Top-level configuration object: a Python dict. -/
abbrev Obj := List (String × Value)

mutual

/-- Structural equality on values (Lean side of Python `==`/`!=` as used in
the change check of `resolve`; see `resolve` below for why the two notions
coincide on every comparison the resolver performs). -/
def Value.beq : Value → Value → Bool
  | .vStr a, .vStr b => a == b
  | .vInt a, .vInt b => a == b
  | .vBool a, .vBool b => a == b
  | .vNull, .vNull => true
  | .vList a, .vList b => Value.beqList a b
  | .vDict a, .vDict b => Value.beqObj a b
  | _, _ => false

/-- Pointwise equality of value lists. -/
def Value.beqList : List Value → List Value → Bool
  | [], [] => true
  | a :: as, b :: bs => Value.beq a b && Value.beqList as bs
  | _, _ => false

/-- Pointwise equality of association lists (key and value). -/
def Value.beqObj : List (String × Value) → List (String × Value) → Bool
  | [], [] => true
  | (ka, va) :: as, (kb, vb) :: bs => ka == kb && Value.beq va vb && Value.beqObj as bs
  | _, _ => false

end

instance : BEq Value := ⟨Value.beq⟩

mutual

theorem Value.eq_of_beq : ∀ {a b : Value}, Value.beq a b = true → a = b
  | .vStr _, .vStr _, h => by
      simp only [Value.beq, beq_iff_eq] at h; simp [h]
  | .vInt _, .vInt _, h => by
      simp only [Value.beq, beq_iff_eq] at h; simp [h]
  | .vBool _, .vBool _, h => by
      simp only [Value.beq, beq_iff_eq] at h; simp [h]
  | .vNull, .vNull, _ => rfl
  | .vList _, .vList _, h => by
      simp only [Value.beq] at h
      exact congrArg Value.vList (Value.eq_of_beqList h)
  | .vDict _, .vDict _, h => by
      simp only [Value.beq] at h
      exact congrArg Value.vDict (Value.eq_of_beqObj h)

theorem Value.eq_of_beqList : ∀ {a b : List Value}, Value.beqList a b = true → a = b
  | [], [], _ => rfl
  | a :: as, b :: bs, h => by
      simp only [Value.beqList, Bool.and_eq_true] at h
      exact congrArg₂ List.cons (Value.eq_of_beq h.1) (Value.eq_of_beqList h.2)

theorem Value.eq_of_beqObj :
    ∀ {a b : List (String × Value)}, Value.beqObj a b = true → a = b
  | [], [], _ => rfl
  | (ka, va) :: as, (kb, vb) :: bs, h => by
      simp only [Value.beqObj, Bool.and_eq_true] at h
      obtain ⟨⟨hk, hv⟩, hrest⟩ := h
      have : ka = kb := by simpa using hk
      exact congrArg₂ List.cons (by rw [this, Value.eq_of_beq hv])
        (Value.eq_of_beqObj hrest)

end

mutual

theorem Value.beq_rfl : ∀ (a : Value), Value.beq a a = true
  | .vStr _ => by simp [Value.beq]
  | .vInt _ => by simp [Value.beq]
  | .vBool _ => by simp [Value.beq]
  | .vNull => rfl
  | .vList xs => by simp only [Value.beq]; exact Value.beqList_rfl xs
  | .vDict xs => by simp only [Value.beq]; exact Value.beqObj_rfl xs

theorem Value.beqList_rfl : ∀ (a : List Value), Value.beqList a a = true
  | [] => rfl
  | a :: as => by
      simp only [Value.beqList, Bool.and_eq_true]
      exact ⟨Value.beq_rfl a, Value.beqList_rfl as⟩

theorem Value.beqObj_rfl : ∀ (a : List (String × Value)), Value.beqObj a a = true
  | [] => rfl
  | (k, v) :: as => by
      simp only [Value.beqObj, Bool.and_eq_true]
      exact ⟨⟨by simp, Value.beq_rfl v⟩, Value.beqObj_rfl as⟩

end

instance : LawfulBEq Value where
  eq_of_beq := Value.eq_of_beq
  rfl := Value.beq_rfl _

instance : DecidableEq Value := fun a b =>
  decidable_of_iff (Value.beq a b = true) ⟨Value.eq_of_beq, fun h => h ▸ Value.beq_rfl a⟩

/-! ## String utilities (Python regex fragment)

`REFERENCE_PATTERN = re.compile(r"\{\{\s*values\.([^}]+?)\s*\}\}")` and the
pure-reference pattern of `_resolve_value` are implemented directly on
character lists. -/

/-- Python `\s` on the ASCII range: space, tab, newline, carriage return,
form feed, vertical tab. -/
def isWs (c : Char) : Bool :=
  c = ' ' || c = '\t' || c = '\n' || c = '\r' || c = '\x0b' || c = '\x0c'

/-- Drop leading whitespace (`\s*`). -/
def dropWs (cs : List Char) : List Char := cs.dropWhile isWs

/-- Match a literal prefix, returning the remainder. -/
def matchPrefix : List Char → List Char → Option (List Char)
  | [], cs => some cs
  | _, [] => none
  | p :: ps, c :: cs => if p = c then matchPrefix ps cs else none

/-- Match `\s*\}\}`, returning the remainder after the closing braces.
`\s*` can be taken greedily here: whitespace is never `}`, so only the
maximal whitespace run can be followed by `}}`. -/
def tryClose (cs : List Char) : Option (List Char) :=
  match dropWs cs with
  | '\x7d' :: '\x7d' :: rest => some rest
  | _ => none

/-- Lazy capture `([^}]+?)` followed by `\s*\}\}`: extend the capture one
non-`}` character at a time, checking for the closing `\s*\}\}` after each
extension.  Returns the capture and the remainder after `}}`. -/
def captureRef (acc : List Char) : List Char → Option (List Char × List Char)
  | [] => none
  | c :: rest =>
    if c = '\x7d' then none
    else
      match tryClose rest with
      | some after => some (acc ++ [c], after)
      | none => captureRef (acc ++ [c]) rest

/-- Try to match `\{\{\s*values\.([^}]+?)\s*\}\}` at the head of `cs`;
on success return the raw capture and the remainder after the match. -/
def tryMarker : List Char → Option (String × List Char)
  | c1 :: c2 :: rest =>
    if c1 = '\x7b' && c2 = '\x7b' then
      match matchPrefix "values.".data (dropWs rest) with
      | some rest2 => (captureRef [] rest2).map fun pr => (String.mk pr.1, pr.2)
      | none => none
    else none
  | _ => none

theorem dropWs_length_le : ∀ (cs : List Char), (dropWs cs).length ≤ cs.length
  | [] => le_refl _
  | c :: cs => by
    simp only [dropWs, List.dropWhile_cons]
    split
    · exact le_trans (dropWs_length_le cs) (Nat.le_succ _)
    · simp

theorem matchPrefix_length_le :
    ∀ {p cs rest : List Char}, matchPrefix p cs = some rest → rest.length ≤ cs.length
  | [], _, _, h => by simp [matchPrefix] at h; simp [h]
  | _ :: _, [], _, h => by simp [matchPrefix] at h
  | p :: ps, c :: cs, rest, h => by
    simp only [matchPrefix] at h
    split at h
    · exact le_trans (matchPrefix_length_le h) (Nat.le_succ _)
    · exact absurd h (by simp)

theorem tryClose_length_lt {cs rest : List Char} (h : tryClose cs = some rest) :
    rest.length < cs.length := by
  unfold tryClose at h
  split at h
  · next heq =>
    cases h
    have h2 := dropWs_length_le cs
    rw [heq] at h2
    simp only [List.length_cons] at h2
    omega
  · exact absurd h (by simp)

theorem captureRef_length_lt :
    ∀ {acc cs a after : List Char}, captureRef acc cs = some (a, after) →
      after.length < cs.length
  | _, [], _, _, h => by simp [captureRef] at h
  | acc, c :: rest, a, after, h => by
    simp only [captureRef] at h
    split at h
    · exact absurd h (by simp)
    · split at h
      · next after2 heq =>
        simp only [Option.some.injEq, Prod.mk.injEq] at h
        obtain ⟨-, h2⟩ := h
        subst h2
        have := tryClose_length_lt heq
        simp only [List.length_cons]
        omega
      · have := captureRef_length_lt h
        simp only [List.length_cons]
        omega

theorem tryMarker_length_lt :
    ∀ {cs : List Char} {r : String} {after : List Char},
      tryMarker cs = some (r, after) → after.length < cs.length := by
  intro cs r after h
  match cs with
  | [] => simp [tryMarker] at h
  | [c] => simp [tryMarker] at h
  | c1 :: c2 :: rest =>
    simp only [tryMarker] at h
    split at h
    · split at h
      · next rest2 heq =>
        simp only [Option.map_eq_some'] at h
        obtain ⟨⟨a, aft⟩, hc, hinj⟩ := h
        cases hinj
        have h1 := captureRef_length_lt hc
        have h2 := matchPrefix_length_le heq
        have h3 := dropWs_length_le rest
        simp only [List.length_cons]
        omega
      · exact absurd h (by simp)
    · exact absurd h (by simp)

/-- Python `str.strip()` (whitespace from both ends). -/
def trimStr (s : String) : String :=
  String.mk ((((s.data.dropWhile isWs).reverse).dropWhile isWs).reverse)

/-- `REFERENCE_PATTERN.findall(value)` followed by `.strip()` on each match
(`_detect_references`): scan left to right, at each position try the marker
pattern; on success continue after the match, otherwise advance one
character.  Fuel-indexed so that the definition is structurally recursive;
every step consumes at least one character, so `cs.length + 1` fuel is
always enough (`findRefsAux_fuel_stable`). -/
def findRefsAux : Nat → List Char → List String
  | 0, _ => []
  | _, [] => []
  | fuel + 1, c :: rest =>
    match tryMarker (c :: rest) with
    | some (r, after) => trimStr r :: findRefsAux fuel after
    | none => findRefsAux fuel rest

/-- The reference scanner on a character list. -/
def findRefs (cs : List Char) : List String := findRefsAux (cs.length + 1) cs

/-- Any fuel of at least `cs.length + 1` gives the same scan result. -/
theorem findRefsAux_fuel_stable :
    ∀ (fuel fuel' : Nat) (cs : List Char), cs.length < fuel → cs.length < fuel' →
      findRefsAux fuel cs = findRefsAux fuel' cs
  | 0, _, cs, h, _ => absurd h (by omega)
  | _ + 1, 0, cs, _, h' => absurd h' (by omega)
  | fuel + 1, fuel' + 1, [], _, _ => rfl
  | fuel + 1, fuel' + 1, c :: rest, h, h' => by
    simp only [findRefsAux]
    cases hm : tryMarker (c :: rest) with
    | some pr =>
      obtain ⟨r, after⟩ := pr
      have hlt := tryMarker_length_lt hm
      simp only [List.length_cons] at hlt h h'
      show trimStr r :: findRefsAux fuel after = trimStr r :: findRefsAux fuel' after
      rw [findRefsAux_fuel_stable fuel fuel' after (by omega) (by omega)]
    | none =>
      simp only [List.length_cons] at h h'
      exact findRefsAux_fuel_stable fuel fuel' rest (by omega) (by omega)

/-- `_detect_references`: only strings are scanned. -/
def detectReferences : Value → List String
  | .vStr s => findRefs s.data
  | _ => []

/-! ### The pure-reference pattern

`re.match(r"^\s*\{\{\s*values\.([a-zA-Z_][a-zA-Z0-9_]*(?:\.[a-zA-Z_][a-zA-Z0-9_]*)*)\s*\}\}\s*$", value)` -/

/-- `[a-zA-Z_]` (ASCII). -/
def isIdentStart (c : Char) : Bool := c.isAlpha || c = '_'

/-- `[a-zA-Z0-9_]` (ASCII). -/
def isIdentChar (c : Char) : Bool := c.isAlphanum || c = '_'

/-- One identifier `[a-zA-Z_][a-zA-Z0-9_]*`, greedy. -/
def parseIdent : List Char → Option (List Char × List Char)
  | [] => none
  | c :: rest =>
    if isIdentStart c then
      some (c :: rest.takeWhile isIdentChar, rest.dropWhile isIdentChar)
    else none

/-- `(?:\.[a-zA-Z_][a-zA-Z0-9_]*)*`, greedy; no backtracking is needed
because the pattern is followed by `\s*\}\}`, which cannot consume a `.`
or an identifier character. -/
def parseDotIdents (acc : List Char) : List Char → Nat → List Char × List Char
  | cs, 0 => (acc, cs)
  | cs, fuel + 1 =>
    match cs with
    | '.' :: rest =>
      match parseIdent rest with
      | some (id, rest2) => parseDotIdents (acc ++ '.' :: id) rest2 fuel
      | none => (acc, cs)
    | _ => (acc, cs)

/-- The anchored pure-reference match of `_resolve_value`; returns the
captured dotted path (group 1; `.strip()` is the identity on it since it
contains no whitespace). -/
def pureRefPath (s : String) : Option String :=
  match dropWs s.data with
  | '\x7b' :: '\x7b' :: rest =>
    match matchPrefix "values.".data (dropWs rest) with
    | some rest2 =>
      match parseIdent rest2 with
      | some (id1, rest3) =>
        let (path, rest4) := parseDotIdents id1 rest3 rest3.length
        match dropWs rest4 with
        | '\x7d' :: '\x7d' :: rest5 =>
          if dropWs rest5 = [] then some (String.mk path) else none
        | _ => none
      | none => none
    | none => none
  | _ => none

/-! ## Dotted key-paths: nested get and set -/

/-- Split a character list at `.`, keeping empty segments. -/
def splitDot (acc : List Char) : List Char → List String
  | [] => [String.mk acc]
  | c :: rest => if c = '.' then String.mk acc :: splitDot [] rest else splitDot (acc ++ [c]) rest

/-- `key_path.split(".")` (Python `str.split` with a one-character
separator: all segments, empty ones included). -/
def splitPath (p : String) : List String := splitDot [] p.data

/-- Walk a dotted path through nested dicts (`_get_nested_value`); `none`
models the `KeyError`. -/
def getNestedV : Value → List String → Option Value
  | v, [] => some v
  | .vDict xs, k :: ks =>
    match xs.lookup k with
    | some v => getNestedV v ks
    | none => none
  | _, _ :: _ => none

/-- `_get_nested_value(config, key_path)`. -/
def getNested (cfg : Obj) (p : String) : Option Value :=
  getNestedV (.vDict cfg) (splitPath p)

/-- `_get_nested_value_safe`: Python returns `None` when the path is
missing, which is the same value as a stored `None` (`vNull`). -/
def getNestedSafe (cfg : Obj) (p : String) : Value :=
  (getNested cfg p).getD .vNull

/-- Python dict assignment `d[k] = v`: overwrite in place (position kept)
or append at the end. -/
def setKey (k : String) (v : Value) : Obj → Obj
  | [] => [(k, v)]
  | (k', v') :: rest => if k' = k then (k, v) :: rest else (k', v') :: setKey k v rest

/-- `_set_nested_value`, on a `Value`.  Intermediate missing keys become
fresh dicts.  A non-dict value met along the prefix makes the Python code
raise `TypeError`; that situation is unreachable from `resolve` (the path
was just read successfully) and is modelled as a no-op. -/
def setNestedV : Value → List String → Value → Value
  | cur, [], _ => cur
  | .vDict xs, [k], v => .vDict (setKey k v xs)
  | .vDict xs, k :: k2 :: ks, v =>
    match xs.lookup k with
    | some child => .vDict (setKey k (setNestedV child (k2 :: ks) v) xs)
    | none => .vDict (setKey k (setNestedV (.vDict []) (k2 :: ks) v) xs)
  | cur, _ :: _, _ => cur

/-- `_set_nested_value(config, key_path, value)`. -/
def setNested (cfg : Obj) (p : String) (v : Value) : Obj :=
  match setNestedV (.vDict cfg) (splitPath p) v with
  | .vDict xs => xs
  | _ => cfg

/-! ## Python stringification

Jinja2 renders an expression result through `str()`.  `str` on containers
uses `repr` of the elements.  The `repr` of strings is modelled without
escaping (faithful for strings free of quotes, backslashes and control
characters — all strings appearing in this development). -/

mutual

/-- Python `repr`. -/
def pyRepr : Value → String
  | .vStr s => "'" ++ s ++ "'"
  | .vInt n => toString n
  | .vBool b => if b then "True" else "False"
  | .vNull => "None"
  | .vList xs => "[" ++ String.intercalate ", " (pyReprList xs) ++ "]"
  | .vDict xs => "\x7b" ++ String.intercalate ", " (pyReprObj xs) ++ "\x7d"

/-- `repr` of list elements. -/
def pyReprList : List Value → List String
  | [] => []
  | v :: vs => pyRepr v :: pyReprList vs

/-- `repr` of dict entries, `'key': value`, in insertion order. -/
def pyReprObj : List (String × Value) → List String
  | [] => []
  | (k, v) :: rest => ("'" ++ k ++ "': " ++ pyRepr v) :: pyReprObj rest

end

/-- Python `str`: identity on strings, `repr` otherwise. -/
def pyStr : Value → String
  | .vStr s => s
  | v => pyRepr v

/-! ## Dependency graph (`_build_dependency_graph`)

`defaultdict(set)` becomes an association list from key-path to a
duplicate-free list of dependencies; Python set insertion is modelled as
first-insertion order (no theorem depends on the iteration order). -/

/-- A dependency graph: key-path to the set of key-paths it references. -/
abbrev Graph := List (String × List String)

/-- Insert into a set-as-list if absent (at the end). -/
def insertNew (acc : List String) (r : String) : List String :=
  if r ∈ acc then acc else acc ++ [r]

/-- `set.update`: add each new reference, deduplicating. -/
def mergeRefs (old new : List String) : List String := new.foldl insertNew old

/-- `graph[current_path].update(refs)`: creates the entry when absent
(defaultdict), even for an empty `refs`. -/
def addRefs (p : String) (refs : List String) : Graph → Graph
  | [] => [(p, mergeRefs [] refs)]
  | (q, ds) :: rest =>
    if q = p then (q, mergeRefs ds refs) :: rest else (q, ds) :: addRefs p refs rest

mutual

/-- `scan_dict` over a dict's items: each key extends the component chain
and dispatches on the value. -/
def scanObj (g : Graph) (components : List String) : List (String × Value) → Graph
  | [] => g
  | (k, v) :: rest => scanObj (scanVal g (components ++ [k]) v) components rest

/-- One value at component chain `comps` (`current_path` is the dotted
join): nested dicts recurse, lists are handled at the list's own key-path,
any other value contributes its references as a leaf
(`graph[current_path].update(refs)`). -/
def scanVal (g : Graph) (comps : List String) : Value → Graph
  | .vDict ys => scanObj g comps ys
  | .vList items => scanList g comps items
  | leaf => addRefs (String.intercalate "." comps) (detectReferences leaf) g

/-- List elements: nested dicts are scanned with the list's path as prefix
(`scan_dict(item, current_path, current_components)`); every other element
contributes its references under the list's own key-path. -/
def scanList (g : Graph) (comps : List String) : List Value → Graph
  | [] => g
  | .vDict ys :: rest => scanList (scanObj g comps ys) comps rest
  | item :: rest =>
    scanList (addRefs (String.intercalate "." comps) (detectReferences item) g) comps rest

end

/-- `_build_dependency_graph`. -/
def buildGraph (config : Obj) : Graph := scanObj [] [] config

/-- `graph.get(node, set())` / `graph[node]` where present. -/
def depsOf (g : Graph) (n : String) : List String := (g.lookup n).getD []

/-- The graph's declared key-paths, in insertion order. -/
def graphKeys (g : Graph) : List String := g.map Prod.fst

/-- `all_nodes = set(graph.keys())` extended with every referenced node. -/
def allNodes (g : Graph) : List String :=
  g.foldl (fun acc nd => nd.2.foldl insertNew acc) (g.foldl (fun acc nd => insertNew acc nd.1) [])

/-! ## Cycle detection (`_detect_circular_dependencies`)

Recursive DFS with `visited` and `rec_stack` sets and the explicit `path`;
the recursion is fuel-indexed (the fuel bound `(allNodes g).length + 1`
dominates the chain length, which is bounded by the number of distinct
nodes — see the adequacy lemmas below). -/

/-- One `dfs(node, path)` call.  Returns the detected cycle (if any) and
the updated `visited` set.  A node on `rec_stack` yields the suffix of the
path from its first occurrence (`path[path.index(node):]`); a visited node
returns nothing; otherwise the node is marked visited and put on the
recursion stack, and the `for dependency in graph.get(node, set())` loop
explores each child with the path extended by the child, threading
`visited` and short-circuiting once a cycle is found (Python's early
`return`).  `rec_stack` removal on exit is modelled by not propagating the
extended stack upward.  The recursion is fuel-indexed; the nesting depth
is bounded by the number of distinct nodes (each nested call pushes a new
node on the duplicate-free recursion stack), so the fuel
`(allNodes g).length + 1` used by `detectCircular` is never exhausted. -/
def dfsNode (g : Graph) : Nat → String → List String → List String → List String →
    Option (List String) × List String
  | 0, _, _, visited, _ => (none, visited)
  | fuel + 1, n, path, visited, recStack =>
    if n ∈ recStack then (some (path.drop (path.indexOf n)), visited)
    else if n ∈ visited then (none, visited)
    else
      (depsOf g n).foldl
        (fun acc d =>
          match acc with
          | (some c, vis) => (some c, vis)
          | (none, vis) => dfsNode g fuel d (path ++ [d]) vis (n :: recStack))
        (none, n :: visited)

/-- The `for node in graph` driver loop of `_detect_circular_dependencies`. -/
def detectCircularAux (g : Graph) (fuel : Nat) : List String → List String → Option (List String)
  | [], _ => none
  | n :: rest, visited =>
    if n ∈ visited then detectCircularAux g fuel rest visited
    else
      match dfsNode g fuel n [n] visited [] with
      | (some c, _) => some c
      | (none, visited') => detectCircularAux g fuel rest visited'

/-- `_detect_circular_dependencies(graph)`. -/
def detectCircular (g : Graph) : Option (List String) :=
  detectCircularAux g ((allNodes g).length + 1) (graphKeys g) []

/-! ## Topological sort (`_topological_sort`): Kahn's algorithm -/

/-- Pointwise update of the in-degree table. -/
def updFn (f : String → Int) (k : String) (v : Int) : String → Int :=
  fun m => if m = k then v else f m

/-- The inner loop run when `node` is dequeued:
`for dependent in graph: if node in graph[dependent]: in_degree[dependent] -= 1;
if in_degree[dependent] == 0: queue.append(dependent)`.
Returns the updated in-degree table and the nodes to enqueue, in graph
(insertion) order. -/
def kahnStep (g : Graph) (n : String) (inDeg : String → Int) : (String → Int) × List String :=
  g.foldl
    (fun st nd =>
      if n ∈ nd.2 then
        let v := st.1 nd.1 - 1
        (updFn st.1 nd.1 v, if v = 0 then st.2 ++ [nd.1] else st.2)
      else st)
    (inDeg, [])

/-- The dequeue loop; fuel `(allNodes g).length + 1` is enough because every
node is enqueued at most once (see the Kahn invariants below). -/
def kahnLoop (g : Graph) : Nat → (String → Int) → List String → List String → List String
  | 0, _, _, result => result
  | fuel + 1, inDeg, queue, result =>
    match queue with
    | [] => result
    | n :: rest =>
      match kahnStep g n inDeg with
      | (inDeg', adds) => kahnLoop g fuel inDeg' (rest ++ adds) (result ++ [n])

/-- `_topological_sort(graph)`: in-degree of a node is the number of its
dependencies (`graph[node]` is a set, so the `+= 1` loop counts its
cardinality; nodes without an entry get 0); the queue is seeded with the
zero-in-degree nodes of `all_nodes`. -/
def topoSort (g : Graph) : List String :=
  let nodes := allNodes g
  let inDeg : String → Int := fun n => ((depsOf g n).length : Int)
  let queue := nodes.filter fun n => inDeg n == 0
  kahnLoop g (nodes.length + 1) inDeg queue []

/-! ## Jinja2 rendering (modelled fragment)

`self.jinja_env = Environment(loader=BaseLoader())` (resolver.py line 114)
uses the *default* `Undefined`.  That object is printable — rendering it
yields the empty string — but it is not chainable: each dotted step is
`environment.getattr`, a step that finds nothing returns
`undefined(obj=<the object>, name=<the attribute>)`, and a further
attribute access *on* that `Undefined` raises `UndefinedError` (only
`ChainableUndefined`, not installed here, would keep returning
`Undefined`).  So `{{ values.m }}` with `m` missing renders `""`, while
`{{ values.m.n }}` with `m` missing raises at the `.n` step.
`_resolve_value` (resolver.py lines 459–462) converts that exception via
`str(e).split("'")[1]`: the first single-quoted chunk of the message.
For an undefined root name the message is `'<root>' is undefined`, so the
root name is extracted; for a failed attribute step the message is
`'<type> object' has no attribute '<name>'` built from the *containing*
object's type (`object_type_repr`), so the extracted "reference" is
`dict object`, `int object`, … — not the missing key-path
(`object_type_repr(None)` is just `None`).  The result feeds
`raise ReferenceResolutionError(undefined_var)` (modelled as `undefErr`
at render level, mapped to `referenceResolution`).

The four registered filters override Jinja's built-ins with `str.lower`,
`str.upper`, `str.title` and `lambda s, old, new: str(s).replace(old,
new)`; the three `str` methods raise `TypeError` when applied to a
non-`str` (including `Undefined`), an exception that matches neither
`except UndefinedError` nor `except TemplateError` in `_resolve_value`
and therefore escapes the resolver's error taxonomy (modelled as
`typeErr`).

The modelled template fragment is: literal text interleaved with
`{{ name(.ident)* (| filter)* }}` expressions.  Statement blocks (`{%`),
comment blocks (`{#`), and expressions outside this fragment are mapped
to `syntaxErr`; component names that collide with real Python attributes
of the traversed objects (such as `upper` on a `str` value, which
`environment.getattr` would resolve to a bound method) are also outside
the fragment.  The configurations in this development stay inside the
fragment.  A root name other than `values` is undefined (the render
namespace binds only `values`). -/

/-- Render-time errors of the modelled Jinja fragment.  `undefErr`
carries the string `_resolve_value` will extract from the
`UndefinedError`'s message (`str(e).split("'")[1]`). -/
inductive RErr where
  | syntaxErr
  | typeErr
  | undefErr (ref : String)
  deriving Repr, DecidableEq

/-- The pipeline filters registered on the environment. -/
inductive JFilter where
  | lower
  | upper
  | title
  | replace (old new : String)
  deriving Repr, DecidableEq

/-- Python `str.title` (ASCII): uppercase a letter that follows a
non-letter, lowercase the other letters. -/
def titleCaseAux : Bool → List Char → List Char
  | _, [] => []
  | prevAlpha, c :: rest =>
    if c.isAlpha then
      (if prevAlpha then c.toLower else c.toUpper) :: titleCaseAux true rest
    else
      c :: titleCaseAux false rest

/-- Python `str.title` on a string. -/
def titleCase (s : String) : String := String.mk (titleCaseAux false s.data)

/-- Python `s.replace("", new)`: `new` inserted around every character. -/
def replaceEmptyPat (new : List Char) : List Char → List Char
  | [] => new
  | c :: rest => new ++ c :: replaceEmptyPat new rest

/-- Python `str.replace` on characters: leftmost non-overlapping matches,
fuel-indexed (each step consumes at least one character). -/
def replaceAux (old new : List Char) : Nat → List Char → List Char
  | 0, cs => cs
  | _, [] => []
  | fuel + 1, c :: rest =>
    match matchPrefix old (c :: rest) with
    | some after => new ++ replaceAux old new fuel after
    | none => c :: replaceAux old new fuel rest

/-- Python `str.replace(old, new)` (all occurrences). -/
def pyReplace (s old new : String) : String :=
  if old.data = [] then String.mk (replaceEmptyPat new.data s.data)
  else String.mk (replaceAux old.data new.data (s.data.length + 1) s.data)

/-- Python `str.lower` (ASCII). -/
def lowerStr (s : String) : String := String.mk (s.data.map Char.toLower)

/-- Python `str.upper` (ASCII). -/
def upperStr (s : String) : String := String.mk (s.data.map Char.toUpper)

/-- Apply one filter to an evaluated value (`none` models Jinja's
`Undefined`).  `str.lower`/`str.upper`/`str.title` demand a real `str`;
`replace` goes through `str(s)` first, and `str(Undefined())` is `""`. -/
def applyFilter (v : Option Value) : JFilter → Except RErr (Option Value)
  | .lower =>
    match v with
    | some (.vStr s) => .ok (some (.vStr (lowerStr s)))
    | _ => .error .typeErr
  | .upper =>
    match v with
    | some (.vStr s) => .ok (some (.vStr (upperStr s)))
    | _ => .error .typeErr
  | .title =>
    match v with
    | some (.vStr s) => .ok (some (.vStr (titleCase s)))
    | _ => .error .typeErr
  | .replace old new =>
    let s := match v with | some w => pyStr w | none => ""
    .ok (some (.vStr (pyReplace s old new)))

/-- `object_type_repr` of the containing object, as it appears inside the
first quoted chunk of the `UndefinedError` message
(`'<this> ' has no attribute '<name>'`); built-in classes render as
`<classname> object`, `None` as plain `None`. -/
def undefObjName : Value → String
  | .vDict _ => "dict object"
  | .vList _ => "list object"
  | .vStr _ => "str object"
  | .vInt _ => "int object"
  | .vBool _ => "bool object"
  | .vNull => "None"

/-- The compiled dotted attribute chain: each component is one
`environment.getattr` step.  A step that finds nothing (a dict without
the key, or any non-dict object) yields the lenient `Undefined` — fine
if it was the last step (`.ok none`, printed as `""`) — but one more
step on that `Undefined` raises `UndefinedError`, whose extracted
reference is the containing object's type repr. -/
def walkAttrs : Value → List String → Except RErr (Option Value)
  | v, [] => .ok (some v)
  | .vDict xs, k :: ks =>
    match xs.lookup k with
    | some v => walkAttrs v ks
    | none => if ks.isEmpty then .ok none else .error (.undefErr "dict object")
  | v, _ :: ks => if ks.isEmpty then .ok none else .error (.undefErr (undefObjName v))

/-- Evaluate one `{{ ... }}` expression: walk the dotted path in the
render namespace (`values` is the only bound name; any other root is an
`Undefined` whose message names the root), pipe through the filters, and
print — a final `Undefined` prints as the empty string. -/
def evalExpr (tree : Obj) (root : String) (comps : List String)
    (filters : List JFilter) : Except RErr String :=
  match (if root = "values" then walkAttrs (.vDict tree) comps
         else if comps.isEmpty then .ok none else .error (.undefErr root)) with
  | .error e => .error e
  | .ok base =>
    match filters.foldlM applyFilter base with
    | .error e => .error e
    | .ok (some v) => .ok (pyStr v)
    | .ok none => .ok ""

/-- A single-quoted string literal (filter argument). -/
def parseStrLit : List Char → Option (String × List Char)
  | c :: rest =>
    if c = '\x27' then
      let body := rest.takeWhile (· ≠ '\x27')
      match rest.dropWhile (· ≠ '\x27') with
      | q :: rest2 => if q = '\x27' then some (String.mk body, rest2) else none
      | [] => none
    else none
  | [] => none

/-- One filter after a `|`: a known filter name, with `replace` taking two
string-literal arguments.  An unknown filter name is a template error at
parse time in Jinja (`TemplateAssertionError`, a `TemplateError`). -/
def parseOneFilter (cs : List Char) : Option (JFilter × List Char) :=
  match parseIdent (dropWs cs) with
  | some (name, rest) =>
    if String.mk name = "lower" then some (.lower, rest)
    else if String.mk name = "upper" then some (.upper, rest)
    else if String.mk name = "title" then some (.title, rest)
    else if String.mk name = "replace" then
      match dropWs rest with
      | p :: rest2 =>
        if p = '(' then
          match parseStrLit (dropWs rest2) with
          | some (old, rest3) =>
            match dropWs rest3 with
            | comma :: rest4 =>
              if comma = ',' then
                match parseStrLit (dropWs rest4) with
                | some (new, rest5) =>
                  match dropWs rest5 with
                  | close :: rest6 =>
                    if close = ')' then some (.replace old new, rest6) else none
                  | [] => none
                | none => none
              else none
            | [] => none
          | none => none
        else none
      | [] => none
    else none
  | none => none

/-- The `(| filter)*` pipeline. -/
def parseFilters : List Char → Nat → Option (List JFilter × List Char)
  | cs, 0 => some ([], cs)
  | cs, fuel + 1 =>
    match dropWs cs with
    | '|' :: rest =>
      match parseOneFilter rest with
      | some (f, rest2) =>
        match parseFilters rest2 fuel with
        | some (fs, rest3) => some (f :: fs, rest3)
        | none => none
      | none => none
    | other => some ([], other)

/-- The dotted components after the root identifier. -/
def parsePathComps (acc : List String) : List Char → Nat → List String × List Char
  | cs, 0 => (acc, cs)
  | cs, fuel + 1 =>
    match cs with
    | '.' :: rest =>
      match parseIdent rest with
      | some (id, rest2) => parsePathComps (acc ++ [String.mk id]) rest2 fuel
      | none => (acc, cs)
    | _ => (acc, cs)

/-- Parse the interior of `{{ ... }}` up to and including the closing
braces: root identifier, dotted components, filter pipeline. -/
def parseExpr (cs : List Char) : Option ((String × List String × List JFilter) × List Char) :=
  match parseIdent (dropWs cs) with
  | some (root, rest) =>
    let pc := parsePathComps [] rest rest.length
    match parseFilters pc.2 pc.2.length with
    | some (fs, rest2) =>
      match dropWs rest2 with
      | '\x7d' :: '\x7d' :: rest3 => some ((String.mk root, pc.1, fs), rest3)
      | _ => none
    | none => none
  | none => none

/-- Render the template string against the tree: literal characters pass
through, expressions evaluate; parse failure is a template error. -/
def renderT (tree : Obj) : List Char → Nat → Except RErr String
  | [], _ => .ok ""
  | _, 0 => .error .syntaxErr
  | c1 :: cs, fuel + 1 =>
    match c1 :: cs with
    | '\x7b' :: '\x7b' :: rest =>
      match parseExpr rest with
      | some (ex, rest2) =>
        match evalExpr tree ex.1 ex.2.1 ex.2.2 with
        | .ok s => (renderT tree rest2 fuel).map (s ++ ·)
        | .error e => .error e
      | none => .error .syntaxErr
    | '\x7b' :: '%' :: _ => .error .syntaxErr
    | '\x7b' :: '#' :: _ => .error .syntaxErr
    | _ => (renderT tree cs fuel).map (String.mk [c1] ++ ·)

/-- `self.jinja_env.from_string(value).render(values=resolved_config)`. -/
def renderTemplate (s : String) (tree : Obj) : Except RErr String :=
  renderT tree s.data (s.data.length + 1)

/-! ## Errors (`exceptions.py`) and the value resolver (`_resolve_value`) -/

/-- The resolver's error taxonomy.  `circularReference` carries the cycle
path, `referenceResolution` the unresolved reference, `maxRecursion` the
configured limit and the key-path, `templateSyntax` the original template
text.  `uncaughtTypeError` models the raw Python `TypeError` escaping from
`str.lower`/`str.upper`/`str.title` applied to a non-string (it is none of
the four repository exception classes). -/
inductive ResolveError where
  | circularReference (cyclePath : List String)
  | referenceResolution (reference : String)
  | maxRecursion (depth : Nat) (reference : String)
  | templateSyntax (template : String)
  | uncaughtTypeError (template : String)
  deriving Repr, DecidableEq

mutual

/-- `_resolve_value(value, resolved_config)`: dicts and lists recurse,
non-strings and marker-free strings pass through, a pure reference looks
its target up with the original type preserved (`KeyError` becomes a
`ReferenceResolutionError` naming `values.<path>`), and anything else is
rendered as a template — where an `UndefinedError` becomes a
`ReferenceResolutionError` carrying the first quoted chunk of the
message (`str(e).split("'")[1]`, lines 459–462) and a `TemplateError`
becomes a `TemplateSyntaxError` carrying the template text. -/
def resolveValue (tree : Obj) : Value → Except ResolveError Value
  | .vDict xs => (resolveObjVals tree xs).map .vDict
  | .vList xs => (resolveListVals tree xs).map .vList
  | .vInt n => .ok (.vInt n)
  | .vBool b => .ok (.vBool b)
  | .vNull => .ok .vNull
  | .vStr s =>
    if findRefs s.data = [] then .ok (.vStr s)
    else
      match pureRefPath s with
      | some p =>
        match getNested tree p with
        | some rv => .ok rv
        | none => .error (.referenceResolution ("values." ++ p))
      | none =>
        match renderTemplate s tree with
        | .ok out => .ok (.vStr out)
        | .error .syntaxErr => .error (.templateSyntax s)
        | .error .typeErr => .error (.uncaughtTypeError s)
        | .error (.undefErr r) => .error (.referenceResolution r)

/-- Recursive resolution of dict entries, first error wins. -/
def resolveObjVals (tree : Obj) : List (String × Value) →
    Except ResolveError (List (String × Value))
  | [] => .ok []
  | (k, v) :: rest => do
    let v' ← resolveValue tree v
    let rest' ← resolveObjVals tree rest
    pure ((k, v') :: rest')

/-- Recursive resolution of list items. -/
def resolveListVals (tree : Obj) : List Value → Except ResolveError (List Value)
  | [] => .ok []
  | v :: rest => do
    let v' ← resolveValue tree v
    let rest' ← resolveListVals tree rest
    pure (v' :: rest')

end

mutual

/-- `_deep_copy`: rebuild dicts and lists, leaves unchanged. -/
def deepCopy : Value → Value
  | .vDict xs => .vDict (deepCopyObj xs)
  | .vList xs => .vList (deepCopyList xs)
  | v => v

/-- `_deep_copy` on dict entries. -/
def deepCopyObj : List (String × Value) → List (String × Value)
  | [] => []
  | (k, v) :: rest => (k, deepCopy v) :: deepCopyObj rest

/-- `_deep_copy` on list items. -/
def deepCopyList : List Value → List Value
  | [] => []
  | v :: rest => deepCopy v :: deepCopyList rest

end

/-! ## The resolution engine (`resolve`, `_resolve_key_path`) -/

/-- The per-pass mutable state: the resolution cache and the tree being
resolved. -/
structure PassState where
  cache : List (String × Value)
  tree : Obj
  deriving Repr

/-- `_resolve_key_path(key_path, resolved_config, original_config)`.
The `stack` argument is the `resolution_stack` field at call time;
`_resolve_value` never re-enters `_resolve_key_path`, and the
`try/finally` restores the stack on both exits, so the caller's stack is
passed unchanged to each call.  A `KeyError` from `_get_nested_value` skips
the path.  (`original_config` is accepted by the Python function but never
read.) -/
def resolveKeyPath (mx : Nat) (stack : List String) (st : PassState) (p : String) :
    Except ResolveError PassState :=
  if (st.cache.lookup p).isSome then .ok st
  else if mx ≤ stack.length then .error (.maxRecursion mx p)
  else
    match getNested st.tree p with
    | none => .ok st
    | some v =>
      match resolveValue st.tree v with
      | .ok rv => .ok ⟨(p, rv) :: st.cache, setNested st.tree p rv⟩
      | .error e => .error e

/-- One pass over the resolution order: compare the value before and after
(`_get_nested_value_safe`; Python `None` for a missing path equals a stored
`None`) and accumulate the `changes_made` flag. -/
def runPass (mx : Nat) : List String → PassState → Bool →
    Except ResolveError (PassState × Bool)
  | [], st, changed => .ok (st, changed)
  | p :: rest, st, changed =>
    let old := getNestedSafe st.tree p
    match resolveKeyPath mx [] st p with
    | .error e => .error e
    | .ok st' =>
      let new := getNestedSafe st'.tree p
      runPass mx rest st' (changed || decide (old ≠ new))

/-- The `while iteration < max_iterations` loop: run a pass with a cleared
cache; stop when a pass makes no changes, or when the pass budget is
exhausted — in which case the tree is returned as-is (no error). -/
def passLoop (mx : Nat) (order : List String) : Nat → Obj → Except ResolveError Obj
  | 0, tree => .ok tree
  | fuel + 1, tree =>
    match runPass mx order ⟨[], tree⟩ false with
    | .error e => .error e
    | .ok (st, changed) => if changed then passLoop mx order fuel st.tree else .ok st.tree

/-- `max_iterations = 5`. -/
def maxIterations : Nat := 5

/-- `ConfigResolver(max_depth=mx).resolve(config)`: empty configurations
are returned as-is; otherwise build the graph, fail on a detected cycle,
compute the advisory order, deep-copy, and run the bounded multi-pass
loop. -/
def resolve (mx : Nat) (config : Obj) : Except ResolveError Obj :=
  if config = [] then .ok config
  else
    let g := buildGraph config
    match detectCircular g with
    | some cyc => .error (.circularReference cyc)
    | none => passLoop mx (topoSort g) maxIterations (deepCopyObj config)

/-- `resolve` instrumented with object identity: the `Bool` is true exactly
when the returned dict is the caller's own object.  The only return path
handing back the argument itself is the `if not config: return config`
early return (line 171–172); every other successful return yields
`resolved_config`, whose root dict was freshly allocated by
`self._deep_copy(config)` (line 204, 519–520). -/
def resolveIdentity (mx : Nat) (config : Obj) : Except ResolveError (Obj × Bool) :=
  if config = [] then .ok (config, true)
  else
    match resolve mx config with
    | .ok t => .ok (t, false)
    | .error e => .error e

/-! ## C10: the Max Recursion branch is unreachable

`_resolve_key_path` is called only from the pass loop of `resolve`, never
from `_resolve_value`, so the resolution stack observed by the
`len(self.resolution_stack) >= self.max_depth` check is always the empty
stack: for any `max_depth ≥ 1` the `MaxRecursionError` branch cannot
fire. -/

mutual

theorem resolveValue_no_maxrec (tree : Obj) :
    ∀ (v : Value) {d : Nat} {r : String},
      resolveValue tree v ≠ .error (.maxRecursion d r)
  | .vDict xs, d, r => by
    simp only [resolveValue]
    cases h : resolveObjVals tree xs with
    | ok l => simp [Except.map]
    | error e =>
      simp only [Except.map]
      intro hc
      cases hc
      exact resolveObjVals_no_maxrec tree xs h
  | .vList xs, d, r => by
    simp only [resolveValue]
    cases h : resolveListVals tree xs with
    | ok l => simp [Except.map]
    | error e =>
      simp only [Except.map]
      intro hc
      cases hc
      exact resolveListVals_no_maxrec tree xs h
  | .vInt n, _, _ => by simp [resolveValue]
  | .vBool b, _, _ => by simp [resolveValue]
  | .vNull, _, _ => by simp [resolveValue]
  | .vStr s, d, r => by
    simp only [resolveValue]
    split
    · simp
    · split
      · split <;> simp
      · split <;> simp

theorem resolveObjVals_no_maxrec (tree : Obj) :
    ∀ (xs : List (String × Value)) {d : Nat} {r : String},
      resolveObjVals tree xs ≠ .error (.maxRecursion d r)
  | [], d, r => by simp [resolveObjVals]
  | (k, v) :: rest, d, r => by
    simp only [resolveObjVals, bind, Except.bind]
    cases hv : resolveValue tree v with
    | error e' =>
      intro hc
      cases hc
      exact resolveValue_no_maxrec tree v hv
    | ok v' =>
      cases hrest : resolveObjVals tree rest with
      | error e' =>
        intro hc
        cases hc
        exact resolveObjVals_no_maxrec tree rest hrest
      | ok l => simp [pure, Except.pure]

theorem resolveListVals_no_maxrec (tree : Obj) :
    ∀ (xs : List Value) {d : Nat} {r : String},
      resolveListVals tree xs ≠ .error (.maxRecursion d r)
  | [], d, r => by simp [resolveListVals]
  | v :: rest, d, r => by
    simp only [resolveListVals, bind, Except.bind]
    cases hv : resolveValue tree v with
    | error e' =>
      intro hc
      cases hc
      exact resolveValue_no_maxrec tree v hv
    | ok v' =>
      cases hrest : resolveListVals tree rest with
      | error e' =>
        intro hc
        cases hc
        exact resolveListVals_no_maxrec tree rest hrest
      | ok l => simp [pure, Except.pure]

end

theorem resolveKeyPath_no_maxrec (mx : Nat) (st : PassState) (p : String)
    (hmx : 1 ≤ mx) {d r} :
    resolveKeyPath mx [] st p ≠ .error (.maxRecursion d r) := by
  simp only [resolveKeyPath]
  split
  · simp
  · rw [if_neg (by simp; omega)]
    split
    · simp
    · split
      · simp
      · next e heq =>
        intro hc
        cases hc
        exact resolveValue_no_maxrec st.tree _ heq

theorem runPass_no_maxrec (mx : Nat) (hmx : 1 ≤ mx) :
    ∀ (order : List String) (st : PassState) (changed : Bool) {d r},
      runPass mx order st changed ≠ .error (.maxRecursion d r)
  | [], st, changed, d, r => by simp [runPass]
  | p :: rest, st, changed, d, r => by
    simp only [runPass]
    cases h : resolveKeyPath mx [] st p with
    | error e =>
      intro hc
      cases hc
      exact resolveKeyPath_no_maxrec mx st p hmx h
    | ok st' => exact runPass_no_maxrec mx hmx rest st' _

theorem passLoop_no_maxrec (mx : Nat) (order : List String) (hmx : 1 ≤ mx) :
    ∀ (fuel : Nat) (tree : Obj) {d r},
      passLoop mx order fuel tree ≠ .error (.maxRecursion d r)
  | 0, tree, d, r => by simp [passLoop]
  | fuel + 1, tree, d, r => by
    simp only [passLoop]
    cases h : runPass mx order ⟨[], tree⟩ false with
    | error e =>
      intro hc
      cases hc
      exact runPass_no_maxrec mx hmx order ⟨[], tree⟩ false h
    | ok res =>
      obtain ⟨st, changed⟩ := res
      cases changed with
      | true => simpa using passLoop_no_maxrec mx order hmx fuel st.tree
      | false => simp

/-- C10: during a single call to `resolve` the resolution of one key-path
never nests inside another (`_resolve_value` never re-enters
`_resolve_key_path`), so the stack at the Max Recursion check is always
empty and for every configured `max_depth ≥ 1` the Max Recursion branch is
unreachable: `resolve` never raises a Max Recursion error, for any input
configuration. -/
theorem c10_resolve_never_max_recursion (cfg : Obj) (mx : Nat) (d : Nat) (r : String)
    (hmx : 1 ≤ mx) : resolve mx cfg ≠ .error (.maxRecursion d r) := by
  simp only [resolve]
  split
  · simp
  · cases h : detectCircular (buildGraph cfg) with
    | some cyc => simp
    | none => exact passLoop_no_maxrec mx _ hmx maxIterations _

/-- Witness for C10 at a concrete configuration and the default
`max_depth = 10`. -/
theorem c10_witness :
    1 ≤ 10 ∧
      resolve 10 [("a", .vStr "\x7b\x7b values.b \x7d\x7d"), ("b", .vStr "base")] ≠
        .error (.maxRecursion 10 "a") :=
  ⟨by decide,
   c10_resolve_never_max_recursion [("a", .vStr "\x7b\x7b values.b \x7d\x7d"), ("b", .vStr "base")]
     10 10 "a" (by decide)⟩

/-! ## C3: exhausting the pass budget is silent

The `while iteration < max_iterations` loop of `resolve` (lines 210–223)
breaks out after 5 passes and falls through to `return resolved_config`:
no error is raised when the budget is exhausted without convergence. -/

/-- An acyclic configuration whose resolution never converges: pass 1
turns `t` into `{{ values.t }}X` (the marker is assembled from the values
of `c` and `d`, so the dependency graph is acyclic), and every later pass
appends more text. -/
def c3Config : Obj :=
  [("c", .vStr "\x7b\x7b"),
   ("d", .vStr " values.t \x7d\x7d"),
   ("t", .vStr "\x7b\x7b values.c \x7d\x7d\x7b\x7b values.d \x7d\x7dX"),
   ("p", .vStr "\x7b\x7b values.t \x7d\x7d")]

/-- The partially-resolved tree `resolve` hands back after the 5 passes. -/
def c3Partial : Obj :=
  [("c", .vStr "\x7b\x7b"),
   ("d", .vStr " values.t \x7d\x7d"),
   ("t", .vStr "\x7b\x7b values.t \x7d\x7dXXXXXXXXXXXXXXXX"),
   ("p", .vStr "\x7b\x7b values.t \x7d\x7dXXXXXXXXXXXXXXXXXXXXXXXXXXXXXXX")]

/-- Intermediate trees after passes 1–4 on `c3Config`. -/
def c3T1 : Obj :=
  [("c", .vStr "\x7b\x7b"),
   ("d", .vStr " values.t \x7d\x7d"),
   ("t", .vStr "\x7b\x7b values.t \x7d\x7dX"),
   ("p", .vStr "\x7b\x7b values.t \x7d\x7dX")]

/-- Tree after pass 2. -/
def c3T2 : Obj :=
  [("c", .vStr "\x7b\x7b"),
   ("d", .vStr " values.t \x7d\x7d"),
   ("t", .vStr "\x7b\x7b values.t \x7d\x7dXX"),
   ("p", .vStr "\x7b\x7b values.t \x7d\x7dXXX")]

/-- Tree after pass 3. -/
def c3T3 : Obj :=
  [("c", .vStr "\x7b\x7b"),
   ("d", .vStr " values.t \x7d\x7d"),
   ("t", .vStr "\x7b\x7b values.t \x7d\x7dXXXX"),
   ("p", .vStr "\x7b\x7b values.t \x7d\x7dXXXXXXX")]

/-- Tree after pass 4. -/
def c3T4 : Obj :=
  [("c", .vStr "\x7b\x7b"),
   ("d", .vStr " values.t \x7d\x7d"),
   ("t", .vStr "\x7b\x7b values.t \x7d\x7dXXXXXXXX"),
   ("p", .vStr "\x7b\x7b values.t \x7d\x7dXXXXXXXXXXXXXXX")]

/-- One unfolding of the pass loop when the pass reports changes. -/
theorem passLoop_step (mx : Nat) (order : List String) (fuel : Nat) (tree t' : Obj)
    (h : (runPass mx order ⟨[], tree⟩ false).map (fun x => (x.1.tree, x.2)) =
      .ok (t', true)) :
    passLoop mx order (fuel + 1) tree = passLoop mx order fuel t' := by
  simp only [passLoop]
  cases hr : runPass mx order ⟨[], tree⟩ false with
  | error e => rw [hr] at h; simp [Except.map] at h
  | ok res =>
    rw [hr] at h
    obtain ⟨st, ch⟩ := res
    simp only [Except.map, Except.ok.injEq, Prod.mk.injEq] at h
    obtain ⟨h1, h2⟩ := h
    subst h2
    simp [h1]

/-- `resolve` on a nonempty, cycle-free configuration whose five passes all
report changes: the loop exhausts and hands back the fifth pass's tree. -/
theorem resolve_of_five_changing_passes (mx : Nat) (cfg : Obj) (order : List String)
    (t1 t2 t3 t4 t5 : Obj)
    (hne : cfg ≠ [])
    (hcyc : detectCircular (buildGraph cfg) = none)
    (hord : topoSort (buildGraph cfg) = order)
    (h1 : (runPass mx order ⟨[], deepCopyObj cfg⟩ false).map
        (fun x => (x.1.tree, x.2)) = .ok (t1, true))
    (h2 : (runPass mx order ⟨[], t1⟩ false).map
        (fun x => (x.1.tree, x.2)) = .ok (t2, true))
    (h3 : (runPass mx order ⟨[], t2⟩ false).map
        (fun x => (x.1.tree, x.2)) = .ok (t3, true))
    (h4 : (runPass mx order ⟨[], t3⟩ false).map
        (fun x => (x.1.tree, x.2)) = .ok (t4, true))
    (h5 : (runPass mx order ⟨[], t4⟩ false).map
        (fun x => (x.1.tree, x.2)) = .ok (t5, true)) :
    resolve mx cfg = .ok t5 := by
  simp only [resolve]
  rw [if_neg hne]
  simp only [hcyc]
  show passLoop mx (topoSort (buildGraph cfg)) maxIterations (deepCopyObj cfg) = .ok t5
  rw [hord]
  rw [show maxIterations = 4 + 1 from rfl, passLoop_step _ _ _ _ _ h1]
  rw [show (4 : Nat) = 3 + 1 from rfl, passLoop_step _ _ _ _ _ h2]
  rw [show (3 : Nat) = 2 + 1 from rfl, passLoop_step _ _ _ _ _ h3]
  rw [show (2 : Nat) = 1 + 1 from rfl, passLoop_step _ _ _ _ _ h4]
  rw [show (1 : Nat) = 0 + 1 from rfl, passLoop_step _ _ _ _ _ h5]
  rfl

/-- The advisory resolution order of `c3Config`. -/
theorem c3_order : topoSort (buildGraph c3Config) = ["c", "d", "t", "p"] := by decide

/-- C3 counterexample: on `c3Config` the multi-pass loop exhausts its
5-pass budget without reaching a zero-change pass — each of the five
passes reports changes, and one more pass on the returned tree would still
report changes — and `resolve` nevertheless returns the partially-resolved
tree (`t` and `p` still contain a reference marker) instead of surfacing
an error. -/
theorem c3_counterexample :
    resolve 10 c3Config = .ok c3Partial ∧
      (runPass 10 (topoSort (buildGraph c3Config)) ⟨[], c3Partial⟩ false).map Prod.snd =
        .ok true := by
  constructor
  · exact resolve_of_five_changing_passes 10 c3Config ["c", "d", "t", "p"]
      c3T1 c3T2 c3T3 c3T4 c3Partial (by decide) (by decide) c3_order
      rfl rfl rfl rfl rfl
  · rw [c3_order]
    rfl

/-- C3 (amended): when the bounded multi-pass loop of `resolve` runs all
5 passes on a nonempty, cycle-free configuration with every pass still
reporting changes (so the loop ends without a zero-change pass and without
an exception), `resolve` returns the partially-resolved tree produced by
the fifth pass; no error is surfaced for pass-budget exhaustion. -/
theorem c3_amended_exhaustion_returns_tree (mx : Nat) (cfg : Obj) (order : List String)
    (t1 t2 t3 t4 t5 : Obj)
    (hne : cfg ≠ [])
    (hcyc : detectCircular (buildGraph cfg) = none)
    (hord : topoSort (buildGraph cfg) = order)
    (h1 : (runPass mx order ⟨[], deepCopyObj cfg⟩ false).map
        (fun x => (x.1.tree, x.2)) = .ok (t1, true))
    (h2 : (runPass mx order ⟨[], t1⟩ false).map
        (fun x => (x.1.tree, x.2)) = .ok (t2, true))
    (h3 : (runPass mx order ⟨[], t2⟩ false).map
        (fun x => (x.1.tree, x.2)) = .ok (t3, true))
    (h4 : (runPass mx order ⟨[], t3⟩ false).map
        (fun x => (x.1.tree, x.2)) = .ok (t4, true))
    (h5 : (runPass mx order ⟨[], t4⟩ false).map
        (fun x => (x.1.tree, x.2)) = .ok (t5, true)) :
    resolve mx cfg = .ok t5 :=
  resolve_of_five_changing_passes mx cfg order t1 t2 t3 t4 t5 hne hcyc hord h1 h2 h3 h4 h5

/-- Witness for the amended C3 at the concrete non-converging
configuration. -/
theorem c3_amended_witness : resolve 10 c3Config = .ok c3Partial :=
  c3_amended_exhaustion_returns_tree 10 c3Config ["c", "d", "t", "p"]
    c3T1 c3T2 c3T3 c3T4 c3Partial (by decide) (by decide) c3_order
    rfl rfl rfl rfl rfl

/-! ## C5: undefined references inside interpolated strings

`Environment(loader=BaseLoader())` leaves Jinja's default `Undefined` in
place.  It prints as the empty string, so `{{ values.missing }}` inside
an interpolated string renders as `""` and raises nothing — the
counterexample below.  But it is not chainable: with `m` missing,
`{{ values.m.n }}` raises `UndefinedError` at the `.n` step, and
`_resolve_value` converts that to `ReferenceResolutionError` carrying
`str(e).split("'")[1]` — the containing object's type repr
(`dict object`), not the missing key-path. -/

/-- An interpolated string referencing the undefined path `m`. -/
def c5Str : String := "x\x7b\x7b values.m \x7d\x7dy"

/-- A configuration containing `c5Str` and no key `m`. -/
def c5Config : Obj := [("a", .vStr c5Str)]

/-- C5 counterexample: `a` holds an interpolated string (literal text
around one marker) whose referenced key-path `m` is undefined in the tree,
yet `resolve` does not fail with a Reference Resolution error — it
succeeds, rendering the undefined reference as the empty string. -/
theorem c5_counterexample :
    detectReferences (.vStr c5Str) = ["m"] ∧
      getNested c5Config "m" = none ∧
      resolve 10 c5Config = .ok [("a", .vStr "xy")] :=
  ⟨rfl, rfl, rfl⟩

/-- C5 (amended): for an interpolated string (markers mixed with literal
text or filters, not a pure reference) a referenced path whose *last*
component is the first missing one renders as the empty string — no
Reference Resolution error, refuting the original claim — while a path
undefined already at an *intermediate* component does raise
`UndefinedError`, which `_resolve_value` converts to a Reference
Resolution error; the reference it then carries is the first quoted
chunk of Jinja's message, i.e. the type repr of the object lacking the
attribute (such as `dict object`), not the missing key-path.  Every
outcome is one of: a string, a Reference Resolution error converted from
`UndefinedError`, a Template Syntax error carrying the original
expression text, or an uncaught `TypeError` from the `str`-method
filters. -/
theorem c5_amended_interpolation (tree : Obj) (s : String)
    (hrefs : findRefs s.data ≠ []) (hpure : pureRefPath s = none) :
    ((∃ out, resolveValue tree (.vStr s) = .ok (.vStr out)) ∨
        (∃ r, renderTemplate s tree = .error (.undefErr r) ∧
          resolveValue tree (.vStr s) = .error (.referenceResolution r)) ∨
        resolveValue tree (.vStr s) = .error (.templateSyntax s) ∨
        resolveValue tree (.vStr s) = .error (.uncaughtTypeError s)) ∧
      (∀ k, tree.lookup k = none → evalExpr tree "values" [k] [] = .ok "") ∧
      (∀ k k2 ks, tree.lookup k = none →
        evalExpr tree "values" (k :: k2 :: ks) [] =
          .error (.undefErr "dict object")) := by
  refine ⟨?_, ?_, ?_⟩
  · simp only [resolveValue, if_neg hrefs, hpure]
    cases hr : renderTemplate s tree with
    | ok out => exact Or.inl ⟨out, rfl⟩
    | error e => cases e with
      | syntaxErr => exact Or.inr (Or.inr (Or.inl rfl))
      | typeErr => exact Or.inr (Or.inr (Or.inr rfl))
      | undefErr r => exact Or.inr (Or.inl ⟨r, rfl, rfl⟩)
  · intro k hk
    simp [evalExpr, walkAttrs, hk, List.foldlM, pure, Except.pure]
  · intro k k2 ks hk
    simp [evalExpr, walkAttrs, hk]

/-- Witness for the amended C5: the shallow-missing string renders with
the reference blanked, and a deep-missing interpolation makes `resolve`
fail with a Reference Resolution error naming `dict object`. -/
theorem c5_amended_witness :
    (findRefs c5Str.data ≠ [] ∧ pureRefPath c5Str = none) ∧
      (((∃ out, resolveValue c5Config (.vStr c5Str) = .ok (.vStr out)) ∨
          (∃ r, renderTemplate c5Str c5Config = .error (.undefErr r) ∧
            resolveValue c5Config (.vStr c5Str) = .error (.referenceResolution r)) ∨
          resolveValue c5Config (.vStr c5Str) = .error (.templateSyntax c5Str) ∨
          resolveValue c5Config (.vStr c5Str) = .error (.uncaughtTypeError c5Str)) ∧
        (∀ k, c5Config.lookup k = none → evalExpr c5Config "values" [k] [] = .ok "") ∧
        (∀ k k2 ks, c5Config.lookup k = none →
          evalExpr c5Config "values" (k :: k2 :: ks) [] =
            .error (.undefErr "dict object"))) ∧
      resolveValue c5Config (.vStr "x\x7b\x7b values.m.n \x7d\x7dy") =
        .error (.referenceResolution "dict object") ∧
      resolve 10 [("a", .vStr "x\x7b\x7b values.m.n \x7d\x7dy")] =
        .error (.referenceResolution "dict object") :=
  ⟨⟨by decide, by decide⟩,
   c5_amended_interpolation c5Config c5Str (by decide) (by decide), rfl, rfl⟩

/-! ## C6: freshness of the returned tree

The embedding is pure, so in-place mutation of the caller's tree cannot
occur by construction (and indeed the Python `resolve` only ever writes
into the `_deep_copy` it creates; the `original_config` parameter of
`_resolve_key_path` is never read).  Object identity of the *returned*
tree is tracked by `resolveIdentity`: the `if not config: return config`
early return (lines 171–172) hands back the caller's own dict. -/

/-- C6 counterexample: for the empty configuration, `resolve` returns the
caller's own object (the early `return config`), not a new tree — the
identity flag of `resolveIdentity` is `true`. -/
theorem c6_counterexample : resolveIdentity 10 [] = .ok ([], true) := rfl

/-- C6 (amended): for every *nonempty* configuration, a successful
`resolve` returns a tree whose root dict is freshly allocated by
`_deep_copy`, never the caller's object: the identity flag is `false`.
(The caller's tree is never mutated in either case; only the empty
configuration is handed back as-is.) -/
theorem c6_amended_nonempty_returns_fresh_tree (mx : Nat) (cfg t : Obj) (b : Bool)
    (hne : cfg ≠ []) (h : resolveIdentity mx cfg = .ok (t, b)) : b = false := by
  simp only [resolveIdentity, if_neg hne] at h
  cases hr : resolve mx cfg with
  | ok v =>
    rw [hr] at h
    simp only [Except.ok.injEq, Prod.mk.injEq] at h
    exact h.2.symm
  | error e => rw [hr] at h; cases h

/-- Witness for the amended C6 at a concrete nonempty configuration. -/
theorem c6_amended_witness :
    ([("a", Value.vInt 1)] : Obj) ≠ [] ∧
      resolveIdentity 10 [("a", Value.vInt 1)] = .ok ([("a", Value.vInt 1)], false) ∧
      false = false :=
  ⟨by decide, rfl,
   c6_amended_nonempty_returns_fresh_tree 10 [("a", Value.vInt 1)] [("a", Value.vInt 1)]
     false (by decide) rfl⟩

/-! ## C8: resolving a marker-free tree, and the failure of idempotence

A tree without any reference marker resolves to itself.  But resolution of
a tree *with* markers can converge to a tree that still contains a marker
(assembled by substitution), and re-resolving that output fails — so
`resolve ∘ resolve = resolve` is false. -/

mutual

/-- No reference marker anywhere in the value. -/
def markerFree : Value → Bool
  | .vStr s => (findRefs s.data).isEmpty
  | .vInt _ => true
  | .vBool _ => true
  | .vNull => true
  | .vList xs => markerFreeList xs
  | .vDict xs => markerFreeObj xs

/-- No reference marker in any list item. -/
def markerFreeList : List Value → Bool
  | [] => true
  | v :: rest => markerFree v && markerFreeList rest

/-- No reference marker in any dict value. -/
def markerFreeObj : List (String × Value) → Bool
  | [] => true
  | (_, v) :: rest => markerFree v && markerFreeObj rest

end

mutual

theorem resolveValue_markerFree (tree : Obj) :
    ∀ (v : Value), markerFree v = true → resolveValue tree v = .ok v
  | .vStr s, h => by
    simp only [markerFree, List.isEmpty_iff] at h
    simp [resolveValue, h]
  | .vInt n, _ => rfl
  | .vBool b, _ => rfl
  | .vNull, _ => rfl
  | .vList xs, h => by
    simp only [markerFree] at h
    simp [resolveValue, resolveListVals_markerFree tree xs h, Except.map]
  | .vDict xs, h => by
    simp only [markerFree] at h
    simp [resolveValue, resolveObjVals_markerFree tree xs h, Except.map]

theorem resolveObjVals_markerFree (tree : Obj) :
    ∀ (xs : List (String × Value)), markerFreeObj xs = true →
      resolveObjVals tree xs = .ok xs
  | [], _ => rfl
  | (k, v) :: rest, h => by
    simp only [markerFreeObj, Bool.and_eq_true] at h
    simp [resolveObjVals, resolveValue_markerFree tree v h.1,
      resolveObjVals_markerFree tree rest h.2, bind, Except.bind, pure, Except.pure]

theorem resolveListVals_markerFree (tree : Obj) :
    ∀ (xs : List Value), markerFreeList xs = true → resolveListVals tree xs = .ok xs
  | [], _ => rfl
  | v :: rest, h => by
    simp only [markerFreeList, Bool.and_eq_true] at h
    simp [resolveListVals, resolveValue_markerFree tree v h.1,
      resolveListVals_markerFree tree rest h.2, bind, Except.bind, pure, Except.pure]

end

theorem lookup_markerFree :
    ∀ (xs : List (String × Value)) (k : String) (v : Value),
      markerFreeObj xs = true → xs.lookup k = some v → markerFree v = true
  | [], _, _, _, h => by simp [List.lookup] at h
  | (k', v') :: rest, k, v, hmf, h => by
    simp only [markerFreeObj, Bool.and_eq_true] at hmf
    rw [List.lookup] at h
    split at h
    · cases h; exact hmf.1
    · exact lookup_markerFree rest k v hmf.2 h

theorem getNestedV_markerFree :
    ∀ (path : List String) (v w : Value), markerFree v = true →
      getNestedV v path = some w → markerFree w = true
  | [], v, w, hmf, h => by
    simp only [getNestedV, Option.some.injEq] at h
    rw [← h]; exact hmf
  | k :: ks, v, w, hmf, h => by
    match v, h with
    | .vDict xs, h =>
      simp only [getNestedV] at h
      split at h
      · next u hu =>
        exact getNestedV_markerFree ks u w (lookup_markerFree xs k u hmf hu) h
      · cases h

theorem getNested_markerFree (cfg : Obj) (p : String) (v : Value)
    (hmf : markerFreeObj cfg = true) (h : getNested cfg p = some v) :
    markerFree v = true :=
  getNestedV_markerFree (splitPath p) (.vDict cfg) v (by simpa [markerFree] using hmf) h

/-- Writing back the value a key already holds is the identity. -/
theorem setKey_id :
    ∀ (xs : List (String × Value)) (k : String) (v : Value),
      xs.lookup k = some v → setKey k v xs = xs
  | [], _, _, h => by simp [List.lookup] at h
  | (k', v') :: rest, k, v, h => by
    rw [List.lookup] at h
    simp only [setKey]
    split at h
    · next heq =>
      cases h
      have hk : k = k' := by simpa using heq
      subst hk
      rw [if_pos rfl]
    · next hne =>
      rw [if_neg (fun e => by simp [e] at hne)]
      rw [setKey_id rest k v h]

theorem setNestedV_get_id :
    ∀ (path : List String) (v w : Value),
      getNestedV v path = some w → setNestedV v path w = v
  | [], v, w, h => by
    simp only [getNestedV, Option.some.injEq] at h
    subst h
    cases v <;> rfl
  | [k], v, w, h => by
    match v, h with
    | .vDict xs, h =>
      simp only [getNestedV] at h
      split at h
      · next u hu =>
        simp only [getNestedV, Option.some.injEq] at h
        subst h
        simp only [setNestedV]
        rw [setKey_id xs k u hu]
      · cases h
  | k :: k2 :: ks, v, w, h => by
    match v, h with
    | .vDict xs, h =>
      simp only [getNestedV] at h
      split at h
      · next u hu =>
        simp only [setNestedV, hu]
        rw [setNestedV_get_id (k2 :: ks) u w h, setKey_id xs k u hu]
      · cases h

theorem setNested_get_id (cfg : Obj) (p : String) (v : Value)
    (h : getNested cfg p = some v) : setNested cfg p v = cfg := by
  unfold setNested
  rw [setNestedV_get_id (splitPath p) (.vDict cfg) v h]

mutual

theorem deepCopy_id : ∀ (v : Value), deepCopy v = v
  | .vStr _ => rfl
  | .vInt _ => rfl
  | .vBool _ => rfl
  | .vNull => rfl
  | .vList xs => by simp only [deepCopy]; rw [deepCopyList_id xs]
  | .vDict xs => by simp only [deepCopy]; rw [deepCopyObj_id xs]

theorem deepCopyObj_id : ∀ (xs : List (String × Value)), deepCopyObj xs = xs
  | [] => rfl
  | (k, v) :: rest => by
    simp only [deepCopyObj]
    rw [deepCopy_id v, deepCopyObj_id rest]

theorem deepCopyList_id : ∀ (xs : List Value), deepCopyList xs = xs
  | [] => rfl
  | v :: rest => by
    simp only [deepCopyList]
    rw [deepCopy_id v, deepCopyList_id rest]

end

/-- All dependency sets of a graph are empty. -/
def edgeFree (g : Graph) : Prop := ∀ n, depsOf g n = []

theorem mergeRefs_nil (old : List String) : mergeRefs old [] = old := rfl

theorem depsOf_addRefs_nil :
    ∀ (g : Graph) (p n : String), depsOf (addRefs p [] g) n = depsOf g n
  | [], p, n => by
    simp only [addRefs, depsOf, mergeRefs_nil, List.lookup]
    split <;> rfl
  | (q, ds) :: rest, p, n => by
    simp only [addRefs]
    split
    · next heq =>
      subst heq
      simp only [depsOf, mergeRefs_nil]
    · simp only [depsOf, List.lookup]
      split
      · rfl
      · exact depsOf_addRefs_nil rest p n

mutual

theorem scanObj_edgeFree :
    ∀ (g : Graph) (comps : List String) (xs : List (String × Value)),
      edgeFree g → markerFreeObj xs = true → edgeFree (scanObj g comps xs)
  | g, comps, [], hg, _ => hg
  | g, comps, (k, v) :: rest, hg, hmf => by
    simp only [markerFreeObj, Bool.and_eq_true] at hmf
    exact scanObj_edgeFree _ comps rest
      (scanVal_edgeFree g (comps ++ [k]) v hg hmf.1) hmf.2

theorem scanVal_edgeFree :
    ∀ (g : Graph) (comps : List String) (v : Value),
      edgeFree g → markerFree v = true → edgeFree (scanVal g comps v)
  | g, comps, .vDict ys, hg, hmf => by
    simp only [markerFree] at hmf
    exact scanObj_edgeFree g comps ys hg hmf
  | g, comps, .vList items, hg, hmf => by
    simp only [markerFree] at hmf
    exact scanList_edgeFree g comps items hg hmf
  | g, comps, .vStr s, hg, hmf => by
    simp only [markerFree, List.isEmpty_iff] at hmf
    intro n
    simp only [scanVal, detectReferences, hmf]
    rw [depsOf_addRefs_nil]
    exact hg n
  | g, comps, .vInt _, hg, _ => by
    intro n
    simp only [scanVal, detectReferences]
    rw [depsOf_addRefs_nil]
    exact hg n
  | g, comps, .vBool _, hg, _ => by
    intro n
    simp only [scanVal, detectReferences]
    rw [depsOf_addRefs_nil]
    exact hg n
  | g, comps, .vNull, hg, _ => by
    intro n
    simp only [scanVal, detectReferences]
    rw [depsOf_addRefs_nil]
    exact hg n

theorem scanList_edgeFree :
    ∀ (g : Graph) (comps : List String) (xs : List Value),
      edgeFree g → markerFreeList xs = true → edgeFree (scanList g comps xs)
  | g, comps, [], hg, _ => hg
  | g, comps, .vDict ys :: rest, hg, hmf => by
    simp only [markerFreeList, markerFree, Bool.and_eq_true] at hmf
    exact scanList_edgeFree _ comps rest (scanObj_edgeFree g comps ys hg hmf.1) hmf.2
  | g, comps, .vStr s :: rest, hg, hmf => by
    simp only [markerFreeList, markerFree, Bool.and_eq_true, List.isEmpty_iff] at hmf
    refine scanList_edgeFree _ comps rest ?_ hmf.2
    intro n
    simp only [detectReferences, hmf.1]
    rw [depsOf_addRefs_nil]
    exact hg n
  | g, comps, .vInt m :: rest, hg, hmf => by
    simp only [markerFreeList, Bool.and_eq_true] at hmf
    refine scanList_edgeFree _ comps rest ?_ hmf.2
    intro n
    simp only [detectReferences]
    rw [depsOf_addRefs_nil]
    exact hg n
  | g, comps, .vBool b :: rest, hg, hmf => by
    simp only [markerFreeList, Bool.and_eq_true] at hmf
    refine scanList_edgeFree _ comps rest ?_ hmf.2
    intro n
    simp only [detectReferences]
    rw [depsOf_addRefs_nil]
    exact hg n
  | g, comps, .vNull :: rest, hg, hmf => by
    simp only [markerFreeList, Bool.and_eq_true] at hmf
    refine scanList_edgeFree _ comps rest ?_ hmf.2
    intro n
    simp only [detectReferences]
    rw [depsOf_addRefs_nil]
    exact hg n
  | g, comps, .vList ys :: rest, hg, hmf => by
    simp only [markerFreeList, Bool.and_eq_true] at hmf
    refine scanList_edgeFree _ comps rest ?_ hmf.2
    intro n
    simp only [detectReferences]
    rw [depsOf_addRefs_nil]
    exact hg n

end

theorem buildGraph_edgeFree (cfg : Obj) (hmf : markerFreeObj cfg = true) :
    edgeFree (buildGraph cfg) :=
  scanObj_edgeFree [] [] cfg (fun _ => rfl) hmf

/-- On an edge-free graph the DFS finds no cycle. -/
theorem detectCircularAux_edgeFree (g : Graph) (hg : edgeFree g) (fuel : Nat)
    (hfuel : 1 ≤ fuel) :
    ∀ (keys visited : List String), detectCircularAux g fuel keys visited = none := by
  intro keys
  induction keys with
  | nil => intro visited; rfl
  | cons n rest ih =>
    intro visited
    simp only [detectCircularAux]
    split
    · exact ih visited
    · next hnv =>
      obtain ⟨fuel', rfl⟩ : ∃ f', fuel = f' + 1 := ⟨fuel - 1, by omega⟩
      simp only [dfsNode, hg n, List.foldl_nil]
      rw [if_neg (List.not_mem_nil n), if_neg hnv]
      exact ih (n :: visited)

theorem detectCircular_edgeFree (g : Graph) (hg : edgeFree g) :
    detectCircular g = none :=
  detectCircularAux_edgeFree g hg _ (by omega) _ _

/-- One pass over any order list leaves a marker-free tree untouched and
reports no changes. -/
theorem runPass_markerFree (mx : Nat) (hmx : 1 ≤ mx) (tree : Obj)
    (hmf : markerFreeObj tree = true) :
    ∀ (order : List String) (cache : List (String × Value)),
      ∃ cache', runPass mx order ⟨cache, tree⟩ false = .ok (⟨cache', tree⟩, false)
  | [], cache => ⟨cache, rfl⟩
  | p :: rest, cache => by
    simp only [runPass]
    by_cases hc : (List.lookup p cache).isSome
    · rw [show resolveKeyPath mx [] ⟨cache, tree⟩ p = .ok ⟨cache, tree⟩ from by
        simp [resolveKeyPath, hc]]
      simpa using runPass_markerFree mx hmx tree hmf rest cache
    · cases hv : getNested tree p with
      | none =>
        rw [show resolveKeyPath mx [] ⟨cache, tree⟩ p = .ok ⟨cache, tree⟩ from by
          simp [resolveKeyPath, hc, hv]; omega]
        simpa using runPass_markerFree mx hmx tree hmf rest cache
      | some v =>
        have hmfv := getNested_markerFree tree p v hmf hv
        rw [show resolveKeyPath mx [] ⟨cache, tree⟩ p = .ok ⟨(p, v) :: cache, tree⟩ from by
          simp only [resolveKeyPath, hc, Bool.false_eq_true, if_false, hv,
            resolveValue_markerFree tree v hmfv, setNested_get_id tree p v hv]
          rw [if_neg (by simp; omega)]]
        simpa using runPass_markerFree mx hmx tree hmf rest ((p, v) :: cache)

/-- An acyclic configuration made of only already-resolved (marker-free)
values resolves to itself. -/
theorem resolve_markerFree (mx : Nat) (cfg : Obj) (hmx : 1 ≤ mx)
    (hmf : markerFreeObj cfg = true) : resolve mx cfg = .ok cfg := by
  by_cases hne : cfg = []
  · subst hne; rfl
  · simp only [resolve, if_neg hne,
      detectCircular_edgeFree (buildGraph cfg) (buildGraph_edgeFree cfg hmf)]
    rw [deepCopyObj_id cfg]
    show passLoop mx (topoSort (buildGraph cfg)) maxIterations cfg = .ok cfg
    obtain ⟨cache', hpass⟩ :=
      runPass_markerFree mx hmx cfg hmf (topoSort (buildGraph cfg)) []
    rw [show maxIterations = 4 + 1 from rfl]
    simp only [passLoop, hpass]
    simp

/-- One unfolding of the pass loop when the pass reports no changes:
the loop converges and returns the pass's tree. -/
theorem passLoop_converged (mx : Nat) (order : List String) (fuel : Nat) (tree t' : Obj)
    (h : (runPass mx order ⟨[], tree⟩ false).map (fun x => (x.1.tree, x.2)) =
      .ok (t', false)) :
    passLoop mx order (fuel + 1) tree = .ok t' := by
  simp only [passLoop]
  cases hr : runPass mx order ⟨[], tree⟩ false with
  | error e => rw [hr] at h; simp [Except.map] at h
  | ok res =>
    rw [hr] at h
    obtain ⟨st, ch⟩ := res
    simp only [Except.map, Except.ok.injEq, Prod.mk.injEq] at h
    obtain ⟨h1, h2⟩ := h
    subst h2
    simp [h1]

/-- A configuration that resolves successfully (converging in two passes)
to a tree that still contains a reference marker: pass 1 assembles
`{{ values.a }}` at key `a` from the values of `c` and `d`, and pass 2
changes nothing because the pure self-reference returns the current value
of `a`, which is that very string. -/
def c8Config : Obj :=
  [("c", .vStr "\x7b\x7b"),
   ("d", .vStr " values.a \x7d\x7d"),
   ("a", .vStr "\x7b\x7b values.c \x7d\x7d\x7b\x7b values.d \x7d\x7d")]

/-- The (successful) resolution of `c8Config`. -/
def c8Out : Obj :=
  [("c", .vStr "\x7b\x7b"),
   ("d", .vStr " values.a \x7d\x7d"),
   ("a", .vStr "\x7b\x7b values.a \x7d\x7d")]

/-- C8 counterexample: `resolve` succeeds on `c8Config` with output
`c8Out`, but resolving that output again does not yield the same tree —
it fails with a Circular Reference error (the output contains a
self-referencing marker that the first run's dependency graph never saw).
So resolving the output of a successful resolution need not return it
unchanged: `resolve` is not idempotent. -/
theorem c8_counterexample :
    resolve 10 c8Config = .ok c8Out ∧
      resolve 10 c8Out = .error (.circularReference ["a", "a"]) := by
  constructor
  · have h1 : (runPass 10 ["c", "d", "a"] ⟨[], deepCopyObj c8Config⟩ false).map
        (fun x => (x.1.tree, x.2)) = .ok (c8Out, true) := rfl
    have h2 : (runPass 10 ["c", "d", "a"] ⟨[], c8Out⟩ false).map
        (fun x => (x.1.tree, x.2)) = .ok (c8Out, false) := rfl
    have hord : topoSort (buildGraph c8Config) = ["c", "d", "a"] := by decide
    simp only [resolve]
    rw [if_neg (by decide)]
    rw [show detectCircular (buildGraph c8Config) = none from by decide]
    show passLoop 10 (topoSort (buildGraph c8Config)) maxIterations (deepCopyObj c8Config) =
      .ok c8Out
    rw [hord, show maxIterations = 4 + 1 from rfl, passLoop_step _ _ _ _ _ h1]
    rw [show (4 : Nat) = 3 + 1 from rfl, passLoop_converged _ _ _ _ _ h2]
  · rfl

/-- C8 (amended): a configuration tree containing no reference markers in
any of its string values resolves (for any `max_depth ≥ 1`) to a tree
equal to the input; consequently resolving the output of a successful
resolution yields the same tree again *provided that output is
marker-free*.  (Without that proviso idempotence fails, see the
counterexample.) -/
theorem c8_amended_markerfree_fixed_point (mx : Nat) (cfg : Obj) (hmx : 1 ≤ mx)
    (hmf : markerFreeObj cfg = true) :
    resolve mx cfg = .ok cfg ∧ (resolve mx cfg).bind (resolve mx) = .ok cfg := by
  have h := resolve_markerFree mx cfg hmx hmf
  refine ⟨h, ?_⟩
  rw [h]
  simpa [Except.bind] using h

/-- Witness for the amended C8 at a concrete marker-free configuration. -/
theorem c8_amended_witness :
    1 ≤ 10 ∧
      markerFreeObj [("project", Value.vDict [("name", Value.vStr "myapp")]),
        ("version", Value.vStr "1.0.0")] = true ∧
      resolve 10 [("project", Value.vDict [("name", Value.vStr "myapp")]),
        ("version", Value.vStr "1.0.0")] =
        .ok [("project", Value.vDict [("name", Value.vStr "myapp")]),
          ("version", Value.vStr "1.0.0")] :=
  ⟨by decide, by decide,
   (c8_amended_markerfree_fixed_point 10
     [("project", Value.vDict [("name", Value.vStr "myapp")]),
      ("version", Value.vStr "1.0.0")] (by decide) (by decide)).1⟩

/-! ## C2: cycle detection

Soundness: a reported path is a genuine cycle of the dependency graph
(with its entry node repeated at the end).  Completeness: if the graph has
a cycle, the DFS reports one.  Together with a hypothesis that all cycles
of the graph share one node set (the claim speaks of "the true cycle"),
the reported path's node set is exactly that set. -/

/-- The dependency edge relation: `a` references `b`. -/
def edge (g : Graph) (a b : String) : Prop := b ∈ depsOf g a

instance (g : Graph) (a b : String) : Decidable (edge g a b) := by
  unfold edge; infer_instance

/-- Consecutive elements are edges. -/
def EdgeChain (g : Graph) : List String → Prop
  | [] => True
  | [_] => True
  | a :: b :: rest => edge g a b ∧ EdgeChain g (b :: rest)

/-- A (nonempty) cycle: consecutive edges along the list plus the closing
edge from the last element back to the head, expressed as one edge chain
around the loop. -/
def IsCycle (g : Graph) (c : List String) : Prop :=
  match c with
  | [] => False
  | a :: rest => EdgeChain g (a :: (rest ++ [a]))

theorem edgeChain_cons {g : Graph} {a : String} {l : List String}
    (h : EdgeChain g (a :: l)) : EdgeChain g l := by
  match l with
  | [] => trivial
  | b :: rest => exact h.2

theorem edgeChain_append_last {g : Graph} :
    ∀ {l : List String} {a d : String}, EdgeChain g l → l.getLast? = some a →
      edge g a d → EdgeChain g (l ++ [d])
  | [], a, d, _, hlast, _ => by simp at hlast
  | [x], a, d, _, hlast, he => by
    simp only [List.getLast?_singleton, Option.some.injEq] at hlast
    subst hlast
    exact ⟨he, trivial⟩
  | x :: y :: rest, a, d, hch, hlast, he => by
    refine ⟨hch.1, ?_⟩
    exact edgeChain_append_last hch.2 (by simpa using hlast) he

theorem edgeChain_drop {g : Graph} :
    ∀ (i : Nat) {l : List String}, EdgeChain g l → EdgeChain g (l.drop i)
  | 0, l, h => h
  | i + 1, [], _ => trivial
  | i + 1, a :: rest, h => by
    simp only [List.drop_succ_cons]
    exact edgeChain_drop i (edgeChain_cons h)

theorem edgeChain_prefix {g : Graph} :
    ∀ {l : List String} {d : String}, EdgeChain g (l ++ [d]) → EdgeChain g l
  | [], _, _ => trivial
  | [_], _, _ => trivial
  | a :: b :: rest, d, h => by
    exact ⟨h.1, edgeChain_prefix (l := b :: rest) (d := d) h.2⟩

theorem edgeChain_last_edge {g : Graph} :
    ∀ {l : List String} {a d : String}, EdgeChain g (l ++ [d]) →
      l.getLast? = some a → edge g a d
  | [], a, d, _, hlast => by simp at hlast
  | [x], a, d, h, hlast => by
    simp only [List.getLast?_singleton, Option.some.injEq] at hlast
    subst hlast
    exact h.1
  | x :: y :: rest, a, d, h, hlast => by
    exact edgeChain_last_edge (l := y :: rest) h.2 (by simpa using hlast)

theorem getLast?_drop_of_lt :
    ∀ (l : List String) (i : Nat), i < l.length → (l.drop i).getLast? = l.getLast?
  | l, 0, _ => rfl
  | [], i + 1, h => by simp at h
  | x :: rest, i + 1, h => by
    simp only [List.drop_succ_cons]
    rw [getLast?_drop_of_lt rest i (by simpa using h)]
    cases rest with
    | nil => simp at h
    | cons y t => rfl

/-- The suffix of an edge chain from the first occurrence of its (repeated)
last element forms a cycle path: it is `c ++ [n]` for a genuine cycle `c`
headed by `n`, and its node set is the cycle's node set. -/
theorem cycle_of_chain_suffix {g : Graph} {path : List String} {n : String}
    (hch : EdgeChain g path) (hmem : n ∈ path.dropLast)
    (hlast : path.getLast? = some n) :
    ∃ c, IsCycle g c ∧ (path.drop (path.indexOf n)).toFinset = c.toFinset ∧
      path.drop (path.indexOf n) = c ++ [n] ∧ c.head? = some n := by
  classical
  have hnpath : n ∈ path := List.mem_of_mem_dropLast hmem
  have hilt : List.indexOf n path < path.length := List.indexOf_lt_length.mpr hnpath
  have hpd : path.dropLast ++ [n] = path := List.dropLast_append_getLast? n hlast
  have hidx : List.indexOf n path < path.length - 1 := by
    have h1 : List.indexOf n (path.dropLast ++ [n]) = List.indexOf n path.dropLast :=
      List.indexOf_append_of_mem hmem
    rw [hpd] at h1
    have h2 : List.indexOf n path.dropLast < path.dropLast.length :=
      List.indexOf_lt_length.mpr hmem
    have h3 : path.dropLast.length = path.length - 1 := List.length_dropLast path
    omega
  set i := List.indexOf n path with hi
  set s := path.drop i with hs
  have hshead : s = n :: path.drop (i + 1) := by
    rw [hs, List.drop_eq_getElem_cons hilt, List.getElem_indexOf hilt]
  have hslen : 2 ≤ s.length := by
    rw [hs, List.length_drop]
    omega
  have hslast : s.getLast? = some n := by
    rw [hs, getLast?_drop_of_lt path i hilt]
    exact hlast
  have hsch : EdgeChain g s := edgeChain_drop i hch
  set c := s.dropLast with hc
  have hsd : c ++ [n] = s := List.dropLast_append_getLast? n hslast
  have hchead : c.head? = some n := by
    rw [hc, List.head?_dropLast, if_pos (by omega)]
    rw [hshead]
    rfl
  obtain ⟨c', hc'⟩ : ∃ c', c = n :: c' := by
    cases hcc : c with
    | nil => rw [hcc] at hchead; cases hchead
    | cons x t =>
      rw [hcc] at hchead
      simp only [List.head?_cons, Option.some.injEq] at hchead
      exact ⟨t, by rw [hchead]⟩
  have hcycle : IsCycle g c := by
    have h1 : EdgeChain g (c ++ [n]) := by rw [hsd]; exact hsch
    rw [hc'] at h1 ⊢
    exact h1
  refine ⟨c, hcycle, ?_, hsd.symm, hchead⟩
  rw [← hsd, List.toFinset_append]
  simp only [List.toFinset_cons, List.toFinset_nil]
  have hnc : n ∈ c.toFinset := by
    rw [hc']
    simp
  rw [show insert n (∅ : Finset String) = {n} from rfl]
  exact Finset.union_eq_left.mpr (by simpa using hnc)

/-- Once the fold of `dfsNode` has found a cycle it only passes it along. -/
theorem dfs_foldl_found (g : Graph) (fuel : Nat) (n : String)
    (path recStack : List String) :
    ∀ (ds : List String) (c vis : List String),
      ds.foldl
        (fun acc d =>
          match acc with
          | (some c, vis) => (some c, vis)
          | (none, vis) => dfsNode g fuel d (path ++ [d]) vis (n :: recStack))
        (some c, vis) = (some c, vis)
  | [], c, vis => rfl
  | d :: ds, c, vis => dfs_foldl_found g fuel n path recStack ds c vis

/-- Soundness of one DFS call: a reported path is `c ++ [m]` for a genuine
cycle `c` of the graph headed by `m`, and its node set is the cycle's. -/
theorem dfsNode_sound (g : Graph) :
    ∀ (fuel : Nat) (n : String) (path visited recStack : List String)
      (r vis' : List String),
      EdgeChain g path → path.getLast? = some n →
      (∀ x ∈ recStack, x ∈ path.dropLast) →
      dfsNode g fuel n path visited recStack = (some r, vis') →
      ∃ c, IsCycle g c ∧ r.toFinset = c.toFinset ∧
        ∃ m, r = c ++ [m] ∧ c.head? = some m := by
  intro fuel
  induction fuel with
  | zero => intro n path visited recStack r vis' _ _ _ h; cases h
  | succ fuel IH =>
    intro n path visited recStack r vis' hch hlast hrs h
    rw [dfsNode] at h
    by_cases hin : n ∈ recStack
    · rw [if_pos hin] at h
      simp only [Prod.mk.injEq, Option.some.injEq] at h
      obtain ⟨hr, -⟩ := h
      obtain ⟨c, hcyc, hfin, heq, hhead⟩ :=
        cycle_of_chain_suffix hch (hrs n hin) hlast
      exact ⟨c, hcyc, hr ▸ hfin, n, hr ▸ heq, hhead⟩
    · rw [if_neg hin] at h
      by_cases hvis : n ∈ visited
      · rw [if_pos hvis] at h; cases h
      · rw [if_neg hvis] at h
        -- the children fold
        have hnpath : n ∈ path := List.mem_of_getLast?_eq_some hlast
        have hrs' : ∀ x ∈ n :: recStack, x ∈ path := by
          intro x hx
          rcases List.mem_cons.mp hx with rfl | hx
          · exact hnpath
          · exact List.mem_of_mem_dropLast (hrs x hx)
        have hdeps : ∀ d ∈ depsOf g n, edge g n d := fun d hd => hd
        clear hin hvis
        revert h
        generalize (n :: visited) = vis0
        revert hdeps
        generalize depsOf g n = ds
        induction ds generalizing vis0 with
        | nil => intro _ h; cases h
        | cons d ds ihds =>
          intro hdeps h
          simp only [List.foldl_cons] at h
          rcases hstep : dfsNode g fuel d (path ++ [d]) vis0 (n :: recStack) with ⟨res, vis1⟩
          rw [hstep] at h
          cases res with
          | some c0 =>
            rw [dfs_foldl_found g fuel n path recStack ds c0 vis1] at h
            simp only [Prod.mk.injEq, Option.some.injEq] at h
            obtain ⟨hr, -⟩ := h
            subst hr
            refine IH d (path ++ [d]) vis0 (n :: recStack) c0 vis1 ?_ ?_ ?_ hstep
            · exact edgeChain_append_last hch hlast (hdeps d (by simp))
            · exact List.getLast?_concat path
            · intro x hx
              rw [List.dropLast_concat]
              exact hrs' x hx
          | none =>
            exact ihds vis1 (fun d hd => hdeps d (List.mem_cons_of_mem _ hd)) h

/-! ### Completeness of the cycle detection

The invariant is the classic white/gray/black argument: in a run that
reports no cycle, the fully-processed (black) nodes form a list `RF`
(most recently finished first) in which every node's dependencies appear
strictly later — `ClosedR` below.  A graph with a reverse-topologically
ordered list of its keys has no cycle. -/

/-- Every node's dependencies appear strictly later in the list. -/
def ClosedR (g : Graph) : List String → Prop
  | [] => True
  | v :: rest => (∀ d ∈ depsOf g v, d ∈ rest) ∧ ClosedR g rest

theorem closedR_append_right (g : Graph) :
    ∀ (pre rest : List String), ClosedR g (pre ++ rest) → ClosedR g rest
  | [], rest, h => h
  | p :: pre, rest, h => closedR_append_right g pre rest h.2

/-- Walking an edge chain from a node of a `ClosedR` list lands strictly
later in the list: the chain's last element lies in the tail after the
head's position. -/
theorem chain_last_mem_tail (g : Graph) :
    ∀ (m : Nat) (R : List String), R.length ≤ m → ClosedR g R →
      ∀ (l : List String) (a b : String) (suf : List String), R = a :: suf →
        EdgeChain g l → l.head? = some a → l.getLast? = some b → 2 ≤ l.length →
        b ∈ suf := by
  intro m
  induction m with
  | zero => intro R hR _ l a b suf hdec _ _ _ _; subst hdec; simp at hR
  | succ m IH =>
    intro R hR hcl l a b suf hdec hch hhead hlast hlen
    subst hdec
    match l, hhead with
    | a0 :: l1, hhead =>
      simp only [List.head?_cons, Option.some.injEq] at hhead
      subst hhead
      match l1, hlen with
      | x :: l2, _ =>
        have hedge : edge g a0 x := hch.1
        have hxsuf : x ∈ suf := hcl.1 x hedge
        cases l2 with
        | nil =>
          simp only [List.getLast?_cons_cons, List.getLast?_singleton,
            Option.some.injEq] at hlast
          subst hlast
          exact hxsuf
        | cons y l3 =>
          obtain ⟨pre2, suf2, hsufdec⟩ := List.append_of_mem hxsuf
          have hcl2 : ClosedR g (x :: suf2) := by
            have h1 : ClosedR g suf := hcl.2
            rw [hsufdec] at h1
            exact closedR_append_right g pre2 (x :: suf2) h1
          have hblen : (x :: suf2).length ≤ m := by
            have : suf.length ≤ m := by simpa using hR
            rw [hsufdec] at this
            simp only [List.length_append, List.length_cons] at this ⊢
            omega
          have hbmem : b ∈ suf2 := by
            refine IH (x :: suf2) hblen hcl2 (x :: y :: l3) x b suf2 rfl hch.2 rfl ?_
              (by simp)
            simpa using hlast
          rw [hsufdec]
          exact List.mem_append.mpr (Or.inr (List.mem_cons_of_mem x hbmem))

theorem edgeChain_append_right (g : Graph) :
    ∀ (l1 l2 : List String), EdgeChain g (l1 ++ l2) → EdgeChain g l2
  | [], l2, h => h
  | [x], l2, h => by
    cases l2 with
    | nil => trivial
    | cons y t => exact h.2
  | x :: y :: l1, l2, h => edgeChain_append_right g (y :: l1) l2 h.2

theorem edgeChain_append_left (g : Graph) :
    ∀ (l1 l2 : List String), EdgeChain g (l1 ++ l2) → EdgeChain g l1
  | [], _, _ => trivial
  | [x], _, _ => trivial
  | x :: y :: l1, l2, h =>
    ⟨h.1, edgeChain_append_left g (y :: l1) l2 h.2⟩

/-- Glue two chains sharing an endpoint. -/
theorem edgeChain_glue (g : Graph) :
    ∀ (l1 : List String) (m : String) (l2 : List String),
      EdgeChain g (l1 ++ [m]) → EdgeChain g (m :: l2) →
      EdgeChain g (l1 ++ m :: l2)
  | [], m, l2, _, h2 => h2
  | [x], m, l2, h1, h2 => ⟨h1.1, h2⟩
  | x :: y :: l1, m, l2, h1, h2 =>
    ⟨h1.1, edgeChain_glue g (y :: l1) m l2 h1.2 h2⟩

/-- A cycle through `x` yields a closed edge chain from `x` back to `x`. -/
theorem cycle_rotation (g : Graph) (c : List String) (hcyc : IsCycle g c)
    (x : String) (hx : x ∈ c) :
    ∃ l, EdgeChain g l ∧ l.head? = some x ∧ l.getLast? = some x ∧ 2 ≤ l.length := by
  match c, hcyc with
  | a :: rest, hcyc =>
    have hl0 : EdgeChain g ((a :: rest) ++ [a]) := by
      simpa using (hcyc : EdgeChain g (a :: (rest ++ [a])))
    obtain ⟨p, q, hdec⟩ := List.append_of_mem hx
    cases p with
    | nil =>
      -- x is the head of the cycle
      simp only [List.nil_append, List.cons.injEq] at hdec
      obtain ⟨hxa, -⟩ := hdec
      subst hxa
      refine ⟨(a :: rest) ++ [a], hl0, by simp, ?_, by simp⟩
      rw [List.getLast?_concat]
    | cons a0 p' =>
      have ha0 : a0 = a := by
        have h1 := congrArg List.head? hdec
        simpa using h1.symm
      subst ha0
      have hrest : rest = p' ++ x :: q := by
        have h1 := congrArg List.tail hdec
        simpa using h1
      -- piece 1: from x through q to a
      have hp1 : EdgeChain g ((x :: q) ++ [a0]) := by
        have : EdgeChain g ((a0 :: p') ++ ((x :: q) ++ [a0])) := by
          simpa [hdec, List.append_assoc] using hl0
        exact edgeChain_append_right g (a0 :: p') _ this
      -- piece 2: from a through p' to x
      have hp2 : EdgeChain g (a0 :: (p' ++ [x])) := by
        have h2 : EdgeChain g (((a0 :: p') ++ [x]) ++ (q ++ [a0])) := by
          simpa [hdec, List.append_assoc] using hl0
        have := edgeChain_append_left g ((a0 :: p') ++ [x]) (q ++ [a0]) h2
        simpa using this
      refine ⟨(x :: q) ++ a0 :: (p' ++ [x]), edgeChain_glue g (x :: q) a0 _ hp1 hp2,
        by simp, ?_, by simp; omega⟩
      rw [show (x :: q) ++ a0 :: (p' ++ [x]) = ((x :: q) ++ a0 :: p') ++ [x] by simp, List.getLast?_concat]

/-- A graph admitting a duplicate-free `ClosedR` list has no cycle through
any member of that list. -/
theorem no_cycle_through_closedR (g : Graph) (RF : List String)
    (hcl : ClosedR g RF) (hnd : RF.Nodup) (c : List String) (hcyc : IsCycle g c)
    (hmem : ∃ x ∈ c, x ∈ RF) : False := by
  obtain ⟨x, hxc, hxRF⟩ := hmem
  -- rotate knowledge: we only need SOME cycle element in RF; first show the
  -- head of the cycle walks stay in RF... use the head of c directly:
  -- from x ∈ c we build a cycle chain starting at x by rotating c.
  -- Instead, we use the chain a :: (rest ++ [a]) for the head a of c and
  -- show a ∈ RF from x via the chain closure; simpler: both directions
  -- need the closure, so we argue with the chain from x around the cycle.
  obtain ⟨pre, suf, hdec⟩ := List.append_of_mem hxRF
  have hclx : ClosedR g (x :: suf) := by
    rw [hdec] at hcl
    exact closedR_append_right g pre (x :: suf) hcl
  have hxnsuf : x ∉ suf := by
    rw [hdec] at hnd
    have : (x :: suf).Nodup :=
      (List.sublist_append_right pre (x :: suf)).nodup hnd
    exact (List.nodup_cons.mp this).1
  -- build a chain from x back to x along the cycle
  obtain ⟨l, hch, hhead, hlast, hlen⟩ := cycle_rotation g c hcyc x hxc
  exact hxnsuf (chain_last_mem_tail g (x :: suf).length (x :: suf) le_rfl hclx
    l x x suf rfl hch hhead hlast hlen)

/-! ### Fuel accounting for the DFS -/

/-- The number of all-nodes not yet visited; strictly decreases whenever a
fresh node is marked visited, which bounds the DFS nesting depth. -/
def unvisitedCount (g : Graph) (visited : List String) : Nat :=
  ((allNodes g).filter (fun x => decide (x ∉ visited))).length

theorem filter_length_le_of_imp :
    ∀ (l : List String) (p q : String → Bool), (∀ x, p x = true → q x = true) →
      (l.filter p).length ≤ (l.filter q).length
  | [], _, _, _ => le_refl _
  | a :: t, p, q, h => by
    simp only [List.filter_cons]
    by_cases hp : p a = true
    · rw [if_pos hp, if_pos (h a hp)]
      simpa using filter_length_le_of_imp t p q h
    · rw [if_neg hp]
      split
      · exact le_trans (filter_length_le_of_imp t p q h) (by simp)
      · exact filter_length_le_of_imp t p q h

theorem unvisitedCount_mono (g : Graph) (v1 v2 : List String)
    (h : ∀ x, x ∈ v1 → x ∈ v2) : unvisitedCount g v2 ≤ unvisitedCount g v1 := by
  refine filter_length_le_of_imp _ _ _ ?_
  intro x hx
  simp only [decide_eq_true_eq] at hx ⊢
  exact fun hm => hx (h x hm)

theorem unvisitedCount_cons_lt (g : Graph) (n : String) (visited : List String)
    (hn : n ∈ allNodes g) (hnv : n ∉ visited) :
    unvisitedCount g (n :: visited) < unvisitedCount g visited := by
  unfold unvisitedCount
  have key : ∀ (l : List String), n ∈ l →
      (l.filter (fun x => decide (x ∉ n :: visited))).length <
        (l.filter (fun x => decide (x ∉ visited))).length := by
    intro l
    induction l with
    | nil => intro h; cases h
    | cons a t ih =>
      intro hmem
      simp only [List.filter_cons]
      by_cases han : a = n
      · subst han
        rw [if_neg (by simp), if_pos (by simpa using hnv)]
        have hle : (t.filter (fun x => decide (x ∉ a :: visited))).length ≤
            (t.filter (fun x => decide (x ∉ visited))).length := by
          refine filter_length_le_of_imp _ _ _ ?_
          intro x hx
          simp only [decide_eq_true_eq, List.mem_cons] at hx ⊢
          exact fun hm => hx (Or.inr hm)
        simpa using Nat.lt_succ_of_le hle
      · have hmem' : n ∈ t := by
          rcases List.mem_cons.mp hmem with h | h
          · exact absurd h.symm han
          · exact h
        by_cases hav : a ∈ visited
        · rw [if_neg (by simp [hav]), if_neg (by simp [hav])]
          exact ih hmem'
        · rw [if_pos (by simp [hav, han]), if_pos (by simp [hav])]
          simpa using ih hmem'
  exact key (allNodes g) hn

/-! ### Membership in `allNodes` -/

theorem mem_insertNew_of_mem (acc : List String) (r x : String) (h : x ∈ acc) :
    x ∈ insertNew acc r := by
  unfold insertNew
  split
  · exact h
  · exact List.mem_append.mpr (Or.inl h)

theorem mem_insertNew_self (acc : List String) (r : String) : r ∈ insertNew acc r := by
  unfold insertNew
  split
  · assumption
  · exact List.mem_append.mpr (Or.inr (by simp))

theorem mem_foldl_insertNew_of_mem :
    ∀ (ds acc : List String) (x : String), x ∈ acc → x ∈ ds.foldl insertNew acc
  | [], acc, x, h => h
  | d :: ds, acc, x, h =>
    mem_foldl_insertNew_of_mem ds (insertNew acc d) x (mem_insertNew_of_mem acc d x h)

theorem mem_foldl_insertNew_self :
    ∀ (ds acc : List String) (x : String), x ∈ ds → x ∈ ds.foldl insertNew acc
  | [], _, x, h => absurd h (by simp)
  | d :: ds, acc, x, h => by
    rcases List.mem_cons.mp h with rfl | h
    · exact mem_foldl_insertNew_of_mem ds (insertNew acc x) x (mem_insertNew_self acc x)
    · exact mem_foldl_insertNew_self ds (insertNew acc d) x h

theorem mem_foldl_deps_of_mem :
    ∀ (entries : Graph) (acc : List String) (x : String), x ∈ acc →
      x ∈ entries.foldl (fun acc nd => nd.2.foldl insertNew acc) acc
  | [], _, _, h => h
  | nd :: entries, acc, x, h =>
    mem_foldl_deps_of_mem entries _ x (mem_foldl_insertNew_of_mem nd.2 acc x h)

theorem mem_foldl_keys_of_mem :
    ∀ (entries : Graph) (acc : List String) (x : String), x ∈ acc →
      x ∈ entries.foldl (fun acc nd => insertNew acc nd.1) acc
  | [], _, _, h => h
  | nd :: entries, acc, x, h =>
    mem_foldl_keys_of_mem entries _ x (mem_insertNew_of_mem acc nd.1 x h)

theorem mem_keys_fold :
    ∀ (entries : Graph) (acc : List String) (n : String),
      (∃ nd ∈ entries, nd.1 = n) ∨ n ∈ acc →
      n ∈ entries.foldl (fun acc nd => insertNew acc nd.1) acc
  | [], acc, n, h => by
    rcases h with ⟨nd, hnd, -⟩ | h
    · cases hnd
    · exact h
  | e :: es, acc, n, h => by
    simp only [List.foldl_cons]
    rcases h with ⟨nd, hnd, hn⟩ | h
    · rcases List.mem_cons.mp hnd with rfl | hnd'
      · exact mem_keys_fold es _ n (Or.inr (hn ▸ mem_insertNew_self acc nd.1))
      · exact mem_keys_fold es _ n (Or.inl ⟨nd, hnd', hn⟩)
    · exact mem_keys_fold es _ n (Or.inr (mem_insertNew_of_mem acc e.1 n h))

theorem key_mem_allNodes (g : Graph) (n : String) (h : n ∈ graphKeys g) :
    n ∈ allNodes g := by
  unfold allNodes
  refine mem_foldl_deps_of_mem g _ n ?_
  obtain ⟨nd, hnd, hn⟩ := List.mem_map.mp h
  exact mem_keys_fold g [] n (Or.inl ⟨nd, hnd, hn⟩)

theorem lookup_mem_graph :
    ∀ (g : Graph) (k : String) (v : List String), g.lookup k = some v → (k, v) ∈ g
  | [], _, _, h => by simp [List.lookup] at h
  | (k', v') :: rest, k, v, h => by
    rw [List.lookup] at h
    split at h
    · next heq =>
      cases h
      have : k = k' := by simpa using heq
      subst this
      exact List.mem_cons_self _ _
    · exact List.mem_cons_of_mem _ (lookup_mem_graph rest k v h)

theorem deps_mem_allNodes (g : Graph) (n d : String) (h : d ∈ depsOf g n) :
    d ∈ allNodes g := by
  unfold depsOf at h
  cases hl : List.lookup n g with
  | none => rw [hl] at h; cases h
  | some ds =>
    rw [hl] at h
    simp only [Option.getD_some] at h
    have hmem : (n, ds) ∈ g := lookup_mem_graph g n ds hl
    unfold allNodes
    generalize hacc : g.foldl (fun acc nd => insertNew acc nd.1) [] = acc0
    clear hacc hl
    induction g generalizing acc0 with
    | nil => cases hmem
    | cons e es ih =>
      simp only [List.foldl_cons]
      rcases List.mem_cons.mp hmem with rfl | hmem'
      · exact mem_foldl_deps_of_mem es _ d
          (mem_foldl_insertNew_self ds acc0 d h)
      · exact ih hmem' _

/-- The children fold preserves the black-list invariant in a run that
finds no cycle.  The induction hypothesis `IH` is the statement of
`dfsNode_none_inv` at the children's fuel. -/
theorem dfsFold_none_inv (g : Graph) (fuel : Nat) (n : String)
    (path recStack : List String)
    (IH : ∀ (n' : String) (path' visited' recStack' vis'' RF0 : List String),
      unvisitedCount g visited' < fuel → n' ∈ allNodes g →
      (∀ x, x ∈ visited' ↔ x ∈ RF0 ∨ x ∈ recStack') →
      ClosedR g RF0 → RF0.Nodup →
      dfsNode g fuel n' path' visited' recStack' = (none, vis'') →
      ∃ RF', ClosedR g RF' ∧ RF'.Nodup ∧
        (∀ x, x ∈ vis'' ↔ x ∈ RF' ∨ x ∈ recStack') ∧
        (∀ x ∈ RF0, x ∈ RF') ∧ (∀ x ∈ RF', x ∈ RF0 ∨ x ∉ visited') ∧ n' ∈ RF') :
    ∀ (ds vis RF vis' : List String),
      (∀ d ∈ ds, d ∈ allNodes g) →
      unvisitedCount g vis < fuel →
      (∀ x, x ∈ vis ↔ x ∈ RF ∨ x ∈ n :: recStack) →
      ClosedR g RF → RF.Nodup →
      ds.foldl (fun acc d =>
          match acc with
          | (some c, vv) => (some c, vv)
          | (none, vv) => dfsNode g fuel d (path ++ [d]) vv (n :: recStack))
        (none, vis) = (none, vis') →
      ∃ RF', ClosedR g RF' ∧ RF'.Nodup ∧
        (∀ x, x ∈ vis' ↔ x ∈ RF' ∨ x ∈ n :: recStack) ∧
        (∀ x ∈ RF, x ∈ RF') ∧ (∀ x ∈ RF', x ∈ RF ∨ x ∉ vis) ∧
        (∀ d ∈ ds, d ∈ RF')
  | [], vis, RF, vis', _, _, hinv, hcl, hnd, hfold => by
    simp only [List.foldl_nil, Prod.mk.injEq] at hfold
    obtain ⟨-, hv⟩ := hfold
    subst hv
    exact ⟨RF, hcl, hnd, hinv, fun x hx => hx, fun x hx => Or.inl hx, by simp⟩
  | d :: ds, vis, RF, vis', hds, hcount, hinv, hcl, hnd, hfold => by
    simp only [List.foldl_cons] at hfold
    rcases hstep : dfsNode g fuel d (path ++ [d]) vis (n :: recStack) with ⟨res, vis1⟩
    rw [hstep] at hfold
    cases res with
    | some c0 =>
      rw [dfs_foldl_found g fuel n path recStack ds c0 vis1] at hfold
      cases hfold
    | none =>
      obtain ⟨RF1, hcl1, hnd1, hinv1, hsub1, hfresh1, hdRF1⟩ :=
        IH d (path ++ [d]) vis (n :: recStack) vis1 RF hcount
          (hds d (by simp)) hinv hcl hnd hstep
      have hvissub : ∀ x, x ∈ vis → x ∈ vis1 := by
        intro x hx
        rcases (hinv x).mp hx with hx' | hx'
        · exact (hinv1 x).mpr (Or.inl (hsub1 x hx'))
        · exact (hinv1 x).mpr (Or.inr hx')
      obtain ⟨RF2, hcl2, hnd2, hinv2, hsub2, hfresh2, hds2⟩ :=
        dfsFold_none_inv g fuel n path recStack IH ds vis1 RF1 vis'
          (fun d' hd' => hds d' (List.mem_cons_of_mem _ hd'))
          (lt_of_le_of_lt (unvisitedCount_mono g vis vis1 hvissub) hcount)
          hinv1 hcl1 hnd1 hfold
      refine ⟨RF2, hcl2, hnd2, hinv2, fun x hx => hsub2 x (hsub1 x hx), ?_, ?_⟩
      · intro x hx
        rcases hfresh2 x hx with hx' | hx'
        · rcases hfresh1 x hx' with hx'' | hx''
          · exact Or.inl hx''
          · exact Or.inr hx''
        · exact Or.inr (fun hm => hx' (hvissub x hm))
      · intro d' hd'
        rcases List.mem_cons.mp hd' with rfl | hd''
        · exact hsub2 d' (hdRF1)
        · exact hds2 d' hd''

/-- Main invariant of a cycle-free DFS call: the visited set stays the
union of a duplicate-free reverse-topological black list and the recursion
stack, and the visited node ends up black. -/
theorem dfsNode_none_inv (g : Graph) :
    ∀ (fuel : Nat) (n : String) (path visited recStack vis' RF : List String),
      unvisitedCount g visited < fuel → n ∈ allNodes g →
      (∀ x, x ∈ visited ↔ x ∈ RF ∨ x ∈ recStack) →
      ClosedR g RF → RF.Nodup →
      dfsNode g fuel n path visited recStack = (none, vis') →
      ∃ RF', ClosedR g RF' ∧ RF'.Nodup ∧
        (∀ x, x ∈ vis' ↔ x ∈ RF' ∨ x ∈ recStack) ∧
        (∀ x ∈ RF, x ∈ RF') ∧ (∀ x ∈ RF', x ∈ RF ∨ x ∉ visited) ∧ n ∈ RF' := by
  intro fuel
  induction fuel with
  | zero => intro n path visited recStack vis' RF hcount _ _ _ _ _; omega
  | succ fuel IHf =>
    intro n path visited recStack vis' RF hcount hnall hinv hcl hnd h
    rw [dfsNode] at h
    by_cases hin : n ∈ recStack
    · rw [if_pos hin] at h; cases h
    · rw [if_neg hin] at h
      by_cases hvis : n ∈ visited
      · rw [if_pos hvis] at h
        simp only [Prod.mk.injEq] at h
        obtain ⟨-, hv⟩ := h
        subst hv
        have hnRF : n ∈ RF := by
          rcases (hinv n).mp hvis with h' | h'
          · exact h'
          · exact absurd h' hin
        exact ⟨RF, hcl, hnd, hinv, fun x hx => hx, fun x hx => Or.inl hx, hnRF⟩
      · rw [if_neg hvis] at h
        have hcount' : unvisitedCount g (n :: visited) < fuel := by
          have h1 := unvisitedCount_cons_lt g n visited hnall hvis
          omega
        have hinv' : ∀ x, x ∈ n :: visited ↔ x ∈ RF ∨ x ∈ n :: recStack := by
          intro x
          constructor
          · intro hx
            rcases List.mem_cons.mp hx with rfl | hx'
            · exact Or.inr (List.mem_cons_self _ _)
            · rcases (hinv x).mp hx' with h' | h'
              · exact Or.inl h'
              · exact Or.inr (List.mem_cons_of_mem _ h')
          · intro hx
            rcases hx with h' | h'
            · exact List.mem_cons_of_mem _ ((hinv x).mpr (Or.inl h'))
            · rcases List.mem_cons.mp h' with rfl | h''
              · exact List.mem_cons_self _ _
              · exact List.mem_cons_of_mem _ ((hinv x).mpr (Or.inr h''))
        obtain ⟨RFn, hcln, hndn, hinvn, hsubn, hfreshn, hdsn⟩ :=
          dfsFold_none_inv g fuel n path recStack IHf (depsOf g n) (n :: visited)
            RF vis' (fun d hd => deps_mem_allNodes g n d hd) hcount' hinv' hcl hnd h
        have hnfresh : n ∉ RFn := by
          intro hmem
          rcases hfreshn n hmem with h' | h'
          · exact hvis ((hinv n).mpr (Or.inl h'))
          · exact h' (List.mem_cons_self _ _)
        refine ⟨n :: RFn, ⟨hdsn, hcln⟩, List.nodup_cons.mpr ⟨hnfresh, hndn⟩, ?_, ?_, ?_, ?_⟩
        · intro x
          rw [hinvn x]
          constructor
          · intro hx
            rcases hx with hx' | hx'
            · exact Or.inl (List.mem_cons_of_mem _ hx')
            · rcases List.mem_cons.mp hx' with rfl | hx''
              · exact Or.inl (List.mem_cons_self _ _)
              · exact Or.inr hx''
          · intro hx
            rcases hx with hx' | hx'
            · rcases List.mem_cons.mp hx' with rfl | hx''
              · exact Or.inr (List.mem_cons_self _ _)
              · exact Or.inl hx''
            · exact Or.inr (List.mem_cons_of_mem _ hx')
        · exact fun x hx => List.mem_cons_of_mem _ (hsubn x hx)
        · intro x hx
          rcases List.mem_cons.mp hx with rfl | hx'
          · exact Or.inr hvis
          · rcases hfreshn x hx' with h' | h'
            · exact Or.inl h'
            · exact Or.inr (fun hm => h' (List.mem_cons_of_mem _ hm))
        · exact List.mem_cons_self _ _

/-- Soundness of the driver loop of `_detect_circular_dependencies`. -/
theorem detectCircularAux_sound (g : Graph) (fuel : Nat) :
    ∀ (keys visited r : List String),
      detectCircularAux g fuel keys visited = some r →
      ∃ c, IsCycle g c ∧ r.toFinset = c.toFinset
  | [], _, _, h => by cases h
  | n :: rest, visited, r, h => by
    rw [detectCircularAux] at h
    split at h
    · exact detectCircularAux_sound g fuel rest visited r h
    · rcases hstep : dfsNode g fuel n [n] visited [] with ⟨res, vis1⟩
      rw [hstep] at h
      cases res with
      | some c0 =>
        simp only [Option.some.injEq] at h
        subst h
        obtain ⟨c, hcyc, hfin, -⟩ :=
          dfsNode_sound g fuel n [n] visited [] c0 vis1 trivial rfl (by simp) hstep
        exact ⟨c, hcyc, hfin⟩
      | none => exact detectCircularAux_sound g fuel rest vis1 r h

/-- Completeness of the driver loop: a cycle-free report yields a
reverse-topological black list containing every graph key. -/
theorem detectCircularAux_none (g : Graph) (fuel : Nat) :
    ∀ (keys visited RF : List String),
      (∀ k ∈ keys, k ∈ allNodes g) →
      unvisitedCount g visited < fuel →
      (∀ x, x ∈ visited ↔ x ∈ RF) → ClosedR g RF → RF.Nodup →
      detectCircularAux g fuel keys visited = none →
      ∃ RF', ClosedR g RF' ∧ RF'.Nodup ∧ (∀ k ∈ keys, k ∈ RF') ∧
        (∀ x ∈ RF, x ∈ RF')
  | [], visited, RF, _, _, _, hcl, hnd, _ =>
    ⟨RF, hcl, hnd, by simp, fun x hx => hx⟩
  | n :: rest, visited, RF, hkeys, hcount, hinv, hcl, hnd, h => by
    rw [detectCircularAux] at h
    split at h
    · next hvis =>
      obtain ⟨RF', hcl', hnd', hkeys', hsub'⟩ :=
        detectCircularAux_none g fuel rest visited RF
          (fun k hk => hkeys k (List.mem_cons_of_mem _ hk)) hcount hinv hcl hnd h
      refine ⟨RF', hcl', hnd', ?_, hsub'⟩
      intro k hk
      rcases List.mem_cons.mp hk with rfl | hk'
      · exact hsub' k ((hinv k).mp hvis)
      · exact hkeys' k hk'
    · next hvis =>
      rcases hstep : dfsNode g fuel n [n] visited [] with ⟨res, vis1⟩
      rw [hstep] at h
      cases res with
      | some c0 => cases h
      | none =>
        obtain ⟨RF1, hcl1, hnd1, hinv1, hsub1, -, hnRF1⟩ :=
          dfsNode_none_inv g fuel n [n] visited [] vis1 RF hcount
            (hkeys n (by simp)) (by intro x; rw [hinv x]; simp) hcl hnd hstep
        have hvissub : ∀ x, x ∈ visited → x ∈ vis1 := by
          intro x hx
          exact (hinv1 x).mpr (Or.inl (hsub1 x ((hinv x).mp hx)))
        obtain ⟨RF', hcl', hnd', hkeys', hsub'⟩ :=
          detectCircularAux_none g fuel rest vis1 RF1
            (fun k hk => hkeys k (List.mem_cons_of_mem _ hk))
            (lt_of_le_of_lt (unvisitedCount_mono g visited vis1 hvissub) hcount)
            (by intro x; rw [hinv1 x]; simp) hcl1 hnd1 h
        refine ⟨RF', hcl', hnd', ?_, fun x hx => hsub' x (hsub1 x hx)⟩
        intro k hk
        rcases List.mem_cons.mp hk with rfl | hk'
        · exact hsub' k hnRF1
        · exact hkeys' k hk'

/-- A node with a dependency entry is a graph key. -/
theorem mem_keys_of_deps_ne_nil (g : Graph) (x : String) (h : depsOf g x ≠ []) :
    x ∈ graphKeys g := by
  unfold depsOf at h
  cases hl : List.lookup x g with
  | none => rw [hl] at h; simp at h
  | some ds =>
    exact List.mem_map.mpr ⟨(x, ds), lookup_mem_graph g x ds hl, rfl⟩

/-- Every cycle element has a cycle element as successor. -/
theorem cycle_mem_next (g : Graph) (c : List String) (hcyc : IsCycle g c)
    (x : String) (hx : x ∈ c) : ∃ y ∈ c, edge g x y := by
  match c, hcyc with
  | a :: rest, hcyc =>
    have hl0 : EdgeChain g ((a :: rest) ++ [a]) := by
      simpa using (hcyc : EdgeChain g (a :: (rest ++ [a])))
    obtain ⟨p, q, hdec⟩ := List.append_of_mem hx
    cases q with
    | nil =>
      -- x is the last element; the closing edge returns to the head
      have h2 : EdgeChain g (p ++ ([x] ++ [a])) := by
        rw [← List.append_assoc, ← hdec]
        exact hl0
      have h3 : EdgeChain g ([x] ++ [a]) := edgeChain_append_right g p ([x] ++ [a]) h2
      exact ⟨a, by simp, h3.1⟩
    | cons z q' =>
      have : EdgeChain g (x :: z :: (q' ++ [a])) := by
        have := edgeChain_append_right g p (x :: z :: (q' ++ [a])) (by
          rw [show p ++ x :: z :: (q' ++ [a]) = (p ++ x :: z :: q') ++ [a] by simp,
            ← hdec]
          exact hl0)
        exact this
      refine ⟨z, ?_, this.1⟩
      rw [hdec]
      exact List.mem_append.mpr (Or.inr (by simp))

/-- Completeness: a graph with a cycle is reported. -/
theorem detectCircular_of_cycle (g : Graph) (c : List String) (hcyc : IsCycle g c) :
    ∃ r, detectCircular g = some r := by
  cases h : detectCircular g with
  | some r => exact ⟨r, rfl⟩
  | none =>
    exfalso
    unfold detectCircular at h
    obtain ⟨RF', hcl', hnd', hkeys', -⟩ :=
      detectCircularAux_none g ((allNodes g).length + 1) (graphKeys g) [] []
        (fun k hk => key_mem_allNodes g k hk)
        (by
          have : unvisitedCount g [] ≤ (allNodes g).length :=
            List.length_filter_le _ _
          omega)
        (by simp) trivial List.nodup_nil h
    -- some cycle element is a graph key, hence in RF'
    match c, hcyc with
    | a :: rest, hcyc =>
      obtain ⟨y, hy, hedge⟩ := cycle_mem_next g (a :: rest) hcyc a (by simp)
      have hkey : a ∈ graphKeys g :=
        mem_keys_of_deps_ne_nil g a (by
          intro hnil
          rw [edge, hnil] at hedge
          cases hedge)
      exact no_cycle_through_closedR g RF' hcl' hnd' (a :: rest) hcyc
        ⟨a, by simp, hkeys' a hkey⟩

/-- C2: for every configuration whose dependency graph contains a cycle of
any length ≥ 1, `resolve` raises a Circular Reference error and returns no
tree; the reported cycle path is a genuine cycle of the graph, and when
all cycles of the graph share one node set `S` ("the true cycle"), the
reported path's node set is exactly `S`. -/
theorem c2_cycle_detection (cfg : Obj) (mx : Nat) (S : Finset String)
    (hcyc : ∃ c, IsCycle (buildGraph cfg) c)
    (huniq : ∀ c, IsCycle (buildGraph cfg) c → c.toFinset = S) :
    ∃ r c, resolve mx cfg = .error (.circularReference r) ∧
      IsCycle (buildGraph cfg) c ∧ r.toFinset = c.toFinset ∧ c.toFinset = S := by
  obtain ⟨c0, hc0⟩ := hcyc
  have hne : cfg ≠ [] := by
    rintro rfl
    match c0, hc0 with
    | a :: rest, hc0 =>
      obtain ⟨y, -, hedge⟩ := cycle_mem_next _ (a :: rest) hc0 a (by simp)
      rw [edge] at hedge
      exact absurd hedge (by simp [buildGraph, scanObj, depsOf, List.lookup])
  obtain ⟨r, hr⟩ := detectCircular_of_cycle (buildGraph cfg) c0 hc0
  obtain ⟨c, hcyc', hfin⟩ :=
    detectCircularAux_sound (buildGraph cfg) _ _ _ r hr
  refine ⟨r, c, ?_, hcyc', hfin, huniq c hcyc'⟩
  simp only [resolve, if_neg hne, hr]

/-- Scenario B: a three-element reference cycle. -/
def c2Config : Obj :=
  [("a", .vStr "\x7b\x7b values.b \x7d\x7d"),
   ("b", .vStr "\x7b\x7b values.c \x7d\x7d"),
   ("c", .vStr "\x7b\x7b values.a \x7d\x7d")]

theorem c2Config_has_cycle : IsCycle (buildGraph c2Config) ["a", "b", "c"] :=
  show EdgeChain (buildGraph c2Config) ["a", "b", "c", "a"] from
    ⟨by decide, by decide, by decide, trivial⟩

/-- Every cycle of `c2Config`'s graph has node set `{a, b, c}`. -/
theorem c2Config_unique_cycle :
    ∀ c, IsCycle (buildGraph c2Config) c → c.toFinset = {"a", "b", "c"} := by
  intro c hcyc
  have hkeys : graphKeys (buildGraph c2Config) = ["a", "b", "c"] := by decide
  have hsub : ∀ x ∈ c, x = "a" ∨ x = "b" ∨ x = "c" := by
    intro x hx
    obtain ⟨y, -, hedge⟩ := cycle_mem_next _ c hcyc x hx
    have hmem : x ∈ graphKeys (buildGraph c2Config) := by
      refine mem_keys_of_deps_ne_nil _ x ?_
      intro hnil
      rw [edge, hnil] at hedge
      cases hedge
    rw [hkeys] at hmem
    simpa using hmem
  have hda : depsOf (buildGraph c2Config) "a" = ["b"] := by decide
  have hdb : depsOf (buildGraph c2Config) "b" = ["c"] := by decide
  have hdc : depsOf (buildGraph c2Config) "c" = ["a"] := by decide
  have hab : "a" ∈ c → "b" ∈ c := by
    intro ha
    obtain ⟨y, hy, hedge⟩ := cycle_mem_next _ c hcyc "a" ha
    rw [edge, hda] at hedge
    simp only [List.mem_singleton] at hedge
    exact hedge ▸ hy
  have hbc : "b" ∈ c → "c" ∈ c := by
    intro hb
    obtain ⟨y, hy, hedge⟩ := cycle_mem_next _ c hcyc "b" hb
    rw [edge, hdb] at hedge
    simp only [List.mem_singleton] at hedge
    exact hedge ▸ hy
  have hca : "c" ∈ c → "a" ∈ c := by
    intro hc
    obtain ⟨y, hy, hedge⟩ := cycle_mem_next _ c hcyc "c" hc
    rw [edge, hdc] at hedge
    simp only [List.mem_singleton] at hedge
    exact hedge ▸ hy
  have hall : "a" ∈ c ∧ "b" ∈ c ∧ "c" ∈ c := by
    match c, hcyc with
    | a0 :: rest, _ =>
      have h0 : a0 ∈ a0 :: rest := by simp
      rcases hsub a0 h0 with rfl | rfl | rfl
      · exact ⟨h0, hab h0, hbc (hab h0)⟩
      · exact ⟨hca (hbc h0), h0, hbc h0⟩
      · exact ⟨hca h0, hab (hca h0), h0⟩
  ext x
  simp only [List.mem_toFinset, Finset.mem_insert, Finset.mem_singleton]
  constructor
  · exact hsub x
  · intro hx
    rcases hx with rfl | rfl | rfl
    · exact hall.1
    · exact hall.2.1
    · exact hall.2.2

/-- Witness for C2 at scenario B. -/
theorem c2_witness :
    (∃ c, IsCycle (buildGraph c2Config) c) ∧
      ∃ r c, resolve 10 c2Config = .error (.circularReference r) ∧
        IsCycle (buildGraph c2Config) c ∧ r.toFinset = c.toFinset ∧
        c.toFinset = {"a", "b", "c"} :=
  ⟨⟨["a", "b", "c"], c2Config_has_cycle⟩,
   c2_cycle_detection c2Config 10 {"a", "b", "c"}
     ⟨["a", "b", "c"], c2Config_has_cycle⟩ c2Config_unique_cycle⟩

/-! ## C9: Kahn's algorithm (`_topological_sort`)

The graph handed to `_topological_sort` is a Python `defaultdict(set)`:
its keys are pairwise distinct and each dependency list is
duplicate-free.  The embedding represents it as an association list, so
these two representation invariants appear as hypotheses
(`(graphKeys g).Nodup`, dependency lists `Nodup`); `buildGraph` outputs
satisfy both (all entries arise through `insertNew`). -/

/-- `insertNew` preserves duplicate-freeness. -/
theorem insertNew_nodup (acc : List String) (r : String) (h : acc.Nodup) :
    (insertNew acc r).Nodup := by
  unfold insertNew
  split
  · exact h
  · next hn =>
    refine List.nodup_append.mpr ⟨h, List.nodup_singleton r, ?_⟩
    intro a ha hb
    simp only [List.mem_singleton] at hb
    subst hb
    exact hn ha

theorem foldl_insertNew_nodup :
    ∀ (ds acc : List String), acc.Nodup → (ds.foldl insertNew acc).Nodup
  | [], _, h => h
  | d :: ds, acc, h => foldl_insertNew_nodup ds _ (insertNew_nodup acc d h)

/-- `all_nodes` is a set: the modelled insertion-ordered list is
duplicate-free. -/
theorem allNodes_nodup (g : Graph) : (allNodes g).Nodup := by
  unfold allNodes
  have keys : ∀ (es : Graph) (acc : List String), acc.Nodup →
      (es.foldl (fun acc nd => insertNew acc nd.1) acc).Nodup := by
    intro es
    induction es with
    | nil => intro acc h; exact h
    | cons e es ih => intro acc h; exact ih _ (insertNew_nodup acc e.1 h)
  have deps : ∀ (es : Graph) (acc : List String), acc.Nodup →
      (es.foldl (fun acc nd => nd.2.foldl insertNew acc) acc).Nodup := by
    intro es
    induction es with
    | nil => intro acc h; exact h
    | cons e es ih => intro acc h; exact ih _ (foldl_insertNew_nodup e.2 acc h)
  exact deps g _ (keys g [] List.nodup_nil)

/-- With distinct keys, membership determines the lookup. -/
theorem lookup_of_mem_nodup :
    ∀ (g : Graph) (p : String) (ds : List String),
      (graphKeys g).Nodup → (p, ds) ∈ g → g.lookup p = some ds
  | [], _, _, _, h => by cases h
  | (q, es) :: rest, p, ds, hnd, h => by
    simp only [graphKeys, List.map_cons, List.nodup_cons] at hnd
    rcases List.mem_cons.mp h with heq | hmem
    · injection heq with h1 h2
      subst h1
      subst h2
      simp [List.lookup]
    · have hpq : p ≠ q := by
        rintro rfl
        exact hnd.1 (List.mem_map.mpr ⟨(p, ds), hmem, rfl⟩)
      rw [List.lookup]
      have hb : (p == q) = false := by simpa using hpq
      rw [hb]
      exact lookup_of_mem_nodup rest p ds hnd.2 hmem

theorem depsOf_of_mem_nodup (g : Graph) (p : String) (ds : List String)
    (hnd : (graphKeys g).Nodup) (h : (p, ds) ∈ g) : depsOf g p = ds := by
  unfold depsOf
  rw [lookup_of_mem_nodup g p ds hnd h]
  rfl

theorem lookup_eq_none_of_not_key :
    ∀ (g : Graph) (p : String), p ∉ graphKeys g → g.lookup p = none
  | [], _, _ => rfl
  | (q, es) :: rest, p, h => by
    simp only [graphKeys, List.map_cons, List.mem_cons, not_or] at h
    rw [List.lookup]
    have hb : (p == q) = false := by simpa using h.1
    rw [hb]
    exact lookup_eq_none_of_not_key rest p (by simpa [graphKeys] using h.2)

theorem depsOf_of_not_key (g : Graph) (p : String) (h : p ∉ graphKeys g) :
    depsOf g p = [] := by
  unfold depsOf
  rw [lookup_eq_none_of_not_key g p h]
  rfl

theorem depsOf_nodup (g : Graph) (hdeps : ∀ p ds, (p, ds) ∈ g → ds.Nodup)
    (n : String) : (depsOf g n).Nodup := by
  unfold depsOf
  cases hl : g.lookup n with
  | none => simp
  | some ds => simpa using hdeps n ds (lookup_mem_graph g n ds hl)

/-- The dependencies of `n` that have not yet been emitted into `result`
(the quantity tracked by the `in_degree` table). -/
def pendingDeps (g : Graph) (result : List String) (n : String) : List String :=
  (depsOf g n).filter fun d => decide (d ∉ result)

theorem pendingDeps_nil (g : Graph) (n : String) :
    pendingDeps g [] n = depsOf g n := by
  unfold pendingDeps
  exact List.filter_eq_self.mpr fun a _ => by simp

theorem mem_pendingDeps (g : Graph) (result : List String) (d n : String) :
    d ∈ pendingDeps g result n ↔ d ∈ depsOf g n ∧ d ∉ result := by
  unfold pendingDeps
  simp [List.mem_filter]

theorem pendingDeps_nodup (g : Graph) (hdeps : ∀ p ds, (p, ds) ∈ g → ds.Nodup)
    (result : List String) (n : String) : (pendingDeps g result n).Nodup :=
  (depsOf_nodup g hdeps n).filter _

theorem pendingDeps_append (g : Graph) (result : List String) (n₀ n : String) :
    pendingDeps g (result ++ [n₀]) n =
      (pendingDeps g result n).filter fun d => decide (d ≠ n₀) := by
  unfold pendingDeps
  rw [List.filter_filter]
  apply List.filter_congr
  intro a _
  by_cases h1 : a ∈ result <;> by_cases h2 : a = n₀ <;>
    simp [h1, h2, List.mem_append]

theorem length_filter_ne_of_mem :
    ∀ (l : List String) (n₀ : String), l.Nodup → n₀ ∈ l →
      (l.filter fun d => decide (d ≠ n₀)).length + 1 = l.length
  | [], _, _, h => by cases h
  | x :: l, n₀, hnd, hmem => by
    simp only [List.nodup_cons] at hnd
    rcases List.mem_cons.mp hmem with rfl | hmem'
    · rw [List.filter_cons_of_neg (by simp)]
      rw [List.filter_eq_self.mpr fun d hd => by
        simp only [decide_eq_true_eq]
        rintro rfl
        exact hnd.1 hd]
      simp
    · have hx : x ≠ n₀ := by rintro rfl; exact hnd.1 hmem'
      rw [List.filter_cons_of_pos (by simpa using hx)]
      simp only [List.length_cons]
      rw [length_filter_ne_of_mem l n₀ hnd.2 hmem']

theorem filter_ne_of_not_mem (l : List String) (n₀ : String) (h : n₀ ∉ l) :
    (l.filter fun d => decide (d ≠ n₀)) = l :=
  List.filter_eq_self.mpr fun d hd => by
    simp only [decide_eq_true_eq]
    rintro rfl
    exact h hd

theorem eq_singleton_of_all_eq :
    ∀ (l : List String) (a : String), l.Nodup → l ≠ [] → (∀ x ∈ l, x = a) →
      l = [a]
  | [], _, _, hne, _ => absurd rfl hne
  | x :: t, a, hnd, _, hall => by
    have hx : x = a := hall x (by simp)
    subst hx
    cases t with
    | nil => rfl
    | cons y t' =>
      have hy : y = x := hall y (by simp)
      subst hy
      simp [List.nodup_cons] at hnd

/-- Every element of `l` has all its dependencies among the elements
standing before it (counting the already-fixed prefix `acc`): the
defining property of a topological order, stated recursively. -/
def DepsBefore (g : Graph) : List String → List String → Prop
  | _, [] => True
  | acc, n :: rest => (∀ d ∈ depsOf g n, d ∈ acc) ∧ DepsBefore g (acc ++ [n]) rest

theorem depsBefore_snoc (g : Graph) :
    ∀ (l acc : List String) (n : String), DepsBefore g acc l →
      (∀ d ∈ depsOf g n, d ∈ acc ++ l) → DepsBefore g acc (l ++ [n])
  | [], acc, n, _, hd => ⟨fun d hdm => by simpa using hd d hdm, trivial⟩
  | m :: l, acc, n, h, hd => by
    refine ⟨h.1, depsBefore_snoc g l (acc ++ [m]) n h.2 ?_⟩
    intro d hdm
    rw [List.append_assoc]
    simpa using hd d hdm

theorem depsBefore_mem (g : Graph) :
    ∀ (l acc : List String) (p : String), DepsBefore g acc l → p ∈ l →
      ∀ d ∈ depsOf g p, d ∈ acc ++ l
  | [], _, _, _, hp => absurd hp (by simp)
  | m :: l, acc, p, h, hp => by
    intro d hd
    rcases List.mem_cons.mp hp with rfl | hp'
    · exact List.mem_append.mpr (Or.inl (h.1 d hd))
    · have hrec := depsBefore_mem g l (acc ++ [m]) p h.2 hp' d hd
      rw [List.append_assoc] at hrec
      simpa using hrec

theorem depsBefore_split (g : Graph) :
    ∀ (pre acc l : List String) (n : String) (post : List String),
      DepsBefore g acc l → l = pre ++ n :: post →
      ∀ d ∈ depsOf g n, d ∈ acc ++ pre
  | [], acc, l, n, post, h, hl => by
    subst hl
    intro d hd
    simpa using h.1 d hd
  | m :: pre, acc, l, n, post, h, hl => by
    subst hl
    intro d hd
    have hrec := depsBefore_split g pre (acc ++ [m]) _ n post h.2 rfl d hd
    rw [List.append_assoc] at hrec
    simpa using hrec

/-- A chain inside a successor-closed set either closes a cycle or grows
while staying duplicate-free; the set's size bounds the growth, so a
cycle exists. -/
theorem cycle_extend (g : Graph) (S : List String)
    (hsucc : ∀ x ∈ S, ∃ y, y ∈ S ∧ edge g x y) :
    ∀ (k : Nat) (l : List String) (a : String),
      EdgeChain g l → l.getLast? = some a → (∀ x ∈ l, x ∈ S) → l.Nodup →
      S.length ≤ l.length + k → ∃ c, IsCycle g c := by
  intro k
  induction k with
  | zero =>
    intro l a hch hlast hsub hnd hk
    have ha : a ∈ l := List.mem_of_getLast?_eq_some hlast
    obtain ⟨y, hyS, hedge⟩ := hsucc a (hsub a ha)
    by_cases hyl : y ∈ l
    · have hch' : EdgeChain g (l ++ [y]) := edgeChain_append_last hch hlast hedge
      have hmem : y ∈ (l ++ [y]).dropLast := by rw [List.dropLast_concat]; exact hyl
      obtain ⟨c, hc, -, -, -⟩ :=
        cycle_of_chain_suffix hch' hmem (List.getLast?_concat l)
      exact ⟨c, hc⟩
    · exfalso
      have hnd' : (l ++ [y]).Nodup := by
        refine List.nodup_append.mpr ⟨hnd, List.nodup_singleton y, ?_⟩
        intro b hb hb'
        simp only [List.mem_singleton] at hb'
        subst hb'
        exact hyl hb
      have hsub' : l ++ [y] ⊆ S := by
        intro b hb
        rcases List.mem_append.mp hb with hb | hb
        · exact hsub b hb
        · simp only [List.mem_singleton] at hb
          subst hb
          exact hyS
      have := (List.subperm_of_subset hnd' hsub').length_le
      simp only [List.length_append, List.length_singleton] at this
      omega
  | succ k ih =>
    intro l a hch hlast hsub hnd hk
    have ha : a ∈ l := List.mem_of_getLast?_eq_some hlast
    obtain ⟨y, hyS, hedge⟩ := hsucc a (hsub a ha)
    by_cases hyl : y ∈ l
    · have hch' : EdgeChain g (l ++ [y]) := edgeChain_append_last hch hlast hedge
      have hmem : y ∈ (l ++ [y]).dropLast := by rw [List.dropLast_concat]; exact hyl
      obtain ⟨c, hc, -, -, -⟩ :=
        cycle_of_chain_suffix hch' hmem (List.getLast?_concat l)
      exact ⟨c, hc⟩
    · refine ih (l ++ [y]) y (edgeChain_append_last hch hlast hedge)
        (List.getLast?_concat l) ?_ ?_ ?_
      · intro b hb
        rcases List.mem_append.mp hb with hb | hb
        · exact hsub b hb
        · simp only [List.mem_singleton] at hb
          subst hb
          exact hyS
      · refine List.nodup_append.mpr ⟨hnd, List.nodup_singleton y, ?_⟩
        intro b hb hb'
        simp only [List.mem_singleton] at hb'
        subst hb'
        exact hyl hb
      · simp only [List.length_append, List.length_singleton]
        omega

/-- A nonempty set of nodes each of which has a successor inside the set
yields a cycle. -/
theorem cycle_of_successors (g : Graph) (S : List String) (hne : S ≠ [])
    (hsucc : ∀ x ∈ S, ∃ y, y ∈ S ∧ edge g x y) : ∃ c, IsCycle g c := by
  obtain ⟨x, hx⟩ : ∃ x, x ∈ S := by
    cases S with
    | nil => exact absurd rfl hne
    | cons a t => exact ⟨a, by simp⟩
  exact cycle_extend g S hsucc S.length [x] x trivial rfl
    (by simpa using hx) (List.nodup_singleton x) (by simp)

/-- The body of `kahnStep`'s fold over the graph's entries, with the
`let` expanded. -/
def kahnFoldF (n₀ : String) (st : (String → Int) × List String)
    (nd : String × List String) : (String → Int) × List String :=
  if n₀ ∈ nd.2 then
    (updFn st.1 nd.1 (st.1 nd.1 - 1),
     if st.1 nd.1 - 1 = 0 then st.2 ++ [nd.1] else st.2)
  else st

theorem kahnStep_eq_fold (g : Graph) (n₀ : String) (inDeg : String → Int) :
    kahnStep g n₀ inDeg = g.foldl (kahnFoldF n₀) (inDeg, []) := rfl

/-- Full characterization of the fold: unknown keys are untouched, each
entry's in-degree drops by one exactly when it lists the dequeued node,
and the enqueued nodes are the entries whose in-degree hits zero —
collected once each, so duplicate-free. -/
theorem kahnFold_spec (n₀ : String) :
    ∀ (es : Graph) (f : String → Int) (adds : List String),
      (es.map Prod.fst).Nodup →
      (∀ p, p ∉ es.map Prod.fst →
        (es.foldl (kahnFoldF n₀) (f, adds)).1 p = f p ∧
        ((p ∈ (es.foldl (kahnFoldF n₀) (f, adds)).2) ↔ p ∈ adds)) ∧
      (∀ p ds, (p, ds) ∈ es →
        (es.foldl (kahnFoldF n₀) (f, adds)).1 p =
          (if n₀ ∈ ds then f p - 1 else f p) ∧
        ((p ∈ (es.foldl (kahnFoldF n₀) (f, adds)).2) ↔
          p ∈ adds ∨ (n₀ ∈ ds ∧ f p = 1))) ∧
      (adds.Nodup → (∀ a ∈ adds, a ∉ es.map Prod.fst) →
        (es.foldl (kahnFoldF n₀) (f, adds)).2.Nodup)
  | [], f, adds, _ => by
    refine ⟨?_, ?_, ?_⟩
    · exact fun p _ => ⟨rfl, Iff.rfl⟩
    · intro p ds h
      cases h
    · exact fun h _ => h
  | (q, ds₀) :: es, f, adds, hnd => by
    simp only [List.map_cons, List.nodup_cons] at hnd
    have hq : q ∉ es.map Prod.fst := hnd.1
    -- the state after the head entry
    have hstep : kahnFoldF n₀ (f, adds) (q, ds₀) =
        (if n₀ ∈ ds₀ then updFn f q (f q - 1) else f,
         if n₀ ∈ ds₀ then (if f q - 1 = 0 then adds ++ [q] else adds) else adds) := by
      unfold kahnFoldF
      by_cases hm : n₀ ∈ ds₀ <;> simp [hm]
    have hf1 : ∀ p, p ≠ q →
        (if n₀ ∈ ds₀ then updFn f q (f q - 1) else f) p = f p := by
      intro p hpq
      by_cases hm : n₀ ∈ ds₀ <;> simp [hm, updFn, hpq]
    have hf1q : (if n₀ ∈ ds₀ then updFn f q (f q - 1) else f) q =
        (if n₀ ∈ ds₀ then f q - 1 else f q) := by
      by_cases hm : n₀ ∈ ds₀ <;> simp [hm, updFn]
    have hadds1 : ∀ p,
        (p ∈ (if n₀ ∈ ds₀ then (if f q - 1 = 0 then adds ++ [q] else adds) else adds) ↔
          p ∈ adds ∨ (p = q ∧ n₀ ∈ ds₀ ∧ f q = 1)) := by
      intro p
      by_cases hm : n₀ ∈ ds₀
      · by_cases hv : f q - 1 = 0
        · have hv' : f q = 1 := by omega
          simp [hm, hv, hv', List.mem_append, or_comm, and_comm]
        · have hv' : ¬ f q = 1 := by omega
          simp [hm, hv, hv']
      · simp [hm]
    obtain ⟨IH1, IH2, IH3⟩ :=
      kahnFold_spec n₀ es
        (if n₀ ∈ ds₀ then updFn f q (f q - 1) else f)
        (if n₀ ∈ ds₀ then (if f q - 1 = 0 then adds ++ [q] else adds) else adds)
        hnd.2
    refine ⟨?_, ?_, ?_⟩
    · -- unknown keys
      intro p hp
      simp only [List.map_cons, List.mem_cons, not_or] at hp
      have hpq : p ≠ q := hp.1
      have hp' : p ∉ es.map Prod.fst := hp.2
      simp only [List.foldl_cons, hstep]
      obtain ⟨e1, e2⟩ := IH1 p hp'
      refine ⟨by rw [e1, hf1 p hpq], ?_⟩
      rw [e2, hadds1 p]
      simp [hpq]
    · -- declared entries
      intro p ds hmem
      rcases List.mem_cons.mp hmem with heq | hmem'
      · injection heq with h1 h2
        subst h1
        subst h2
        simp only [List.foldl_cons, hstep]
        obtain ⟨e1, e2⟩ := IH1 p hq
        refine ⟨by rw [e1, hf1q], ?_⟩
        rw [e2, hadds1 p]
        simp
      · have hpq : p ≠ q := by
          rintro rfl
          exact hq (List.mem_map.mpr ⟨(p, ds), hmem', rfl⟩)
        simp only [List.foldl_cons, hstep]
        obtain ⟨e1, e2⟩ := IH2 p ds hmem'
        refine ⟨by rw [e1, hf1 p hpq], ?_⟩
        rw [e2, hadds1 p, hf1 p hpq]
        simp [hpq]
    · -- the collected queue additions are duplicate-free
      intro hand hdisj
      simp only [List.foldl_cons, hstep]
      refine IH3 ?_ ?_
      · by_cases hm : n₀ ∈ ds₀
        · by_cases hv : f q - 1 = 0
          · simp only [hm, hv, if_pos]
            refine List.nodup_append.mpr ⟨hand, List.nodup_singleton q, ?_⟩
            intro a ha ha'
            simp only [List.mem_singleton] at ha'
            subst ha'
            exact (hdisj a ha) (by simp)
          · simpa [hm, hv] using hand
        · simpa [hm] using hand
      · intro a ha
        have : a ∈ adds ∨ (a = q ∧ n₀ ∈ ds₀ ∧ f q = 1) := (hadds1 a).mp ha
        rcases this with h | ⟨rfl, -, -⟩
        · intro hmem
          exact hdisj a h (by simp [hmem])
        · exact hq

theorem pendingDeps_eq_nil (g : Graph) (result : List String) (n : String) :
    pendingDeps g result n = [] ↔ ∀ d ∈ depsOf g n, d ∈ result := by
  unfold pendingDeps
  rw [List.filter_eq_nil_iff]
  constructor
  · intro h d hd
    have := h d hd
    simpa using this
  · intro h d hd
    simpa using h d hd

/-- The `while queue` loop of `_topological_sort`, fully specified: under
the Kahn invariants (the in-degree table counts the dependencies not yet
emitted, queued nodes have none pending, every node with none pending is
emitted or queued, the emitted prefix is already in topological order)
the loop returns a duplicate-free list containing exactly the graph's
nodes, each standing after all of its dependencies.  Acyclicity enters
only in the completeness step: were an unemitted node left when the queue
drains, every such node would keep an unemitted dependency, yielding a
cycle by the successor-walk construction. -/
theorem kahnLoop_spec (g : Graph)
    (hkeys : (graphKeys g).Nodup)
    (hdeps : ∀ p ds, (p, ds) ∈ g → ds.Nodup)
    (hacyc : ¬ ∃ c, IsCycle g c) :
    ∀ (fuel : Nat) (inDeg : String → Int) (queue result : List String),
      (allNodes g).length < fuel + result.length →
      (result ++ queue).Nodup →
      (∀ x, x ∈ result ++ queue → x ∈ allNodes g) →
      (∀ n, inDeg n = ((pendingDeps g result n).length : Int)) →
      (∀ n, n ∈ queue → pendingDeps g result n = []) →
      (∀ n, n ∈ allNodes g → pendingDeps g result n = [] → n ∈ result ∨ n ∈ queue) →
      DepsBefore g [] result →
      (kahnLoop g fuel inDeg queue result).Nodup ∧
        (∀ x, x ∈ kahnLoop g fuel inDeg queue result ↔ x ∈ allNodes g) ∧
        DepsBefore g [] (kahnLoop g fuel inDeg queue result) := by
  intro fuel
  induction fuel with
  | zero =>
    intro inDeg queue result hfuel hnd hsub _ _ _ _
    exfalso
    have h1 : result.Nodup := (List.nodup_append.mp hnd).1
    have h2 : result ⊆ allNodes g := fun x hx => hsub x (List.mem_append.mpr (Or.inl hx))
    have := (List.subperm_of_subset h1 h2).length_le
    omega
  | succ fuel ih =>
    intro inDeg queue result hfuel hnd hsub hideg hqueue0 hcomplete horder
    cases queue with
    | nil =>
      have hres : kahnLoop g (fuel + 1) inDeg [] result = result := rfl
      rw [hres]
      have h1 : result.Nodup := by simpa using hnd
      have hmemiff : ∀ x, x ∈ result ↔ x ∈ allNodes g := by
        intro x
        constructor
        · intro hx
          exact hsub x (by simpa using hx)
        · intro hx
          by_contra hxr
          set S := (allNodes g).filter (fun y => decide (y ∉ result)) with hS
          have hxS : x ∈ S := by
            rw [hS]
            exact List.mem_filter.mpr ⟨hx, by simpa using hxr⟩
          have hSsucc : ∀ y ∈ S, ∃ z, z ∈ S ∧ edge g y z := by
            intro y hy
            rw [hS] at hy
            obtain ⟨hyA, hyr⟩ := List.mem_filter.mp hy
            have hyr' : y ∉ result := by simpa using hyr
            have hpend : pendingDeps g result y ≠ [] := by
              intro h0
              rcases hcomplete y hyA h0 with h | h
              · exact hyr' h
              · simp at h
            obtain ⟨d, hd⟩ : ∃ d, d ∈ pendingDeps g result y := by
              cases hp : pendingDeps g result y with
              | nil => exact absurd hp hpend
              | cons d t => exact ⟨d, by simp⟩
            obtain ⟨hdm, hdr⟩ := (mem_pendingDeps g result d y).mp hd
            refine ⟨d, ?_, hdm⟩
            rw [hS]
            exact List.mem_filter.mpr ⟨deps_mem_allNodes g y d hdm, by simpa using hdr⟩
          refine absurd (cycle_of_successors g S ?_ hSsucc) hacyc
          intro h0
          rw [h0] at hxS
          cases hxS
      exact ⟨h1, hmemiff, horder⟩
    | cons n₀ rest =>
      cases hks : kahnStep g n₀ inDeg with
      | mk inDeg' adds =>
        have hloop : kahnLoop g (fuel + 1) inDeg (n₀ :: rest) result =
            kahnLoop g fuel inDeg' (rest ++ adds) (result ++ [n₀]) := by
          simp only [kahnLoop, hks]
        have hn₀Q : n₀ ∉ result := by
          intro hmem
          exact (List.nodup_append.mp hnd).2.2 hmem (by simp)
        have hpend0 : pendingDeps g result n₀ = [] := hqueue0 n₀ (by simp)
        have hinD0 : inDeg n₀ = 0 := by
          rw [hideg n₀, hpend0]
          simp
        have hpendnodup : ∀ n, (pendingDeps g result n).Nodup :=
          pendingDeps_nodup g hdeps result
        obtain ⟨IH1, IH2, IH3⟩ := kahnFold_spec n₀ g inDeg [] hkeys
        have hfold : g.foldl (kahnFoldF n₀) (inDeg, []) = (inDeg', adds) := by
          rw [← kahnStep_eq_fold]
          exact hks
        have hfst : (g.foldl (kahnFoldF n₀) (inDeg, [])).1 = inDeg' := by rw [hfold]
        have hsnd : (g.foldl (kahnFoldF n₀) (inDeg, [])).2 = adds := by rw [hfold]
        rw [hfst, hsnd] at IH1 IH2
        rw [hsnd] at IH3
        have hA : ∀ p, inDeg' p = inDeg p - (if n₀ ∈ depsOf g p then 1 else 0) := by
          intro p
          by_cases hp : p ∈ graphKeys g
          · obtain ⟨pr, hmem, heq⟩ := List.mem_map.mp hp
            obtain ⟨p', ds⟩ := pr
            simp only at heq
            subst heq
            have hdeq : depsOf g p' = ds := depsOf_of_mem_nodup g p' ds hkeys hmem
            rw [(IH2 p' ds hmem).1, hdeq]
            by_cases hm : n₀ ∈ ds <;> simp [hm]
          · have hdeq : depsOf g p = [] := depsOf_of_not_key g p hp
            rw [(IH1 p hp).1, hdeq]
            simp
        have hB : ∀ p, p ∈ adds ↔ (n₀ ∈ depsOf g p ∧ inDeg p = 1) := by
          intro p
          by_cases hp : p ∈ graphKeys g
          · obtain ⟨pr, hmem, heq⟩ := List.mem_map.mp hp
            obtain ⟨p', ds⟩ := pr
            simp only at heq
            subst heq
            have hdeq : depsOf g p' = ds := depsOf_of_mem_nodup g p' ds hkeys hmem
            rw [(IH2 p' ds hmem).2, hdeq]
            simp
          · rw [depsOf_of_not_key g p hp, (IH1 p hp).2]
            simp
        have hC : adds.Nodup := by
          refine IH3 List.nodup_nil ?_
          intro a h
          cases h
        -- nodes to enqueue exclude everything already seen
        have haddsDisj : ∀ a ∈ adds, a ∉ result ∧ a ≠ n₀ ∧ a ∉ rest := by
          intro a ha
          obtain ⟨hm, hv⟩ := (hB a).mp ha
          refine ⟨?_, ?_, ?_⟩
          · intro har
            have := depsBefore_mem g result [] a horder har n₀ hm
            simp only [List.nil_append] at this
            exact hn₀Q this
          · rintro rfl
            rw [hinD0] at hv
            cases hv
          · intro har
            have h0 : pendingDeps g result a = [] := hqueue0 a (by simp [har])
            rw [hideg a, h0] at hv
            simp at hv
        have hfuel' : (allNodes g).length < fuel + (result ++ [n₀]).length := by
          simp only [List.length_append, List.length_singleton]
          omega
        have hnd' : ((result ++ [n₀]) ++ (rest ++ adds)).Nodup := by
          have hX : ((result ++ [n₀]) ++ rest).Nodup := by
            have : (result ++ [n₀]) ++ rest = result ++ (n₀ :: rest) := by
              simp [List.append_assoc]
            rw [this]
            exact hnd
          have hgoal : ((result ++ [n₀]) ++ rest) ++ adds =
              (result ++ [n₀]) ++ (rest ++ adds) := by
            simp [List.append_assoc]
          rw [← hgoal]
          refine List.nodup_append.mpr ⟨hX, hC, ?_⟩
          intro a ha ha'
          obtain ⟨h1, h2, h3⟩ := haddsDisj a ha'
          rcases List.mem_append.mp ha with h | h
          · rcases List.mem_append.mp h with h | h
            · exact h1 h
            · simp only [List.mem_singleton] at h
              exact h2 h
          · exact h3 h
        have hsub' : ∀ x, x ∈ (result ++ [n₀]) ++ (rest ++ adds) → x ∈ allNodes g := by
          intro x hx
          rcases List.mem_append.mp hx with h | h
          · rcases List.mem_append.mp h with h | h
            · exact hsub x (by simp [h])
            · simp only [List.mem_singleton] at h
              subst h
              exact hsub x (by simp)
          · rcases List.mem_append.mp h with h | h
            · exact hsub x (by simp [h])
            · have hm : n₀ ∈ depsOf g x := ((hB x).mp h).1
              have : depsOf g x ≠ [] := by
                intro h0
                rw [h0] at hm
                cases hm
              exact key_mem_allNodes g x (mem_keys_of_deps_ne_nil g x this)
        have hideg' : ∀ n, inDeg' n = ((pendingDeps g (result ++ [n₀]) n).length : Int) := by
          intro n
          rw [hA n, pendingDeps_append, hideg n]
          by_cases hm : n₀ ∈ depsOf g n
          · have hmp : n₀ ∈ pendingDeps g result n :=
              (mem_pendingDeps g result n₀ n).mpr ⟨hm, hn₀Q⟩
            have hlen := length_filter_ne_of_mem (pendingDeps g result n) n₀ (hpendnodup n) hmp
            rw [if_pos hm]
            omega
          · rw [if_neg hm,
              filter_ne_of_not_mem _ _ (fun hc => hm ((mem_pendingDeps g result n₀ n).mp hc).1)]
            simp
        have hqueue0' : ∀ n, n ∈ rest ++ adds → pendingDeps g (result ++ [n₀]) n = [] := by
          intro n hn
          rcases List.mem_append.mp hn with hn | hn
          · have h0 : pendingDeps g result n = [] := hqueue0 n (by simp [hn])
            rw [pendingDeps_append, h0]
            rfl
          · obtain ⟨hm, hv⟩ := (hB n).mp hn
            have hmp : n₀ ∈ pendingDeps g result n :=
              (mem_pendingDeps g result n₀ n).mpr ⟨hm, hn₀Q⟩
            have hlen1 : (pendingDeps g result n).length = 1 := by
              have h2 := hideg n
              rw [hv] at h2
              omega
            obtain ⟨a, ha⟩ := List.length_eq_one.mp hlen1
            have han : a = n₀ := by
              rw [ha] at hmp
              have h3 : n₀ = a := by simpa using hmp
              exact h3.symm
            subst han
            rw [pendingDeps_append, ha]
            simp
        have hcomplete' : ∀ n, n ∈ allNodes g → pendingDeps g (result ++ [n₀]) n = [] →
            n ∈ result ++ [n₀] ∨ n ∈ rest ++ adds := by
          intro n hnA hpend'
          by_cases h0 : pendingDeps g result n = []
          · rcases hcomplete n hnA h0 with h | h
            · exact Or.inl (by simp [h])
            · rcases List.mem_cons.mp h with rfl | h'
              · exact Or.inl (by simp)
              · exact Or.inr (by simp [h'])
          · have hall : ∀ a ∈ pendingDeps g result n, a = n₀ := by
              intro a ha
              have h2 := List.filter_eq_nil_iff.mp
                (by rw [← pendingDeps_append]; exact hpend') a ha
              simpa using h2
            have hsing : pendingDeps g result n = [n₀] :=
              eq_singleton_of_all_eq _ n₀ (hpendnodup n) h0 hall
            have hm : n₀ ∈ depsOf g n :=
              ((mem_pendingDeps g result n₀ n).mp (by rw [hsing]; simp)).1
            have hv : inDeg n = 1 := by
              rw [hideg n, hsing]
              simp
            exact Or.inr (List.mem_append.mpr (Or.inr ((hB n).mpr ⟨hm, hv⟩)))
        have horder' : DepsBefore g [] (result ++ [n₀]) := by
          refine depsBefore_snoc g result [] n₀ horder ?_
          intro d hd
          have := (pendingDeps_eq_nil g result n₀).mp hpend0 d hd
          simpa using this
        rw [hloop]
        exact ih inDeg' (rest ++ adds) (result ++ [n₀])
          hfuel' hnd' hsub' hideg' hqueue0' hcomplete' horder'

/-- Full correctness of `_topological_sort` (shared helper: the Kahn
invariants hold at the initial state, so `kahnLoop_spec` applies). -/
theorem topoSort_spec (g : Graph)
    (hkeys : (graphKeys g).Nodup)
    (hdeps : ∀ p ds, (p, ds) ∈ g → ds.Nodup)
    (hacyc : ¬ ∃ c, IsCycle g c) :
    (topoSort g).Nodup ∧ (∀ x, x ∈ topoSort g ↔ x ∈ allNodes g) ∧
      ∀ (pre : List String) (n : String) (post : List String),
        topoSort g = pre ++ n :: post → ∀ d ∈ depsOf g n, d ∈ pre := by
  have htopo : topoSort g =
      kahnLoop g ((allNodes g).length + 1)
        (fun n => ((depsOf g n).length : Int))
        ((allNodes g).filter fun n => ((depsOf g n).length : Int) == 0) [] := rfl
  obtain ⟨h1, h2, h3⟩ := kahnLoop_spec g hkeys hdeps hacyc
    ((allNodes g).length + 1)
    (fun n => ((depsOf g n).length : Int))
    ((allNodes g).filter fun n => ((depsOf g n).length : Int) == 0) []
    (by simp)
    (by simpa using (allNodes_nodup g).filter _)
    (by
      intro x hx
      rw [List.nil_append] at hx
      exact (List.mem_filter.mp hx).1)
    (by
      intro n
      rw [pendingDeps_nil])
    (by
      intro n hn
      obtain ⟨-, hz⟩ := List.mem_filter.mp hn
      have hz' : ((depsOf g n).length : Int) = 0 := by simpa using hz
      have hlen : (depsOf g n).length = 0 := by omega
      rw [pendingDeps_nil]
      exact List.length_eq_zero.mp hlen)
    (by
      intro n hn hp
      rw [pendingDeps_nil] at hp
      refine Or.inr (List.mem_filter.mpr ⟨hn, ?_⟩)
      rw [hp]
      simp)
    trivial
  rw [htopo]
  refine ⟨h1, h2, ?_⟩
  intro pre n post heq d hd
  have := depsBefore_split g pre [] _ n post h3 heq d hd
  simpa using this

/-- C9: for every acyclic dependency graph (carrying the `dict`/`set`
representation invariants of the Python graph: pairwise-distinct keys and
duplicate-free dependency lists), `_topological_sort` returns a list that
contains every node of the graph exactly once — `allNodes` comprises the
declared keys and every referenced-but-undeclared dependency — and in
which each node appears after every node it depends on. -/
theorem c9_topological_sort (g : Graph)
    (hkeys : (graphKeys g).Nodup)
    (hdeps : ∀ p ds, (p, ds) ∈ g → ds.Nodup)
    (hacyc : ¬ ∃ c, IsCycle g c) :
    (topoSort g).Nodup ∧ (∀ x, x ∈ topoSort g ↔ x ∈ allNodes g) ∧
      ∀ (pre : List String) (n : String) (post : List String),
        topoSort g = pre ++ n :: post → ∀ d ∈ depsOf g n, d ∈ pre :=
  topoSort_spec g hkeys hdeps hacyc

/-- Witness graph for C9: one declared key depending on an undeclared
node (the shape of spec scenario D's dependency graph). -/
def c9Graph : Graph := [("docker.image", ["frontend.name"])]

/-- Witness for C9: the hypotheses hold for `c9Graph` (acyclicity via the
cycle-completeness of the DFS: were there a cycle, `detectCircular` would
return one, but it computes to `none`), and the sorter emits the
referenced-but-undeclared node first, its dependent second. -/
theorem c9_witness :
    topoSort c9Graph = ["frontend.name", "docker.image"] ∧
      ((topoSort c9Graph).Nodup ∧
        (∀ x, x ∈ topoSort c9Graph ↔ x ∈ allNodes c9Graph) ∧
        ∀ (pre : List String) (n : String) (post : List String),
          topoSort c9Graph = pre ++ n :: post → ∀ d ∈ depsOf c9Graph n, d ∈ pre) := by
  refine ⟨by decide, c9_topological_sort c9Graph (by decide) ?_ ?_⟩
  · intro p ds h
    simp only [c9Graph, List.mem_singleton, Prod.mk.injEq] at h
    rw [h.2]
    decide
  · rintro ⟨c, hc⟩
    obtain ⟨r, hr⟩ := detectCircular_of_cycle c9Graph c hc
    have hnone : detectCircular c9Graph = none := by decide
    rw [hnone] at hr
    cases hr

/-! ## The graph built by `_build_dependency_graph` is a well-formed
`dict` of `set`s: distinct keys, duplicate-free dependency lists. -/

/-- The `defaultdict(set)` representation invariant. -/
def GraphWF (g : Graph) : Prop :=
  (graphKeys g).Nodup ∧ ∀ p ds, (p, ds) ∈ g → ds.Nodup

theorem graphKeys_addRefs (p : String) (refs : List String) :
    ∀ (g : Graph), graphKeys (addRefs p refs g) =
      if p ∈ graphKeys g then graphKeys g else graphKeys g ++ [p]
  | [] => by simp [addRefs, graphKeys]
  | (q, ds) :: rest => by
    have ih := graphKeys_addRefs p refs rest
    simp only [addRefs]
    by_cases hq : q = p
    · rw [if_pos hq]
      subst hq
      rw [if_pos (by simp [graphKeys])]
      simp [graphKeys]
    · rw [if_neg hq]
      have hpq : p ≠ q := fun h => hq h.symm
      simp only [graphKeys, List.map_cons] at *
      rw [ih]
      by_cases hp : p ∈ List.map Prod.fst rest
      · rw [if_pos hp, if_pos (by simp [hp])]
      · rw [if_neg hp, if_neg (by simp [hp, hpq])]
        simp

theorem graphKeys_addRefs_nodup (g : Graph) (p : String) (refs : List String)
    (h : (graphKeys g).Nodup) : (graphKeys (addRefs p refs g)).Nodup := by
  rw [graphKeys_addRefs]
  split
  · exact h
  · next hp =>
    refine List.nodup_append.mpr ⟨h, List.nodup_singleton p, ?_⟩
    intro a ha ha'
    simp only [List.mem_singleton] at ha'
    subst ha'
    exact hp ha

theorem addRefs_deps_nodup :
    ∀ (g : Graph) (p : String) (refs : List String),
      (∀ q ds, (q, ds) ∈ g → ds.Nodup) →
      ∀ q ds, (q, ds) ∈ addRefs p refs g → ds.Nodup
  | [], p, refs, _, q, ds, hm => by
    simp only [addRefs, List.mem_singleton] at hm
    injection hm with h1 h2
    subst h2
    exact foldl_insertNew_nodup refs [] List.nodup_nil
  | (k, es) :: rest, p, refs, h, q, ds, hm => by
    simp only [addRefs] at hm
    by_cases hk : k = p
    · rw [if_pos hk] at hm
      rcases List.mem_cons.mp hm with heq | hmem
      · injection heq with h1 h2
        subst h2
        exact foldl_insertNew_nodup refs es (h k es (by simp))
      · exact h q ds (List.mem_cons_of_mem _ hmem)
    · rw [if_neg hk] at hm
      rcases List.mem_cons.mp hm with heq | hmem
      · injection heq with h1 h2
        subst h1
        subst h2
        exact h q ds (by simp)
      · exact addRefs_deps_nodup rest p refs
          (fun q' ds' hm' => h q' ds' (List.mem_cons_of_mem _ hm')) q ds hmem

theorem addRefs_wf (g : Graph) (p : String) (refs : List String)
    (h : GraphWF g) : GraphWF (addRefs p refs g) :=
  ⟨graphKeys_addRefs_nodup g p refs h.1, addRefs_deps_nodup g p refs h.2⟩

mutual

theorem scanObj_wf :
    ∀ (g : Graph) (comps : List String) (xs : List (String × Value)),
      GraphWF g → GraphWF (scanObj g comps xs)
  | g, comps, [], hg => hg
  | g, comps, (k, v) :: rest, hg =>
    scanObj_wf _ comps rest (scanVal_wf g (comps ++ [k]) v hg)

theorem scanVal_wf :
    ∀ (g : Graph) (comps : List String) (v : Value),
      GraphWF g → GraphWF (scanVal g comps v)
  | g, comps, .vDict ys, hg => scanObj_wf g comps ys hg
  | g, comps, .vList items, hg => scanList_wf g comps items hg
  | g, comps, .vStr s, hg => addRefs_wf g _ _ hg
  | g, comps, .vInt _, hg => addRefs_wf g _ _ hg
  | g, comps, .vBool _, hg => addRefs_wf g _ _ hg
  | g, comps, .vNull, hg => addRefs_wf g _ _ hg

theorem scanList_wf :
    ∀ (g : Graph) (comps : List String) (xs : List Value),
      GraphWF g → GraphWF (scanList g comps xs)
  | g, comps, [], hg => hg
  | g, comps, .vDict ys :: rest, hg =>
    scanList_wf _ comps rest (scanObj_wf g comps ys hg)
  | g, comps, .vStr s :: rest, hg =>
    scanList_wf _ comps rest (addRefs_wf g _ _ hg)
  | g, comps, .vInt _ :: rest, hg =>
    scanList_wf _ comps rest (addRefs_wf g _ _ hg)
  | g, comps, .vBool _ :: rest, hg =>
    scanList_wf _ comps rest (addRefs_wf g _ _ hg)
  | g, comps, .vNull :: rest, hg =>
    scanList_wf _ comps rest (addRefs_wf g _ _ hg)
  | g, comps, .vList ys :: rest, hg =>
    scanList_wf _ comps rest (addRefs_wf g _ _ hg)

end

theorem buildGraph_wf (cfg : Obj) : GraphWF (buildGraph cfg) :=
  scanObj_wf [] [] cfg ⟨List.nodup_nil, fun _ _ h => nomatch h⟩

/-- Contrapositive of the DFS completeness direction: a graph on which
`_detect_circular_dependencies` reports nothing has no cycle. -/
theorem acyclic_of_detectCircular_none (g : Graph)
    (h : detectCircular g = none) : ¬ ∃ c, IsCycle g c := by
  rintro ⟨c, hc⟩
  obtain ⟨r, hr⟩ := detectCircular_of_cycle g c hc
  rw [h] at hr
  cases hr

/-! ### Every declared string-valued key receives a graph entry -/

theorem mem_graphKeys_addRefs (g : Graph) (p : String) (refs : List String)
    (q : String) (h : q ∈ graphKeys g) : q ∈ graphKeys (addRefs p refs g) := by
  rw [graphKeys_addRefs]
  split
  · exact h
  · exact List.mem_append.mpr (Or.inl h)

theorem self_mem_graphKeys_addRefs (g : Graph) (p : String) (refs : List String) :
    p ∈ graphKeys (addRefs p refs g) := by
  rw [graphKeys_addRefs]
  split
  · assumption
  · simp

mutual

theorem mem_graphKeys_scanObj :
    ∀ (g : Graph) (comps : List String) (xs : List (String × Value)) (q : String),
      q ∈ graphKeys g → q ∈ graphKeys (scanObj g comps xs)
  | g, comps, [], q, hg => hg
  | g, comps, (k, v) :: rest, q, hg =>
    mem_graphKeys_scanObj _ comps rest q (mem_graphKeys_scanVal g (comps ++ [k]) v q hg)

theorem mem_graphKeys_scanVal :
    ∀ (g : Graph) (comps : List String) (v : Value) (q : String),
      q ∈ graphKeys g → q ∈ graphKeys (scanVal g comps v)
  | g, comps, .vDict ys, q, hg => mem_graphKeys_scanObj g comps ys q hg
  | g, comps, .vList items, q, hg => mem_graphKeys_scanList g comps items q hg
  | g, comps, .vStr s, q, hg => mem_graphKeys_addRefs g _ _ q hg
  | g, comps, .vInt _, q, hg => mem_graphKeys_addRefs g _ _ q hg
  | g, comps, .vBool _, q, hg => mem_graphKeys_addRefs g _ _ q hg
  | g, comps, .vNull, q, hg => mem_graphKeys_addRefs g _ _ q hg

theorem mem_graphKeys_scanList :
    ∀ (g : Graph) (comps : List String) (xs : List Value) (q : String),
      q ∈ graphKeys g → q ∈ graphKeys (scanList g comps xs)
  | g, comps, [], q, hg => hg
  | g, comps, .vDict ys :: rest, q, hg =>
    mem_graphKeys_scanList _ comps rest q (mem_graphKeys_scanObj g comps ys q hg)
  | g, comps, .vStr s :: rest, q, hg =>
    mem_graphKeys_scanList _ comps rest q (mem_graphKeys_addRefs g _ _ q hg)
  | g, comps, .vInt _ :: rest, q, hg =>
    mem_graphKeys_scanList _ comps rest q (mem_graphKeys_addRefs g _ _ q hg)
  | g, comps, .vBool _ :: rest, q, hg =>
    mem_graphKeys_scanList _ comps rest q (mem_graphKeys_addRefs g _ _ q hg)
  | g, comps, .vNull :: rest, q, hg =>
    mem_graphKeys_scanList _ comps rest q (mem_graphKeys_addRefs g _ _ q hg)
  | g, comps, .vList ys :: rest, q, hg =>
    mem_graphKeys_scanList _ comps rest q (mem_graphKeys_addRefs g _ _ q hg)

end

/-- A top-level key holding a string value becomes a node of the
dependency graph (`graph[current_path]` is created even when the value
has no references). -/
theorem strKey_mem_scanObj :
    ∀ (xs : List (String × Value)) (g : Graph) (comps : List String)
      (k : String) (s : String), (k, .vStr s) ∈ xs →
      String.intercalate "." (comps ++ [k]) ∈ graphKeys (scanObj g comps xs)
  | [], _, _, _, _, h => absurd h (by simp)
  | (k', v') :: rest, g, comps, k, s, h => by
    rcases List.mem_cons.mp h with heq | hmem
    · injection heq with h1 h2
      subst h1
      subst h2
      simp only [scanObj]
      exact mem_graphKeys_scanObj _ comps rest _
        (self_mem_graphKeys_addRefs g _ _)
    · simp only [scanObj]
      exact strKey_mem_scanObj rest _ comps k s hmem

theorem strKey_mem_buildGraph (cfg : Obj) (k s : String)
    (h : (k, .vStr s) ∈ cfg) : k ∈ graphKeys (buildGraph cfg) := by
  have := strKey_mem_scanObj cfg [] [] k s h
  simpa using this

/-! ## Single-component key-paths: get/set as dict lookup/assignment -/

theorem splitDot_ne_nil : ∀ (acc cs : List Char), splitDot acc cs ≠ []
  | acc, [] => by simp [splitDot]
  | acc, c :: rest => by
    simp only [splitDot]
    split
    · simp
    · exact splitDot_ne_nil (acc ++ [c]) rest

theorem splitPath_ne_nil (p : String) : splitPath p ≠ [] :=
  splitDot_ne_nil [] p.data

theorem splitDot_singleton :
    ∀ (cs : List Char) (acc : List Char) (x : String),
      splitDot acc cs = [x] → x = String.mk (acc ++ cs)
  | [], acc, x, h => by
    simp only [splitDot, List.cons.injEq] at h
    rw [h.1.symm]
    simp
  | c :: rest, acc, x, h => by
    simp only [splitDot] at h
    split at h
    · next hc =>
      exfalso
      have := splitDot_ne_nil [] rest
      cases hs : splitDot [] rest with
      | nil => exact this hs
      | cons y ys => rw [hs] at h; simp at h
    · next hc =>
      have := splitDot_singleton rest (acc ++ [c]) x h
      rw [this]
      simp

theorem splitPath_singleton (p x : String) (h : splitPath p = [x]) : p = x := by
  have := splitDot_singleton p.data [] x h
  rw [this]
  simp

theorem getNested_single (cfg : Obj) (p : String) (hp : splitPath p = [p]) :
    getNested cfg p = cfg.lookup p := by
  unfold getNested
  rw [hp]
  cases h : cfg.lookup p <;> simp [getNestedV, h]

theorem setNested_single (cfg : Obj) (p : String) (v : Value)
    (hp : splitPath p = [p]) : setNested cfg p v = setKey p v cfg := by
  unfold setNested
  rw [hp]
  rfl

theorem lookup_setKey_self : ∀ (xs : Obj) (p : String) (v : Value),
    (setKey p v xs).lookup p = some v
  | [], p, v => by simp [setKey, List.lookup]
  | (k, w) :: rest, p, v => by
    simp only [setKey]
    by_cases hk : k = p
    · rw [if_pos hk]
      simp [List.lookup]
    · rw [if_neg hk]
      rw [List.lookup]
      have hb : (p == k) = false := by
        simp only [beq_eq_false_iff_ne, ne_eq]
        exact fun h => hk h.symm
      rw [hb]
      exact lookup_setKey_self rest p v

theorem lookup_setKey_ne : ∀ (xs : Obj) (p q : String) (v : Value), q ≠ p →
    (setKey p v xs).lookup q = xs.lookup q
  | [], p, q, v, h => by
    simp only [setKey, List.lookup]
    have hb : (q == p) = false := by simpa using h
    rw [hb]
  | (k, w) :: rest, p, q, v, h => by
    simp only [setKey]
    by_cases hk : k = p
    · rw [if_pos hk]
      subst hk
      rw [List.lookup, List.lookup]
      have hb : (q == k) = false := by simpa using h
      rw [hb]
    · rw [if_neg hk]
      rw [List.lookup, List.lookup]
      cases hb : q == k with
      | true => rfl
      | false => exact lookup_setKey_ne rest p q v h

theorem lookup_mem_obj : ∀ (xs : Obj) (k : String) (v : Value),
    xs.lookup k = some v → (k, v) ∈ xs
  | [], _, _, h => by simp [List.lookup] at h
  | (k', v') :: rest, k, v, h => by
    rw [List.lookup] at h
    split at h
    · next heq =>
      cases h
      have : k = k' := by simpa using heq
      subst this
      exact List.mem_cons_self _ _
    · exact List.mem_cons_of_mem _ (lookup_mem_obj rest k v h)

theorem mem_lookup_obj :
    ∀ (xs : Obj) (k : String) (v : Value),
      (xs.map Prod.fst).Nodup → (k, v) ∈ xs → xs.lookup k = some v
  | [], _, _, _, h => by cases h
  | (q, w) :: rest, k, v, hnd, h => by
    simp only [List.map_cons, List.nodup_cons] at hnd
    rcases List.mem_cons.mp h with heq | hmem
    · injection heq with h1 h2
      subst h1
      subst h2
      simp [List.lookup]
    · have hkq : k ≠ q := by
        rintro rfl
        exact hnd.1 (List.mem_map.mpr ⟨(k, v), hmem, rfl⟩)
      rw [List.lookup]
      have hb : (k == q) = false := by simpa using hkq
      rw [hb]
      exact mem_lookup_obj rest k v hnd.2 hmem

/-- Two top-level permutations of one duplicate-free dict have the same
lookups. -/
theorem perm_lookup_eq (A B : Obj) (hperm : A.Perm B)
    (hnd : (A.map Prod.fst).Nodup) : ∀ k, A.lookup k = B.lookup k := by
  have hndB : (B.map Prod.fst).Nodup := (hperm.map Prod.fst).nodup_iff.mp hnd
  intro k
  cases hA : A.lookup k with
  | some v =>
    have hmem : (k, v) ∈ B := hperm.mem_iff.mp (lookup_mem_obj A k v hA)
    rw [mem_lookup_obj B k v hndB hmem]
  | none =>
    cases hB : B.lookup k with
    | none => rfl
    | some v =>
      have hmem : (k, v) ∈ A := hperm.mem_iff.mpr (lookup_mem_obj B k v hB)
      rw [mem_lookup_obj A k v hnd hmem] at hA
      cases hA

/-- Nested lookups only see the tree through top-level lookups. -/
theorem getNested_cong (A B : Obj) (hl : ∀ k, A.lookup k = B.lookup k)
    (q : String) : getNested A q = getNested B q := by
  unfold getNested
  cases hs : splitPath q with
  | nil => exact absurd hs (splitPath_ne_nil q)
  | cons k ks => simp only [getNestedV, hl k]

/-- In a tree whose top-level values are not dicts, a successful nested
get is a top-level lookup. -/
theorem getNested_flat_lookup (cfg : Obj)
    (hflat : ∀ k w, (k, w) ∈ cfg → ∀ ys, w ≠ .vDict ys) :
    ∀ q v, getNested cfg q = some v → cfg.lookup q = some v := by
  intro q v h
  unfold getNested at h
  cases hs : splitPath q with
  | nil => exact absurd hs (splitPath_ne_nil q)
  | cons k ks =>
    rw [hs] at h
    simp only [getNestedV] at h
    cases hl : cfg.lookup k with
    | none => rw [hl] at h; cases h
    | some w =>
      rw [hl] at h
      cases ks with
      | nil =>
        simp only [getNestedV, Option.some.injEq] at h
        subst h
        have hq : q = k := splitPath_singleton q k hs
        rw [hq]
        exact hl
      | cons k2 ks' =>
        exfalso
        have hw := hflat k w (lookup_mem_obj cfg k w hl)
        cases w with
        | vDict ys => exact hw ys rfl
        | vStr s => simp [getNestedV] at h
        | vInt n => simp [getNestedV] at h
        | vBool b => simp [getNestedV] at h
        | vNull => simp [getNestedV] at h
        | vList xs => simp [getNestedV] at h

/-! ## One-pass lemmas: a single key with an unresolved value among
otherwise marker-free values -/

/-- `runPass_markerFree`, generalized to an arbitrary incoming
`changes_made` flag: a pass over a marker-free tree changes nothing and
passes the flag through. -/
theorem runPass_markerFree_flag (mx : Nat) (hmx : 1 ≤ mx) (tree : Obj)
    (hmf : markerFreeObj tree = true) :
    ∀ (order : List String) (cache : List (String × Value)) (b : Bool),
      ∃ cache', runPass mx order ⟨cache, tree⟩ b = .ok (⟨cache', tree⟩, b)
  | [], cache, b => ⟨cache, rfl⟩
  | p :: rest, cache, b => by
    simp only [runPass]
    by_cases hc : (List.lookup p cache).isSome
    · rw [show resolveKeyPath mx [] ⟨cache, tree⟩ p = .ok ⟨cache, tree⟩ from by
        simp [resolveKeyPath, hc]]
      simpa using runPass_markerFree_flag mx hmx tree hmf rest cache b
    · cases hv : getNested tree p with
      | none =>
        rw [show resolveKeyPath mx [] ⟨cache, tree⟩ p = .ok ⟨cache, tree⟩ from by
          simp [resolveKeyPath, hc, hv]; omega]
        simpa using runPass_markerFree_flag mx hmx tree hmf rest cache b
      | some v =>
        have hmfv := getNested_markerFree tree p v hmf hv
        rw [show resolveKeyPath mx [] ⟨cache, tree⟩ p = .ok ⟨(p, v) :: cache, tree⟩ from by
          simp only [resolveKeyPath, hc, Bool.false_eq_true, if_false, hv,
            resolveValue_markerFree tree v hmfv, setNested_get_id tree p v hv]
          rw [if_neg (by simp; omega)]]
        simpa using runPass_markerFree_flag mx hmx tree hmf rest ((p, v) :: cache) b

/-- A pass in which every order element other than `p` holds a marker-free
(or missing) value, while `p` holds a value resolving to `vnew` and the
tree after writing `vnew` at `p` is fully marker-free: the pass succeeds
and produces exactly that tree. -/
theorem runPass_oneKey (mx : Nat) (hmx : 1 ≤ mx) (tree : Obj) (p : String)
    (vold vnew : Value)
    (hget : getNested tree p = some vold)
    (hres : resolveValue tree vold = .ok vnew)
    (hmf' : markerFreeObj (setNested tree p vnew) = true) :
    ∀ (order : List String) (cache : List (String × Value)),
      order.Nodup →
      cache.lookup p = none →
      (∀ q, q ∈ order → q ≠ p → ∀ v, getNested tree q = some v → markerFree v = true) →
      p ∈ order →
      ∃ cache' b, runPass mx order ⟨cache, tree⟩ false =
        .ok (⟨cache', setNested tree p vnew⟩, b) := by
  intro order
  induction order with
  | nil =>
    intro cache _ _ _ hp
    cases hp
  | cons q rest ih =>
    intro cache hnd hfresh hmf hp
    simp only [List.nodup_cons] at hnd
    by_cases hqp : q = p
    · subst hqp
      simp only [runPass]
      rw [show resolveKeyPath mx [] ⟨cache, tree⟩ q = .ok ⟨(q, vnew) :: cache, setNested tree q vnew⟩ from by
        simp only [resolveKeyPath, hfresh, Option.isSome_none, Bool.false_eq_true, if_false]
        rw [if_neg (by simp; omega)]
        simp [hget, hres]]
      obtain ⟨cache', hrest⟩ :=
        runPass_markerFree_flag mx hmx (setNested tree q vnew) hmf' rest
          ((q, vnew) :: cache)
          (false || decide (getNestedSafe tree q ≠ getNestedSafe (setNested tree q vnew) q))
      exact ⟨cache', _, hrest⟩
    · have hprest : p ∈ rest := by
        rcases List.mem_cons.mp hp with h | h
        · exact absurd h.symm hqp
        · exact h
      have hmf'' : ∀ r, r ∈ rest → r ≠ p → ∀ v, getNested tree r = some v →
          markerFree v = true := fun r hr => hmf r (by simp [hr])
      simp only [runPass]
      by_cases hc : (List.lookup q cache).isSome
      · rw [show resolveKeyPath mx [] ⟨cache, tree⟩ q = .ok ⟨cache, tree⟩ from by
          simp [resolveKeyPath, hc]]
        have := ih cache hnd.2 hfresh hmf'' hprest
        simpa using this
      · cases hv : getNested tree q with
        | none =>
          rw [show resolveKeyPath mx [] ⟨cache, tree⟩ q = .ok ⟨cache, tree⟩ from by
            simp [resolveKeyPath, hc, hv]; omega]
          have := ih cache hnd.2 hfresh hmf'' hprest
          simpa using this
        | some v =>
          have hmfv : markerFree v = true := hmf q (by simp) hqp v hv
          rw [show resolveKeyPath mx [] ⟨cache, tree⟩ q = .ok ⟨(q, v) :: cache, tree⟩ from by
            simp only [resolveKeyPath, hc, Bool.false_eq_true, if_false, hv,
              resolveValue_markerFree tree v hmfv, setNested_get_id tree q v hv]
            rw [if_neg (by simp; omega)]]
          have hfresh' : (List.lookup p ((q, v) :: cache)) = none := by
            rw [List.lookup]
            have hb : (p == q) = false := by
              simp only [beq_eq_false_iff_ne, ne_eq]
              exact fun h => hqp h.symm
            rw [hb]
            exact hfresh
          have := ih ((q, v) :: cache) hnd.2 hfresh' hmf'' hprest
          simpa using this

/-- A pass in which every order element other than `p` holds a marker-free
(or missing) value while `p`'s value fails to resolve: the pass surfaces
exactly that error. -/
theorem runPass_errorAt (mx : Nat) (hmx : 1 ≤ mx) (tree : Obj) (p : String)
    (vold : Value) (e : ResolveError)
    (hget : getNested tree p = some vold)
    (hres : resolveValue tree vold = .error e) :
    ∀ (order : List String) (cache : List (String × Value)),
      order.Nodup →
      cache.lookup p = none →
      (∀ q, q ∈ order → q ≠ p → ∀ v, getNested tree q = some v → markerFree v = true) →
      p ∈ order →
      runPass mx order ⟨cache, tree⟩ false = .error e := by
  intro order
  induction order with
  | nil =>
    intro cache _ _ _ hp
    cases hp
  | cons q rest ih =>
    intro cache hnd hfresh hmf hp
    simp only [List.nodup_cons] at hnd
    by_cases hqp : q = p
    · subst hqp
      simp only [runPass]
      rw [show resolveKeyPath mx [] ⟨cache, tree⟩ q = .error e from by
        simp only [resolveKeyPath, hfresh, Option.isSome_none, Bool.false_eq_true, if_false]
        rw [if_neg (by simp; omega)]
        simp [hget, hres]]
    · have hprest : p ∈ rest := by
        rcases List.mem_cons.mp hp with h | h
        · exact absurd h.symm hqp
        · exact h
      have hmf'' : ∀ r, r ∈ rest → r ≠ p → ∀ v, getNested tree r = some v →
          markerFree v = true := fun r hr => hmf r (by simp [hr])
      simp only [runPass]
      by_cases hc : (List.lookup q cache).isSome
      · rw [show resolveKeyPath mx [] ⟨cache, tree⟩ q = .ok ⟨cache, tree⟩ from by
          simp [resolveKeyPath, hc]]
        have := ih cache hnd.2 hfresh hmf'' hprest
        simpa using this
      · cases hv : getNested tree q with
        | none =>
          rw [show resolveKeyPath mx [] ⟨cache, tree⟩ q = .ok ⟨cache, tree⟩ from by
            simp [resolveKeyPath, hc, hv]; omega]
          have := ih cache hnd.2 hfresh hmf'' hprest
          simpa using this
        | some v =>
          have hmfv : markerFree v = true := hmf q (by simp) hqp v hv
          rw [show resolveKeyPath mx [] ⟨cache, tree⟩ q = .ok ⟨(q, v) :: cache, tree⟩ from by
            simp only [resolveKeyPath, hc, Bool.false_eq_true, if_false, hv,
              resolveValue_markerFree tree v hmfv, setNested_get_id tree q v hv]
            rw [if_neg (by simp; omega)]]
          have hfresh' : (List.lookup p ((q, v) :: cache)) = none := by
            rw [List.lookup]
            have hb : (p == q) = false := by
              simp only [beq_eq_false_iff_ne, ne_eq]
              exact fun h => hqp h.symm
            rw [hb]
            exact hfresh
          have := ih ((q, v) :: cache) hnd.2 hfresh' hmf'' hprest
          simpa using this

/-- The pass loop on a marker-free tree converges immediately. -/
theorem passLoop_markerFree (mx : Nat) (hmx : 1 ≤ mx) (order : List String)
    (fuel : Nat) (tree : Obj) (hmf : markerFreeObj tree = true) :
    passLoop mx order (fuel + 1) tree = .ok tree := by
  obtain ⟨cache', h⟩ := runPass_markerFree mx hmx tree hmf order []
  simp only [passLoop, h]
  simp

/-- `resolve` on a cycle-free configuration in which exactly one
(top-level, string-valued) key `p` holds a pure reference to an existing
key-path `t` whose value is marker-free, every other key-path holding a
marker-free value: the run converges to the input tree with `t`'s value
copied over `p`. -/
theorem resolve_oneKey (mx : Nat) (hmx : 1 ≤ mx) (cfg : Obj) (p t : String)
    (s : String) (vt : Value)
    (hsp : splitPath p = [p])
    (hget : getNested cfg p = some (.vStr s))
    (hrefs : findRefs s.data ≠ [])
    (hpt : pureRefPath s = some t)
    (hgett : getNested cfg t = some vt)
    (hothers : ∀ q, q ≠ p → ∀ v, getNested cfg q = some v → markerFree v = true)
    (hmfset : markerFreeObj (setNested cfg p vt) = true)
    (hnocycle : detectCircular (buildGraph cfg) = none) :
    resolve mx cfg = .ok (setNested cfg p vt) := by
  have hpe : (p, Value.vStr s) ∈ cfg := by
    apply lookup_mem_obj
    rw [← getNested_single cfg p hsp]
    exact hget
  have hne : cfg ≠ [] := by
    rintro rfl
    cases hpe
  have hres : resolveValue cfg (.vStr s) = .ok vt := by
    simp only [resolveValue]
    rw [if_neg hrefs]
    simp only [hpt, hgett]
  obtain ⟨hwf1, hwf2⟩ := buildGraph_wf cfg
  obtain ⟨hordnd, hordmem, -⟩ := topoSort_spec (buildGraph cfg) hwf1 hwf2
    (acyclic_of_detectCircular_none _ hnocycle)
  have hporder : p ∈ topoSort (buildGraph cfg) :=
    (hordmem p).mpr (key_mem_allNodes _ p (strKey_mem_buildGraph cfg p s hpe))
  obtain ⟨cache', b, hpass⟩ := runPass_oneKey mx hmx cfg p (.vStr s) vt hget hres hmfset
    (topoSort (buildGraph cfg)) [] hordnd rfl (fun q _ hqp v hv => hothers q hqp v hv)
    hporder
  simp only [resolve]
  rw [if_neg hne]
  simp only [hnocycle]
  rw [deepCopyObj_id cfg]
  show passLoop mx (topoSort (buildGraph cfg)) maxIterations cfg =
    .ok (setNested cfg p vt)
  rw [show maxIterations = 4 + 1 from rfl]
  have hmap : (runPass mx (topoSort (buildGraph cfg)) ⟨[], cfg⟩ false).map
      (fun x => (x.1.tree, x.2)) = .ok (setNested cfg p vt, b) := by
    rw [hpass]
    rfl
  cases b with
  | false => exact passLoop_converged mx _ 4 cfg _ hmap
  | true =>
    rw [passLoop_step mx _ 4 cfg _ hmap]
    rw [show (4 : Nat) = 3 + 1 from rfl]
    exact passLoop_markerFree mx hmx _ 3 _ hmfset

/-- `resolve` on a cycle-free configuration in which exactly one
(top-level, string-valued) key `p` holds a failing value, every other
key-path holding a marker-free value: the run surfaces exactly `p`'s
error. -/
theorem resolve_errorKey (mx : Nat) (hmx : 1 ≤ mx) (cfg : Obj) (p : String)
    (s : String) (e : ResolveError)
    (hsp : splitPath p = [p])
    (hget : getNested cfg p = some (.vStr s))
    (hres : resolveValue cfg (.vStr s) = .error e)
    (hothers : ∀ q, q ≠ p → ∀ v, getNested cfg q = some v → markerFree v = true)
    (hnocycle : detectCircular (buildGraph cfg) = none) :
    resolve mx cfg = .error e := by
  have hpe : (p, Value.vStr s) ∈ cfg := by
    apply lookup_mem_obj
    rw [← getNested_single cfg p hsp]
    exact hget
  have hne : cfg ≠ [] := by
    rintro rfl
    cases hpe
  obtain ⟨hwf1, hwf2⟩ := buildGraph_wf cfg
  obtain ⟨hordnd, hordmem, -⟩ := topoSort_spec (buildGraph cfg) hwf1 hwf2
    (acyclic_of_detectCircular_none _ hnocycle)
  have hporder : p ∈ topoSort (buildGraph cfg) :=
    (hordmem p).mpr (key_mem_allNodes _ p (strKey_mem_buildGraph cfg p s hpe))
  have herr := runPass_errorAt mx hmx cfg p (.vStr s) e hget hres
    (topoSort (buildGraph cfg)) [] hordnd rfl (fun q _ hqp v hv => hothers q hqp v hv)
    hporder
  simp only [resolve]
  rw [if_neg hne]
  simp only [hnocycle]
  rw [deepCopyObj_id cfg]
  show passLoop mx (topoSort (buildGraph cfg)) maxIterations cfg = .error e
  rw [show maxIterations = 4 + 1 from rfl]
  simp only [passLoop, herr]

/-- C1 counterexample: in `c3Config` the key `p` holds a pure reference
(no filters, no surrounding text) to the key `t`, and `t` exists in the
tree — yet the tree `resolve` returns maps `p` and `t` to different
values, because the pass budget runs out while `t` keeps changing and `p`
holds a stale copy of an earlier value of `t`.  The returned value at `p`
is not the target's resolved value. -/
theorem c1_counterexample :
    getNested c3Config "p" = some (.vStr "\x7b\x7b values.t \x7d\x7d") ∧
    pureRefPath "\x7b\x7b values.t \x7d\x7d" = some "t" ∧
    (getNested c3Config "t").isSome ∧
    resolve 10 c3Config = .ok c3Partial ∧
    getNested c3Partial "p" ≠ getNested c3Partial "t" := by
  refine ⟨by decide, by decide, by decide, ?_, by decide⟩
  exact resolve_of_five_changing_passes 10 c3Config ["c", "d", "t", "p"]
    c3T1 c3T2 c3T3 c3T4 c3Partial (by decide) (by decide) c3_order
    rfl rfl rfl rfl rfl

/-- C1 (amended): for a cycle-free configuration in which a top-level key
`p` holds a pure reference to an existing key-path `t` with a marker-free
value, every other key-path holding a marker-free value (so the run
converges), `resolve` succeeds and the returned tree maps `p` to exactly
the target's value — the very same `Value`, so an integer stays an
integer, a boolean a boolean, null stays null and a list stays a list,
never a stringified form — and `t` still to that value. -/
theorem c1_amended_pure_ref (mx : Nat) (cfg : Obj) (p t s : String)
    (vt : Value) (hmx : 1 ≤ mx)
    (hsp : splitPath p = [p]) (hst : splitPath t = [t])
    (hget : getNested cfg p = some (.vStr s))
    (hrefs : findRefs s.data ≠ [])
    (hpt : pureRefPath s = some t)
    (hgett : getNested cfg t = some vt)
    (hothers : ∀ q, q ≠ p → ∀ v, getNested cfg q = some v → markerFree v = true)
    (hmfset : markerFreeObj (setNested cfg p vt) = true)
    (hnocycle : detectCircular (buildGraph cfg) = none) :
    ∃ out, resolve mx cfg = .ok out ∧
      getNested out p = some vt ∧ getNested out t = some vt := by
  have hout := resolve_oneKey mx hmx cfg p t s vt hsp hget hrefs hpt hgett
    hothers hmfset hnocycle
  refine ⟨setNested cfg p vt, hout, ?_, ?_⟩
  · rw [setNested_single cfg p vt hsp, getNested_single _ p hsp, lookup_setKey_self]
  · have hmfvt : markerFree vt = true := by
      apply getNested_markerFree (setNested cfg p vt) p vt hmfset
      rw [setNested_single cfg p vt hsp, getNested_single _ p hsp, lookup_setKey_self]
    have htp : t ≠ p := by
      rintro rfl
      rw [hget] at hgett
      injection hgett with h1
      rw [← h1] at hmfvt
      simp only [markerFree, List.isEmpty_iff] at hmfvt
      exact hrefs hmfvt
    rw [setNested_single cfg p vt hsp, getNested_single _ t hst,
      lookup_setKey_ne _ _ _ _ htp, ← getNested_single cfg t hst, hgett]

/-- Witness configuration for the amended C1: a pure reference to an
integer value. -/
def c1Cfg : Obj :=
  [("port", .vInt 8080), ("ref", .vStr "\x7b\x7b values.port \x7d\x7d")]

/-- Witness for the amended C1: resolving `c1Cfg` keeps the integer type
of the referenced value. -/
theorem c1_witness :
    ∃ out, resolve 10 c1Cfg = .ok out ∧
      getNested out "ref" = some (.vInt 8080) ∧
      getNested out "port" = some (.vInt 8080) :=
  c1_amended_pure_ref 10 c1Cfg "ref" "port" "\x7b\x7b values.port \x7d\x7d"
    (.vInt 8080) (by omega) (by decide) (by decide) (by decide) (by decide)
    (by decide) (by decide)
    (by
      intro q hq v hv
      have hl : c1Cfg.lookup q = some v := by
        apply getNested_flat_lookup c1Cfg ?_ q v hv
        intro k w hm ys
        simp only [c1Cfg, List.mem_cons, List.not_mem_nil, or_false,
          Prod.mk.injEq] at hm
        rcases hm with ⟨-, h2⟩ | ⟨-, h2⟩ <;> subst h2 <;> simp
      by_cases hq1 : q = "port"
      · subst hq1
        simp only [c1Cfg, List.lookup] at hl
        simp only [show (("port" : String) == "port") = true from by decide] at hl
        cases hl
        decide
      · by_cases hq2 : q = "ref"
        · exact absurd hq2 hq
        · exfalso
          have h1 : (q == "port") = false := by simpa using hq1
          have h2 : (q == "ref") = false := by simpa using hq2
          simp only [c1Cfg, List.lookup, h1, h2] at hl
          cases hl)
    (by decide) (by decide)

/-- A configuration with two pure references to two distinct missing
paths. -/
def c4Config : Obj :=
  [("a", .vStr "\x7b\x7b values.m1 \x7d\x7d"),
   ("b", .vStr "\x7b\x7b values.m2 \x7d\x7d")]

/-- C4 counterexample: `c4Config` contains a pure reference (at key `b`)
to the missing path `m2`, so the claim requires a Reference Resolution
error naming exactly `values.m2`; but `resolve` fails naming
`values.m1` — the first missing reference in resolution order wins, and
the error does not name the other missing path that was referenced. -/
theorem c4_counterexample :
    getNested c4Config "b" = some (.vStr "\x7b\x7b values.m2 \x7d\x7d") ∧
    pureRefPath "\x7b\x7b values.m2 \x7d\x7d" = some "m2" ∧
    getNested c4Config "m2" = none ∧
    resolve 10 c4Config = .error (.referenceResolution "values.m1") ∧
    "values.m1" ≠ "values.m2" :=
  ⟨by decide, by decide, by decide, rfl, by decide⟩

/-- C4 (amended): when the configuration is cycle-free and exactly one
(top-level, string-valued) key holds a failing value — a pure reference
to a key-path `t` missing from the tree — while every other key-path
holds a marker-free value, `resolve` fails with a Reference Resolution
error naming exactly `values.<t>`, the referenced missing path.  (With
several failing keys only the first in resolution order is named, see the
counterexample.) -/
theorem c4_amended_missing_ref (mx : Nat) (cfg : Obj) (p t s : String)
    (hmx : 1 ≤ mx)
    (hsp : splitPath p = [p])
    (hget : getNested cfg p = some (.vStr s))
    (hrefs : findRefs s.data ≠ [])
    (hpt : pureRefPath s = some t)
    (hmiss : getNested cfg t = none)
    (hothers : ∀ q, q ≠ p → ∀ v, getNested cfg q = some v → markerFree v = true)
    (hnocycle : detectCircular (buildGraph cfg) = none) :
    resolve mx cfg = .error (.referenceResolution ("values." ++ t)) := by
  apply resolve_errorKey mx hmx cfg p s _ hsp hget ?_ hothers hnocycle
  simp only [resolveValue]
  rw [if_neg hrefs]
  simp only [hpt, hmiss]

/-- Witness configuration for the amended C4: one pure reference to a
missing dotted path. -/
def c4Cfg : Obj :=
  [("name", .vStr "app"),
   ("ref", .vStr "\x7b\x7b values.missing.path \x7d\x7d")]

/-- Witness for the amended C4: the error names exactly the referenced
missing path. -/
theorem c4_witness :
    resolve 10 c4Cfg = .error (.referenceResolution "values.missing.path") :=
  c4_amended_missing_ref 10 c4Cfg "ref" "missing.path"
    "\x7b\x7b values.missing.path \x7d\x7d" (by omega) (by decide) (by decide)
    (by decide) (by decide) (by decide)
    (by
      intro q hq v hv
      have hl : c4Cfg.lookup q = some v := by
        apply getNested_flat_lookup c4Cfg ?_ q v hv
        intro k w hm ys
        simp only [c4Cfg, List.mem_cons, List.not_mem_nil, or_false,
          Prod.mk.injEq] at hm
        rcases hm with ⟨-, h2⟩ | ⟨-, h2⟩ <;> subst h2 <;> simp
      by_cases hq1 : q = "name"
      · subst hq1
        simp only [c4Cfg, List.lookup] at hl
        simp only [show (("name" : String) == "name") = true from by decide] at hl
        cases hl
        decide
      · by_cases hq2 : q = "ref"
        · exact absurd hq2 hq
        · exfalso
          have h1 : (q == "name") = false := by simpa using hq1
          have h2 : (q == "ref") = false := by simpa using hq2
          simp only [c4Cfg, List.lookup, h1, h2] at hl
          cases hl)
    (by decide)

/-- Two configurations equal as maps (the nested dict under `x` holds the
same two entries) that differ only in the nested dict's key insertion
order. -/
def c7A : Obj :=
  [("x", .vDict [("k1", .vInt 1), ("k2", .vInt 2)]),
   ("s", .vStr "v=\x7b\x7b values.x \x7d\x7d")]

/-- `c7A` with the inner dict's insertion order swapped. -/
def c7B : Obj :=
  [("x", .vDict [("k2", .vInt 2), ("k1", .vInt 1)]),
   ("s", .vStr "v=\x7b\x7b values.x \x7d\x7d")]

/-- C7 counterexample: `c7A` and `c7B` are acyclic, equal as maps (the
inner dicts are permutations of one another with distinct keys, all
other entries identical, and every key-path reads equal values), yet the
resolved trees differ: interpolating the dict stringifies it in insertion
order, so the resolved value at `s` depends on the shuffled order. -/
theorem c7_counterexample :
    List.Perm [("k1", Value.vInt 1), ("k2", Value.vInt 2)]
      [("k2", Value.vInt 2), ("k1", Value.vInt 1)] ∧
    getNested c7A "x.k1" = getNested c7B "x.k1" ∧
    getNested c7A "x.k2" = getNested c7B "x.k2" ∧
    getNested c7A "s" = getNested c7B "s" ∧
    detectCircular (buildGraph c7A) = none ∧
    detectCircular (buildGraph c7B) = none ∧
    resolve 10 c7A =
      .ok [("x", .vDict [("k1", .vInt 1), ("k2", .vInt 2)]),
           ("s", .vStr "v=\x7b'k1': 1, 'k2': 2\x7d")] ∧
    resolve 10 c7B =
      .ok [("x", .vDict [("k2", .vInt 2), ("k1", .vInt 1)]),
           ("s", .vStr "v=\x7b'k2': 2, 'k1': 1\x7d")] ∧
    (Value.vStr "v=\x7b'k1': 1, 'k2': 2\x7d" ≠
      Value.vStr "v=\x7b'k2': 2, 'k1': 1\x7d") :=
  ⟨by decide, by decide, by decide, by decide, by decide, by decide,
   rfl, rfl, by decide⟩

/-- C7 (amended): for two cycle-free configurations that are top-level
permutations of one another (same keys, identical values, shuffled
insertion order), where one key `p` holds a pure reference to an existing
marker-free key-path `t` and every other key-path holds a marker-free
value (so neither tree's resolution stringifies a container or runs out
of passes), the resolved trees are equal as maps: every key-path reads
the same value in both outputs. -/
theorem c7_amended_order_independence (mx : Nat) (cfgA cfgB : Obj)
    (p t s : String) (vt : Value) (hmx : 1 ≤ mx)
    (hperm : cfgA.Perm cfgB)
    (hndA : (cfgA.map Prod.fst).Nodup)
    (hsp : splitPath p = [p]) (hst : splitPath t = [t])
    (hget : getNested cfgA p = some (.vStr s))
    (hrefs : findRefs s.data ≠ [])
    (hpt : pureRefPath s = some t)
    (hgett : getNested cfgA t = some vt)
    (hothers : ∀ q, q ≠ p → ∀ v, getNested cfgA q = some v → markerFree v = true)
    (hmfsetA : markerFreeObj (setNested cfgA p vt) = true)
    (hmfsetB : markerFreeObj (setNested cfgB p vt) = true)
    (hnocycleA : detectCircular (buildGraph cfgA) = none)
    (hnocycleB : detectCircular (buildGraph cfgB) = none) :
    ∃ outA outB, resolve mx cfgA = .ok outA ∧ resolve mx cfgB = .ok outB ∧
      ∀ q, getNested outA q = getNested outB q := by
  have hlu : ∀ k, cfgA.lookup k = cfgB.lookup k := perm_lookup_eq cfgA cfgB hperm hndA
  have hcong : ∀ q, getNested cfgA q = getNested cfgB q := getNested_cong cfgA cfgB hlu
  have houtA := resolve_oneKey mx hmx cfgA p t s vt hsp hget hrefs hpt hgett
    hothers hmfsetA hnocycleA
  have houtB := resolve_oneKey mx hmx cfgB p t s vt hsp
    (by rw [← hcong p]; exact hget) hrefs hpt
    (by rw [← hcong t]; exact hgett)
    (fun q hq v hv => hothers q hq v (by rw [hcong q]; exact hv))
    hmfsetB hnocycleB
  refine ⟨setNested cfgA p vt, setNested cfgB p vt, houtA, houtB, ?_⟩
  intro q
  rw [setNested_single cfgA p vt hsp, setNested_single cfgB p vt hsp]
  apply getNested_cong
  intro k
  by_cases hk : k = p
  · subst hk
    rw [lookup_setKey_self, lookup_setKey_self]
  · rw [lookup_setKey_ne _ _ _ _ hk, lookup_setKey_ne _ _ _ _ hk, hlu k]

/-- Witness pair for the amended C7: spec scenario D flattened — the
reference declared before its target in one order, after it in the
other. -/
def c7WA : Obj :=
  [("frontend", .vStr "my-frontend"),
   ("image", .vStr "\x7b\x7b values.frontend \x7d\x7d")]

/-- `c7WA` with the two keys' insertion order swapped. -/
def c7WB : Obj :=
  [("image", .vStr "\x7b\x7b values.frontend \x7d\x7d"),
   ("frontend", .vStr "my-frontend")]

/-- Witness for the amended C7. -/
theorem c7_witness :
    c7WA.Perm c7WB ∧
    ∃ outA outB, resolve 10 c7WA = .ok outA ∧ resolve 10 c7WB = .ok outB ∧
      ∀ q, getNested outA q = getNested outB q := by
  refine ⟨by decide, ?_⟩
  exact c7_amended_order_independence 10 c7WA c7WB "image" "frontend"
    "\x7b\x7b values.frontend \x7d\x7d" (.vStr "my-frontend") (by omega)
    (by decide) (by decide) (by decide) (by decide) (by decide) (by decide)
    (by decide) (by decide)
    (by
      intro q hq v hv
      have hl : c7WA.lookup q = some v := by
        apply getNested_flat_lookup c7WA ?_ q v hv
        intro k w hm ys
        simp only [c7WA, List.mem_cons, List.not_mem_nil, or_false,
          Prod.mk.injEq] at hm
        rcases hm with ⟨-, h2⟩ | ⟨-, h2⟩ <;> subst h2 <;> simp
      by_cases hq1 : q = "frontend"
      · subst hq1
        simp only [c7WA, List.lookup] at hl
        simp only [show (("frontend" : String) == "frontend") = true from by decide] at hl
        cases hl
        decide
      · by_cases hq2 : q = "image"
        · exact absurd hq2 hq
        · exfalso
          have h1 : (q == "frontend") = false := by simpa using hq1
          have h2 : (q == "image") = false := by simpa using hq2
          simp only [c7WA, List.lookup, h1, h2] at hl
          cases hl)
    (by decide) (by decide) (by decide) (by decide)

end Resolver
